import Mathlib

/-! # ClosedWheeler agent: conversation turn and tool dispatch

A shallow embedding of `pkg/agent/agent.go` (`Chat`, `ChatWithStreaming`,
`handleToolCalls`, `requestTelegramApproval`, `compressContext`, `extractInsights`,
`GetUsageStats`, `splitMessage`), of `pkg/tools/registry.go` (`Executor.Execute`), of
`pkg/security/auditor.go`, of `pkg/config/oauth.go` (`IsExpired`, `NeedsRefresh`), of
`pkg/llm/oauth.go` (`ExchangeCode`), of `pkg/llm/streaming.go` (`parseSSEStream`), of
`pkg/utils/retry.go` and of `pkg/editor/editor.go` (`ApplyEdit`, `ApplyAll`,
`RollbackAll`).

The collaborators whose code is not part of the agent (model transport, memory
manager, session manager, permission manager, Telegram bot, registered tool
handlers, JSON decoder, goroutine scheduler) are fields of `Env`: functions of an
abstract world `σ` that return their answer and the next world.  Every call the
agent makes to a collaborator is also written to a list of `Event`s, in the order
in which the calls happen; properties about what was called, and when, are stated
on that list.  Logger and status-callback calls return nothing to the agent and
are left out, except where a log line marks a point the properties speak about.
-/

namespace ClosedWheeler

/-! ## Data model -/

/-- A decoded JSON value, as far as the agent looks at it: the agent only asks
whether a value is a Go `string`. -/
inductive JsonValue where
  | str (s : String)
  | other (text : String)
  deriving DecidableEq, Repr

/-- The decoded arguments `map[string]any`; the nil map is the empty list. -/
abbrev Args := List (String × JsonValue)

/-- Go: `v, ok := args[key].(string)`. -/
def Args.getString (args : Args) (key : String) : Option String :=
  match args.lookup key with
  | some (JsonValue.str s) => some s
  | _ => none

/-- Go `tools.ToolResult` (the `Data any` field is never read by the agent). -/
structure ToolResult where
  success : Bool
  output : String
  error : String
  deriving DecidableEq, Repr

/-- Go zero value of `tools.ToolResult`. -/
def ToolResult.zero : ToolResult := ⟨false, "", ""⟩

/-- Go `llm.ToolCall`: `ID`, `Function.Name`, `Function.Arguments`. -/
structure ToolCall where
  id : String
  name : String
  arguments : String
  deriving DecidableEq, Repr

/-- Go zero value of `llm.ToolCall`. -/
def ToolCall.zero : ToolCall := ⟨"", "", ""⟩

/-- Go `llm.Message`. -/
structure Message where
  role : String
  content : String
  toolCalls : List ToolCall
  toolCallID : String
  deriving DecidableEq, Repr

/-- Go `llm.Usage`. -/
structure Usage where
  promptTokens : Int
  completionTokens : Int
  totalTokens : Int
  deriving DecidableEq, Repr

/-- Go `llm.RateLimits`, as read by `GetUsageStats`. -/
structure RateLimits where
  remainingRequests : Int
  remainingTokens : Int
  resetRequests : String
  resetTokens : String
  deriving DecidableEq, Repr

/-- Go `llm.ChatResponse`: `message` is `Choices[0].Message`. -/
structure ChatResponse where
  message : Message
  usage : Usage
  rateLimits : RateLimits
  deriving DecidableEq, Repr

/-- Result of `ChatWithTools` / `ChatWithStreaming`: `(*ChatResponse, error)`. -/
inductive LLMReply where
  | ok (resp : ChatResponse)
  | failed (err : String)
  deriving DecidableEq, Repr

/-- Result of `SimpleQuery`: `(string, error)`. -/
inductive QueryReply where
  | ok (text : String)
  | failed (err : String)
  deriving DecidableEq, Repr

/-- One entry of `memory.GetMessages()`: the values under `"role"` and `"content"`. -/
structure HistoryMessage where
  role : String
  content : String
  deriving DecidableEq, Repr

/-- Go `memory.MemoryItem`, as read by `compressContext`: `Metadata.Role`, `Content`. -/
structure MemoryItem where
  role : String
  content : String
  deriving DecidableEq, Repr

/-- What the `select` of `requestTelegramApproval` receives: a value from the
approval channel, or `ctx.Done()` (timeout elapsed or session context cancelled). -/
inductive ApprovalSignal where
  | received (approved : Bool)
  | ctxDone
  deriving DecidableEq, Repr

/-- The two call sites of `executor.Execute` in `handleToolCalls`. -/
inductive ExecMode where
  | concurrent
  | sequential
  deriving DecidableEq, Repr

/-- Calls made by the agent, in the order they happen.  `idx` is the position of the
tool call in the batch being handled.  Float arguments are recorded in thousandths
(`1.0` is `1000`, `0.05` is `50`). -/
inductive Event where
  | ageWorkingMemory (rate : Nat)
  | addMessage (role content : String)
  | needsContextRefresh (systemPrompt rules projectInfo : String) (answer : Bool)
  | markContextSent (systemPrompt rules projectInfo : String)
  | getMessages (history : List HistoryMessage)
  | chatWithTools (messages : List Message) (reply : LLMReply)
  | chatWithStreaming (messages : List Message) (reply : LLMReply)
  | updateTokenUsage (promptTokens : Int)
  | executingToolCalls (count depth : Nat)
  | unmarshalFailed (idx : Nat) (name err : String)
  | requiresApproval (idx : Nat) (name : String) (answer : Bool)
  | approvalRequested (idx : Nat) (name arguments : String)
  | sendMessageWithButtons (text : String) (err : Option String)
  | logApprovalDecision (name : String) (approved : Bool)
  | logApprovalTimeout (name : String)
  | approvalReturned (idx : Nat) (err : Option String)
  | execute (mode : ExecMode) (idx : Nat) (name : String) (args : Args)
      (result : ToolResult) (err : Option String)
  | addFile (idx : Nat) (path content : String) (relevance : Nat)
  | shouldCompress (trigger : Int) (answer : Bool)
  | getItemsToCompress (items : List MemoryItem)
  | simpleQuery (prompt : String) (reply : QueryReply)
  | compressItems (summary : String)
  | resetSession
  | extractInsightsStarted
  | writeTaskFile
  | addDecision (content : String) (tags : List String)
  deriving DecidableEq, Repr

/-- The collaborators of the agent, over an abstract world `σ`. -/
structure Env (σ : Type) where
  /-- Go `json.Unmarshal([]byte(s), &args)`: the map afterwards and the error. -/
  unmarshal : String → Args × Option String
  /-- Go `llm.Client.ChatWithTools` (tool definitions and sampling parameters are read
  from the registry and the configuration, which are part of the world). -/
  chatWithTools : σ → List Message → LLMReply × σ
  /-- Go `llm.Client.ChatWithStreaming`. -/
  chatWithStreaming : σ → List Message → LLMReply × σ
  /-- Go `llm.Client.SimpleQuery`. -/
  simpleQuery : σ → String → QueryReply × σ
  /-- Go `llm.Client.HasToolCalls`. -/
  hasToolCalls : ChatResponse → Bool
  /-- Go `llm.Client.GetToolCalls`. -/
  getToolCalls : ChatResponse → List ToolCall
  /-- Go `llm.Client.GetContent`. -/
  getContent : ChatResponse → String
  /-- Go `permissions.Manager.RequiresApproval`. -/
  requiresApproval : σ → String → Bool
  /-- Go `permissions.Manager.GetApprovalTimeout`, printed with `%v`. -/
  approvalTimeoutText : σ → String
  /-- Go `config.Telegram.Enabled`. -/
  telegramEnabled : Bool
  /-- Go `config.Memory.CompressionTrigger`. -/
  compressionTrigger : Int
  /-- Text of the approval request built from the tool name and its arguments. -/
  approvalMessage : String → String → String
  /-- Go `telegram.Bot.SendMessageWithButtons`: its error. -/
  sendMessageWithButtons : σ → String → Option String × σ
  /-- The `select` on the approval channel and the timeout context. -/
  awaitApproval : σ → ApprovalSignal × σ
  /-- Go `tools.Registry.Get`: whether a tool of that name exists. -/
  registered : σ → String → Bool
  /-- The handler of a registered tool. -/
  handler : σ → String → Args → (ToolResult × Option String) × σ
  /-- Scheduler of the goroutines of one batch: a sequence of choices among the
  goroutines still running, see `completionOrder`. -/
  picks : σ → List Nat
  /-- Go `memory.Manager.AgeWorkingMemory`. -/
  ageWorkingMemory : σ → Nat → σ
  /-- Go `memory.Manager.AddMessage`. -/
  addMessage : σ → String → String → σ
  /-- Go `memory.Manager.AddFile`. -/
  addFile : σ → String → String → Nat → σ
  /-- Go `memory.Manager.GetMessages`. -/
  getMessages : σ → List HistoryMessage
  /-- Go `memory.Manager.GetContext`. -/
  getContext : σ → String
  /-- Go `memory.Manager.GetItemsToCompress`. -/
  getItemsToCompress : σ → List MemoryItem
  /-- Go `memory.Manager.CompressItems`. -/
  compressItems : σ → String → σ
  /-- Go `memory.Manager.AddDecision`. -/
  addDecision : σ → String → List String → σ
  /-- Go `SessionManager.NeedsContextRefresh`. -/
  needsContextRefresh : σ → String → String → String → Bool
  /-- Go `SessionManager.MarkContextSent`. -/
  markContextSent : σ → String → String → String → σ
  /-- Go `SessionManager.UpdateTokenUsage`. -/
  updateTokenUsage : σ → Int → σ
  /-- Go `SessionManager.GetContextStats().ShouldCompress(trigger)`. -/
  shouldCompress : σ → Int → Bool
  /-- Go `SessionManager.ResetSession`. -/
  resetSession : σ → σ
  /-- Go `prompts.RulesManager.GetFormattedRules`. -/
  formattedRules : σ → String
  /-- Go `context.ProjectContext.GetSummary`. -/
  projectSummary : σ → String
  /-- Go `Agent.getToolsSummary`. -/
  toolsSummary : σ → String
  /-- Go `prompts.NewBuilder(prompts.DetectContext(userMessage))` with the tools
  summary, project info, history and custom instructions, then `Build()`. -/
  buildSystemPrompt : String → String → String → String → String → String
  /-- Go `os.Stat(task.md)` reports that the file does not exist. -/
  taskFileMissing : σ → Bool
  /-- Go `os.WriteFile(task.md, ...)`. -/
  writeTaskFile : σ → σ

/-! ## `tools.Executor.Execute` -/

/-- Go `Executor.Execute`: look the tool up; run its handler if it exists. -/
def Executor.Execute {σ : Type} (env : Env σ) (w : σ) (name : String) (args : Args) :
    (ToolResult × Option String) × σ :=
  if env.registered w name then
    env.handler w name args
  else
    (({ success := false, output := "", error := "tool not found: " ++ name },
      some ("tool not found: " ++ name)), w)

/-! ## `Agent.requestTelegramApproval` -/

/-- Go `requestTelegramApproval`: the returned error, the next world and the calls made. -/
def requestTelegramApproval {σ : Type} (env : Env σ) (toolName args : String) (w : σ) :
    Option String × σ × List Event :=
  let msg := env.approvalMessage toolName args
  match env.sendMessageWithButtons w msg with
  | (some e, w1) =>
    (some ("failed to send approval request: " ++ e), w1,
      [Event.sendMessageWithButtons msg (some e)])
  | (none, w1) =>
    match env.awaitApproval w1 with
    | (ApprovalSignal.received approved, w2) =>
      if !approved then
        (some "user denied the operation", w2,
          [Event.sendMessageWithButtons msg none, Event.logApprovalDecision toolName approved])
      else
        (none, w2,
          [Event.sendMessageWithButtons msg none, Event.logApprovalDecision toolName approved])
    | (ApprovalSignal.ctxDone, w2) =>
      (some ("approval request timed out after " ++ env.approvalTimeoutText w1), w2,
        [Event.sendMessageWithButtons msg none, Event.logApprovalTimeout toolName])

/-! ## `Agent.handleToolCalls`: one round -/

/-- The local type `toolExecutionResult` of `handleToolCalls`. -/
structure toolExecutionResult where
  tc : ToolCall
  args : Args
  result : ToolResult
  err : Option String
  index : Nat
  deriving DecidableEq, Repr

/-- Go zero value of `toolExecutionResult`, as left by `make`. -/
def toolExecutionResult.zero : toolExecutionResult :=
  ⟨ToolCall.zero, [], ToolResult.zero, none, 0⟩

/-- Variables of the first loop of `handleToolCalls`. -/
structure Classified where
  results : List toolExecutionResult
  sensitiveCalls : List Nat
  nonSensitiveCalls : List Nat
  events : List Event
  deriving DecidableEq, Repr

/-- Body of the first loop: parse the arguments of call `i`, then classify it. -/
def classifyCall {σ : Type} (env : Env σ) (w : σ) (acc : Classified) (i : Nat)
    (tc : ToolCall) : Classified :=
  match env.unmarshal tc.arguments with
  | (args, some e) =>
    { acc with
      results := acc.results.set i
        { tc := tc, args := args,
          result := { success := false, output := "Error: " ++ e, error := "" },
          err := some e, index := i },
      events := acc.events ++ [Event.unmarshalFailed i tc.name e] }
  | (args, none) =>
    let results := acc.results.set i
      { acc.results.getD i toolExecutionResult.zero with tc := tc, args := args, index := i }
    if env.requiresApproval w tc.name then
      { acc with
        results := results,
        sensitiveCalls := acc.sensitiveCalls ++ [i],
        events := acc.events ++ [Event.requiresApproval i tc.name true] }
    else
      { acc with
        results := results,
        nonSensitiveCalls := acc.nonSensitiveCalls ++ [i],
        events := acc.events ++ [Event.requiresApproval i tc.name false] }

/-- The first loop, `for i, tc := range toolCalls`, from index `i` on. -/
def classifyLoop {σ : Type} (env : Env σ) (w : σ) :
    Nat → List ToolCall → Classified → Classified
  | _, [], acc => acc
  | i, tc :: rest, acc => classifyLoop env w (i + 1) rest (classifyCall env w acc i tc)

/-- Order in which goroutines started for the entries of `pending` run their tool:
each choice selects, modulo the number still pending, which one runs next; when the
choices run out the rest run in the order they were started. -/
def completionOrder : List Nat → List Nat → List Nat
  | _, [] => []
  | [], pending => pending
  | p :: ps, x :: xs =>
    (x :: xs).getD (p % (x :: xs).length) x ::
      completionOrder ps ((x :: xs).eraseIdx (p % (x :: xs).length))

/-- Variables of `handleToolCalls` while tools run. -/
structure Running (σ : Type) where
  results : List toolExecutionResult
  world : σ
  events : List Event

/-- Body of one goroutine: run call `i` and store its result in slot `i`. -/
def executeConcurrent {σ : Type} (env : Env σ) (st : Running σ) (i : Nat) : Running σ :=
  let slot := st.results.getD i toolExecutionResult.zero
  let out := Executor.Execute env st.world slot.tc.name slot.args
  { results := st.results.set i { slot with result := out.1.1, err := out.1.2 },
    world := out.2,
    events := st.events ++
      [Event.execute ExecMode.concurrent i slot.tc.name slot.args out.1.1 out.1.2] }

/-- Body of the loop over `sensitiveCalls`. -/
def executeSequential {σ : Type} (env : Env σ) (st : Running σ) (idx : Nat) : Running σ :=
  let slot := st.results.getD idx toolExecutionResult.zero
  let run (w : σ) (evs : List Event) : Running σ :=
    let out := Executor.Execute env w slot.tc.name slot.args
    { results := st.results.set idx { slot with result := out.1.1, err := out.1.2 },
      world := out.2,
      events := evs ++
        [Event.execute ExecMode.sequential idx slot.tc.name slot.args out.1.1 out.1.2] }
  if env.telegramEnabled then
    let req := requestTelegramApproval env slot.tc.name slot.tc.arguments st.world
    let evs := st.events ++ [Event.approvalRequested idx slot.tc.name slot.tc.arguments] ++
      req.2.2 ++ [Event.approvalReturned idx req.1]
    match req.1 with
    | some e =>
      { results := st.results.set idx
          { slot with
            result := { success := false,
                        output := "Error: Operation denied by user via Telegram.",
                        error := "" },
            err := some e },
        world := req.2.1,
        events := evs }
    | none => run req.2.1 evs
  else
    run st.world st.events

/-- The result of a call as reported by the last loop: "Ensure result has error info
if err is set". -/
def reportedResult (result : ToolResult) (err : Option String) : ToolResult :=
  match err with
  | some e =>
    if result.output = "" then
      { result with output := "Error: " ++ e, success := false }
    else result
  | none => result

/-- Variables of the last loop of `handleToolCalls`. -/
structure Reporting (σ : Type) where
  messages : List Message
  world : σ
  events : List Event

/-- Body of the last loop: append the tool message of slot `i`, and store a file that
was read in working memory. -/
def reportResult {σ : Type} (env : Env σ) (toolCalls : List ToolCall) (acc : Reporting σ)
    (i : Nat) (res : toolExecutionResult) : Reporting σ :=
  let result := reportedResult res.result res.err
  let messages := acc.messages ++
    [{ role := "tool", content := result.output, toolCalls := [],
       toolCallID := (toolCalls.getD i ToolCall.zero).id }]
  if result.success then
    match res.args.getString "path" with
    | some path =>
      if res.tc.name = "read_file" ∨ res.tc.name = "view_file" then
        { messages := messages,
          world := env.addFile acc.world path result.output 1000,
          events := acc.events ++ [Event.addFile i path result.output 1000] }
      else { acc with messages := messages }
    | none => { acc with messages := messages }
  else { acc with messages := messages }

/-- The last loop, `for i, res := range results`, from index `i` on. -/
def reportLoop {σ : Type} (env : Env σ) (toolCalls : List ToolCall) :
    Nat → List toolExecutionResult → Reporting σ → Reporting σ
  | _, [], acc => acc
  | i, res :: rest, acc =>
    reportLoop env toolCalls (i + 1) rest (reportResult env toolCalls acc i res)

/-- What one round of `handleToolCalls` leaves behind. -/
structure Round (σ : Type) where
  messages : List Message
  results : List toolExecutionResult
  world : σ
  events : List Event

/-- The four phases of `handleToolCalls` on the calls `toolCalls`, starting from the
message list `messages` (which already ends with the assistant message). -/
def dispatch {σ : Type} (env : Env σ) (toolCalls : List ToolCall) (messages : List Message)
    (w : σ) : Round σ :=
  let cl := classifyLoop env w 0 toolCalls
    { results := List.replicate toolCalls.length toolExecutionResult.zero,
      sensitiveCalls := [], nonSensitiveCalls := [], events := [] }
  let par := (completionOrder (env.picks w) cl.nonSensitiveCalls).foldl
    (executeConcurrent env) { results := cl.results, world := w, events := cl.events }
  let seq := cl.sensitiveCalls.foldl (executeSequential env) par
  let rep := reportLoop env toolCalls 0 seq.results
    { messages := messages, world := seq.world, events := seq.events }
  { messages := rep.messages, results := seq.results, world := rep.world,
    events := rep.events }

/-- One round of `handleToolCalls` below the depth check: from `GetToolCalls` to the end
of the loop over the results. -/
def handleToolCallsRound {σ : Type} (env : Env σ) (resp : ChatResponse)
    (messages : List Message) (depth : Nat) (w : σ) : Round σ :=
  let toolCalls := env.getToolCalls resp
  let r := dispatch env toolCalls (messages ++ [resp.message]) w
  { r with events := Event.executingToolCalls toolCalls.length depth :: r.events }

/-! ## `Agent.handleToolCalls` -/

/-- Fields of `Agent` that a turn updates, with the world of the collaborators. -/
structure AgentState (σ : Type) where
  world : σ
  totalUsage : Usage
  lastRateLimits : RateLimits

/-- What a turn returns: the Go pair `(string, error)`, the agent afterwards and the
calls made, in order. -/
structure TurnResult (σ : Type) where
  reply : String
  err : Option String
  state : AgentState σ
  events : List Event

/-- The error text of the depth check. -/
def depthError : String := "maximum tool execution depth exceeded"

/-- Recursion of `handleToolCalls`, on a counter that bounds the number of nested
calls; `handleToolCalls` starts it with `12 - depth`, which never runs out before the
depth check fires (`handleToolCalls_eq`). -/
def handleToolCallsAux {σ : Type} (env : Env σ) :
    Nat → ChatResponse → List Message → Nat → AgentState σ → TurnResult σ
  | 0, _, _, _, st => { reply := "", err := some depthError, state := st, events := [] }
  | fuel + 1, resp, messages, depth, st =>
    if depth > 10 then
      { reply := "", err := some depthError, state := st, events := [] }
    else
      let round := handleToolCallsRound env resp messages depth st.world
      let sent := env.chatWithTools round.world round.messages
      match sent.1 with
      | LLMReply.failed e =>
        { reply := "", err := some e, state := { st with world := sent.2 },
          events := round.events ++ [Event.chatWithTools round.messages (LLMReply.failed e)] }
      | LLMReply.ok next =>
        if env.hasToolCalls next then
          let rest := handleToolCallsAux env fuel next round.messages (depth + 1)
            { st with world := sent.2 }
          { rest with
            events := round.events ++
              [Event.chatWithTools round.messages (LLMReply.ok next)] ++ rest.events }
        else
          let content := env.getContent next
          { reply := content, err := none,
            state := { st with world := env.addMessage sent.2 "assistant" content },
            events := round.events ++
              [Event.chatWithTools round.messages (LLMReply.ok next),
               Event.addMessage "assistant" content] }

/-- Go `handleToolCalls(resp, messages, depth)`. -/
def handleToolCalls {σ : Type} (env : Env σ) (resp : ChatResponse) (messages : List Message)
    (depth : Nat) (st : AgentState σ) : TurnResult σ :=
  handleToolCallsAux env (12 - depth) resp messages depth st

/-! ## `Agent.compressContext` -/

/-- Go `fmt.Sprintf("%s: %s\n", role, content)`. -/
def formatLine (role content : String) : String :=
  role ++ ": " ++ content ++ "\n"

/-- The prompt of `compressContext`. -/
def compressionPrompt (items : List MemoryItem) : String :=
  "### Context Compression Task\n" ++
  "Summarize the following conversation segment in 2-3 concise bullet points. \n" ++
  "Focus strictly on:\n" ++
  "1. Technical decisions reached.\n" ++
  "2. Patterns discovered in the codebase.\n" ++
  "3. Errors or obstacles encountered and how they were solved.\n" ++
  "\n" ++
  "Conversation Segment:\n" ++
  String.join (items.map (fun item => formatLine item.role item.content)) ++ "\n" ++
  "\n" ++
  "Summary:"

/-- Go `compressContext(items)`: the next world and the calls made. -/
def compressContext {σ : Type} (env : Env σ) (items : List MemoryItem) (w : σ) :
    σ × List Event :=
  let prompt := compressionPrompt items
  let q := env.simpleQuery w prompt
  match q.1 with
  | QueryReply.failed e => (q.2, [Event.simpleQuery prompt (QueryReply.failed e)])
  | QueryReply.ok summary =>
    (env.compressItems q.2 summary,
      [Event.simpleQuery prompt (QueryReply.ok summary), Event.compressItems summary])

/-! ## `Agent.Chat` and `Agent.ChatWithStreaming` -/

/-- Go `int` addition (64-bit two's complement). -/
def addInt (a b : Int) : Int :=
  (a + b + 2 ^ 63) % 2 ^ 64 - 2 ^ 63

/-- The history entries as `llm.Message`s: role and content are copied. -/
def historyMessages (history : List HistoryMessage) : List Message :=
  history.map (fun msg =>
    { role := msg.role, content := msg.content, toolCalls := [], toolCallID := "" })

/-- The system message carrying the context block. -/
def systemMessage (systemPrompt : String) : Message :=
  { role := "system", content := systemPrompt, toolCalls := [], toolCallID := "" }

/-- The compression check of `Chat` and `ChatWithStreaming`: when `ShouldCompress`
holds, compress the items to compress, if there are any, and reset the session. -/
def compressionCheck {σ : Type} (env : Env σ) (w : σ) : σ × List Event :=
  if env.shouldCompress w env.compressionTrigger then
    let items := env.getItemsToCompress w
    let cc : σ × List Event := if items.length > 0 then compressContext env items w else (w, [])
    (env.resetSession cc.1,
      [Event.shouldCompress env.compressionTrigger true, Event.getItemsToCompress items] ++
        cc.2 ++ [Event.resetSession])
  else (w, [Event.shouldCompress env.compressionTrigger false])

/-- The proactive insight extraction of `Chat`: started (detached) when the length of
the history is a multiple of 6. -/
def insightCheck {σ : Type} (env : Env σ) (w : σ) : List Event :=
  Event.getMessages (env.getMessages w) ::
    (if (env.getMessages w).length % 6 = 0 then [Event.extractInsightsStarted] else [])

/-- Go `syncProjectTasks()`: write `task.md` when it does not exist. -/
def syncProjectTasks {σ : Type} (env : Env σ) (w : σ) : σ × List Event :=
  if env.taskFileMissing w then (env.writeTaskFile w, [Event.writeTaskFile]) else (w, [])

/-- The tail of `Chat` and `ChatWithStreaming` after a reply was obtained: compression
check, insight extraction (`Chat` only, `insights`), `syncProjectTasks`. -/
def afterReply {σ : Type} (env : Env σ) (insights : Bool) (w : σ) : σ × List Event :=
  let c := compressionCheck env w
  let ins : List Event := if insights then insightCheck env c.1 else []
  let s := syncProjectTasks env c.1
  (s.1, c.2 ++ ins ++ s.2)

/-- What the first part of a turn prepares: the context block, the answer of
`NeedsContextRefresh`, the history, the message list for the model, the world and the
calls made. -/
structure Prepared (σ : Type) where
  systemPrompt : String
  rulesContent : String
  projectInfo : String
  needsContext : Bool
  history : List HistoryMessage
  messages : List Message
  world : σ
  events : List Event

/-- The first part of `Chat`, up to the message list: age the working memory, record
the user message, build the context block, include it if a refresh is needed, add the
history. -/
def prepareChat {σ : Type} (env : Env σ) (userMessage : String) (w : σ) : Prepared σ :=
  let w1 := env.ageWorkingMemory w 50
  let w2 := env.addMessage w1 "user" userMessage
  let rulesContent := env.formattedRules w2
  let projectInfo := env.projectSummary w2
  let historyInfo := env.getContext w2
  let toolsSummary := env.toolsSummary w2
  let systemPrompt :=
    env.buildSystemPrompt userMessage toolsSummary projectInfo historyInfo rulesContent
  let needsContext := env.needsContextRefresh w2 systemPrompt rulesContent projectInfo
  let w3 := if needsContext then env.markContextSent w2 systemPrompt rulesContent projectInfo
    else w2
  let history := env.getMessages w3
  { systemPrompt := systemPrompt, rulesContent := rulesContent, projectInfo := projectInfo,
    needsContext := needsContext, history := history,
    messages := (if needsContext then [systemMessage systemPrompt] else []) ++
      historyMessages history,
    world := w3,
    events :=
      [Event.ageWorkingMemory 50, Event.addMessage "user" userMessage,
       Event.needsContextRefresh systemPrompt rulesContent projectInfo needsContext] ++
      (if needsContext then [Event.markContextSent systemPrompt rulesContent projectInfo]
        else []) ++
      [Event.getMessages history] }

/-- The first part of `ChatWithStreaming`, up to the message list. -/
def prepareStreaming {σ : Type} (env : Env σ) (userMessage : String) (w : σ) : Prepared σ :=
  let w1 := env.ageWorkingMemory w 50
  let w2 := env.addMessage w1 "user" userMessage
  let rulesContent := env.formattedRules w2
  let projectInfo := env.projectSummary w2
  let systemPrompt := env.buildSystemPrompt userMessage (env.toolsSummary w2)
    projectInfo (env.getContext w2) rulesContent
  let history := env.getMessages w2
  { systemPrompt := systemPrompt, rulesContent := rulesContent, projectInfo := projectInfo,
    needsContext := true, history := history,
    messages := [systemMessage systemPrompt] ++ historyMessages history,
    world := w2,
    events :=
      [Event.ageWorkingMemory 50, Event.addMessage "user" userMessage,
       Event.getMessages history] }

/-- The part of `Chat` and `ChatWithStreaming` after the model answered with `resp`:
handle the tool calls or record the answer, return on error, else run the tail of
the turn.  `before` are the calls made so far. -/
def finishTurn {σ : Type} (env : Env σ) (insights : Bool) (resp : ChatResponse)
    (messages : List Message) (st : AgentState σ) (before : List Event) : TurnResult σ :=
  let r : TurnResult σ :=
    if env.hasToolCalls resp then
      handleToolCalls env resp messages 0 st
    else
      let finalResponse := env.getContent resp
      { reply := finalResponse, err := none,
        state := { st with world := env.addMessage st.world "assistant" finalResponse },
        events := [Event.addMessage "assistant" finalResponse] }
  match r.err with
  | some e => { reply := "", err := some e, state := r.state, events := before ++ r.events }
  | none =>
    let tail := afterReply env insights r.state.world
    { reply := r.reply, err := none, state := { r.state with world := tail.1 },
      events := before ++ r.events ++ tail.2 }

/-- The usage update of `Chat` after the first model response: the totals of the agent,
the last rate limits and the token usage of the session. -/
def recordUsage {σ : Type} (env : Env σ) (st : AgentState σ) (resp : ChatResponse) (w : σ) :
    AgentState σ :=
  { world := env.updateTokenUsage w resp.usage.promptTokens,
    totalUsage :=
      { promptTokens := addInt st.totalUsage.promptTokens resp.usage.promptTokens,
        completionTokens := addInt st.totalUsage.completionTokens resp.usage.completionTokens,
        totalTokens := addInt st.totalUsage.totalTokens resp.usage.totalTokens },
    lastRateLimits := resp.rateLimits }

/-- Go `Chat(userMessage)`. -/
def Chat {σ : Type} (env : Env σ) (userMessage : String) (st : AgentState σ) : TurnResult σ :=
  let p := prepareChat env userMessage st.world
  let sent := env.chatWithTools p.world p.messages
  match sent.1 with
  | LLMReply.failed e =>
    { reply := "", err := some ("LLM error: " ++ e), state := { st with world := sent.2 },
      events := p.events ++ [Event.chatWithTools p.messages (LLMReply.failed e)] }
  | LLMReply.ok resp =>
    finishTurn env true resp p.messages (recordUsage env st resp sent.2)
      (p.events ++ [Event.chatWithTools p.messages (LLMReply.ok resp),
        Event.updateTokenUsage resp.usage.promptTokens])

/-- Go `ChatWithStreaming(userMessage, callback)`. -/
def ChatWithStreaming {σ : Type} (env : Env σ) (userMessage : String) (st : AgentState σ) :
    TurnResult σ :=
  let p := prepareStreaming env userMessage st.world
  let sent := env.chatWithStreaming p.world p.messages
  match sent.1 with
  | LLMReply.failed e =>
    { reply := "", err := some ("LLM error: " ++ e), state := { st with world := sent.2 },
      events := p.events ++ [Event.chatWithStreaming p.messages (LLMReply.failed e)] }
  | LLMReply.ok resp =>
    finishTurn env false resp p.messages { st with world := sent.2 }
      (p.events ++ [Event.chatWithStreaming p.messages (LLMReply.ok resp)])

/-! ## Reading the list of calls -/

/-- Where the outcome of a tool call comes from. -/
inductive OutcomeSource where
  | parseFailure
  | denial
  | executor (mode : ExecMode)
  deriving DecidableEq, Repr

/-- The outcome obtained for a tool call: the result and error stored in its slot. -/
structure Outcome where
  source : OutcomeSource
  result : ToolResult
  err : Option String
  deriving DecidableEq, Repr

/-- The result stored for a call whose arguments do not parse. -/
def parseFailureResult (e : String) : ToolResult :=
  { success := false, output := "Error: " ++ e, error := "" }

/-- The result stored for a call whose approval request failed. -/
def denialResult : ToolResult :=
  { success := false, output := "Error: Operation denied by user via Telegram.", error := "" }

/-- The outcome that an event carries for call `i`, if it is the failed parse, the failed
approval or the execution of call `i`. -/
def Event.outcomeFor (i : Nat) : Event → Option Outcome
  | Event.unmarshalFailed j _ e =>
    if j = i then some ⟨OutcomeSource.parseFailure, parseFailureResult e, some e⟩ else none
  | Event.approvalReturned j (some e) =>
    if j = i then some ⟨OutcomeSource.denial, denialResult, some e⟩ else none
  | Event.execute mode j _ _ result err =>
    if j = i then some ⟨OutcomeSource.executor mode, result, err⟩ else none
  | _ => none

/-- All outcomes obtained for call `i`, in order. -/
def outcomes (events : List Event) (i : Nat) : List Outcome :=
  events.filterMap (Event.outcomeFor i)

/-- The answer of `RequiresApproval` that an event carries for call `i`. -/
def Event.classificationFor (i : Nat) : Event → Option Bool
  | Event.requiresApproval j _ answer => if j = i then some answer else none
  | _ => none

/-- All classifications of call `i`, in order. -/
def classifications (events : List Event) (i : Nat) : List Bool :=
  events.filterMap (Event.classificationFor i)

/-- The `AddFile` call that an event carries for call `i`: path, content, relevance. -/
def Event.fileFor (i : Nat) : Event → Option (String × String × Nat)
  | Event.addFile j path content relevance =>
    if j = i then some (path, content, relevance) else none
  | _ => none

/-- All `AddFile` calls made for call `i`, in order. -/
def filesAdded (events : List Event) (i : Nat) : List (String × String × Nat) :=
  events.filterMap (Event.fileFor i)

/-- The slot of call `i` after the first loop. -/
def initialSlot {σ : Type} (env : Env σ) (i : Nat) (tc : ToolCall) : toolExecutionResult :=
  match env.unmarshal tc.arguments with
  | (args, some e) =>
    { tc := tc, args := args, result := parseFailureResult e, err := some e, index := i }
  | (args, none) =>
    { tc := tc, args := args, result := ToolResult.zero, err := none, index := i }

/-- The slots after the first loop, for calls numbered from `k`. -/
def initialSlots {σ : Type} (env : Env σ) : Nat → List ToolCall → List toolExecutionResult
  | _, [] => []
  | k, tc :: rest => initialSlot env k tc :: initialSlots env (k + 1) rest

/-- The indices the first loop puts in `sensitiveCalls`, for calls numbered from `k`. -/
def sensitiveFrom {σ : Type} (env : Env σ) (w : σ) : Nat → List ToolCall → List Nat
  | _, [] => []
  | k, tc :: rest =>
    if (env.unmarshal tc.arguments).2 = none ∧ env.requiresApproval w tc.name = true then
      k :: sensitiveFrom env w (k + 1) rest
    else sensitiveFrom env w (k + 1) rest

/-- The indices the first loop puts in `nonSensitiveCalls`, for calls numbered from `k`. -/
def nonSensitiveFrom {σ : Type} (env : Env σ) (w : σ) : Nat → List ToolCall → List Nat
  | _, [] => []
  | k, tc :: rest =>
    if (env.unmarshal tc.arguments).2 = none ∧ env.requiresApproval w tc.name = false then
      k :: nonSensitiveFrom env w (k + 1) rest
    else nonSensitiveFrom env w (k + 1) rest

/-- The event of the first loop for call `k`. -/
def classifyEvent {σ : Type} (env : Env σ) (w : σ) (k : Nat) (tc : ToolCall) : Event :=
  match (env.unmarshal tc.arguments).2 with
  | some e => Event.unmarshalFailed k tc.name e
  | none => Event.requiresApproval k tc.name (env.requiresApproval w tc.name)

/-- The events of the first loop, for calls numbered from `k`. -/
def classifyEvents {σ : Type} (env : Env σ) (w : σ) : Nat → List ToolCall → List Event
  | _, [] => []
  | k, tc :: rest => classifyEvent env w k tc :: classifyEvents env w (k + 1) rest

/-- The tool message the last loop appends for slot `i`. -/
def toolMessage (toolCalls : List ToolCall) (i : Nat) (res : toolExecutionResult) : Message :=
  { role := "tool", content := (reportedResult res.result res.err).output, toolCalls := [],
    toolCallID := (toolCalls.getD i ToolCall.zero).id }

/-- The tool messages the last loop appends, for slots numbered from `k`. -/
def toolMessages (toolCalls : List ToolCall) : Nat → List toolExecutionResult → List Message
  | _, [] => []
  | k, res :: rest => toolMessage toolCalls k res :: toolMessages toolCalls (k + 1) rest

/-- The key of an event on the timeline of the sensitive calls: `3 * idx` for the
approval request of call `idx`, `3 * idx + 1` for its return, `3 * idx + 2` for the
sequential execution of the call. -/
def Event.sensitiveKey : Event → Option Nat
  | Event.approvalRequested idx _ _ => some (3 * idx)
  | Event.approvalReturned idx _ => some (3 * idx + 1)
  | Event.execute ExecMode.sequential idx _ _ _ _ => some (3 * idx + 2)
  | _ => none

/-- The timeline of the sensitive calls: the keys of the events, in order. -/
def sensitiveTimeline (events : List Event) : List Nat :=
  events.filterMap Event.sensitiveKey

/-- The `AddFile` call the last loop makes for a slot, if any: path, content and
relevance. -/
def addedFile (res : toolExecutionResult) : Option (String × String × Nat) :=
  if (reportedResult res.result res.err).success then
    match res.args.getString "path" with
    | some path =>
      if res.tc.name = "read_file" ∨ res.tc.name = "view_file" then
        some (path, (reportedResult res.result res.err).output, 1000)
      else none
    | none => none
  else none

/-- The event of the last loop for slot `k`. -/
def fileEvent (k : Nat) (res : toolExecutionResult) : List Event :=
  match addedFile res with
  | some f => [Event.addFile k f.1 f.2.1 f.2.2]
  | none => []

/-- The events of the last loop, for slots numbered from `k`. -/
def fileEvents : Nat → List toolExecutionResult → List Event
  | _, [] => []
  | k, res :: rest => fileEvent k res ++ fileEvents (k + 1) rest

/-- A loop body `f` handles one call: `f st i` stores one outcome, whose source
satisfies `S`, in slot `i`, leaves every other slot as it is, and makes calls that
carry this outcome for call `i` and no classification or `AddFile`. -/
def HandlesOneCall {σ : Type} (S : OutcomeSource → Prop)
    (f : Running σ → Nat → Running σ) : Prop :=
  ∀ (st : Running σ) (i : Nat), ∃ (o : Outcome) (new : List Event),
    S o.source ∧
    (f st i).results = st.results.set i
      { st.results.getD i toolExecutionResult.zero with result := o.result, err := o.err } ∧
    (f st i).events = st.events ++ new ∧
    (∀ k, outcomes new k = if k = i then [o] else []) ∧
    (∀ k, classifications new k = []) ∧ (∀ k, filesAdded new k = [])

/-- In `events`, every execution of a call whose index satisfies `S` comes after an
approval request for that call and, after that request, its return without error. -/
def ApprovedBeforeExecuted (S : Nat → Prop) (events : List Event) : Prop :=
  ∀ (pre post : List Event) (mode : ExecMode) (i : Nat) (name : String) (args : Args)
    (res : ToolResult) (err : Option String),
    events = pre ++ Event.execute mode i name args res err :: post → S i →
    ∃ (x y z : List Event) (a : String),
      pre = x ++ Event.approvalRequested i name a :: y ++ Event.approvalReturned i none :: z

/-- An event of `requestTelegramApproval` itself: sending the request or logging the
decision or the timeout. -/
def Event.isApprovalTraffic : Event → Bool
  | Event.sendMessageWithButtons _ _ => true
  | Event.logApprovalDecision _ _ => true
  | Event.logApprovalTimeout _ => true
  | _ => false

/-- An event made by the four phases of one round of `handleToolCalls`. -/
def Event.isToolRound : Event → Bool
  | Event.unmarshalFailed _ _ _ => true
  | Event.requiresApproval _ _ _ => true
  | Event.approvalRequested _ _ _ => true
  | Event.sendMessageWithButtons _ _ => true
  | Event.logApprovalDecision _ _ => true
  | Event.logApprovalTimeout _ => true
  | Event.approvalReturned _ _ => true
  | Event.execute _ _ _ _ _ _ => true
  | Event.addFile _ _ _ _ => true
  | _ => false

/-- An event made by the tail of a turn, after the reply was obtained. -/
def Event.isTurnTail : Event → Bool
  | Event.shouldCompress _ _ => true
  | Event.getItemsToCompress _ => true
  | Event.simpleQuery _ _ => true
  | Event.compressItems _ => true
  | Event.resetSession => true
  | Event.getMessages _ => true
  | Event.extractInsightsStarted => true
  | Event.writeTaskFile => true
  | _ => false

/-- A call that writes to or removes from the conversational history: `AddMessage`
and `CompressItems`. -/
def Event.changesHistory : Event → Bool
  | Event.addMessage _ _ => true
  | Event.compressItems _ => true
  | _ => false

/-- The reply of the model that an event carries, for a `ChatWithTools` call. -/
def Event.modelReply : Event → Option LLMReply
  | Event.chatWithTools _ reply => some reply
  | _ => none

/-- The replies of the model to the `ChatWithTools` calls, in order. -/
def modelReplies (events : List Event) : List LLMReply :=
  events.filterMap Event.modelReply

/-- The depth that an event carries, for the start of a round of tool calls. -/
def Event.roundDepth : Event → Option Nat
  | Event.executingToolCalls _ depth => some depth
  | _ => none

/-- The depths of the rounds of tool calls that were run, in order. -/
def roundDepths (events : List Event) : List Nat :=
  events.filterMap Event.roundDepth

/-- The three inputs that an event carries, for a `MarkContextSent` call. -/
def Event.contextMarked : Event → Option (String × String × String)
  | Event.markContextSent systemPrompt rules projectInfo =>
    some (systemPrompt, rules, projectInfo)
  | _ => none

/-- The `MarkContextSent` calls, in order. -/
def contextMarks (events : List Event) : List (String × String × String) :=
  events.filterMap Event.contextMarked

/-- The reply that carries tool calls: the model call succeeded and `HasToolCalls`
holds of the response. -/
def requestsTools {σ : Type} (env : Env σ) (reply : LLMReply) : Prop :=
  ∃ resp, reply = LLMReply.ok resp ∧ env.hasToolCalls resp = true

/-- The index in a batch of the call that has index `j` once the call at index `d` is
taken out of the batch. -/
def skipIndex (d j : Nat) : Nat := if j < d then j else j + 1

/-- What a slot holds apart from its own index. -/
def slotContent (s : toolExecutionResult) : ToolCall × Args × ToolResult × Option String :=
  (s.tc, s.args, s.result, s.err)

/-- The slots `A` of a batch hold call `c` at index `d` and, at the other indices, what
the slots `B` of the batch without that call hold. -/
def SameExceptAt (d : Nat) (c : ToolCall) (A B : List toolExecutionResult) : Prop :=
  A.length = B.length + 1 ∧ (A[d]?).map (fun s => s.tc) = some c ∧
    ∀ j, (B[j]?).map slotContent = (A[skipIndex d j]?).map slotContent

/-- What running a call without asking for approval yields: the result and error stored
in its slot and the next world. -/
def concurrentOutcome {σ : Type} (env : Env σ) (tc : ToolCall) (args : Args) (w : σ) :
    (ToolResult × Option String) × σ :=
  Executor.Execute env w tc.name args

/-- What one pass through the loop over the sensitive calls yields for a call: the
result and error stored in its slot and the next world. -/
def sequentialOutcome {σ : Type} (env : Env σ) (tc : ToolCall) (args : Args) (w : σ) :
    (ToolResult × Option String) × σ :=
  if env.telegramEnabled then
    match (requestTelegramApproval env tc.name tc.arguments w).1 with
    | some e => ((denialResult, some e), (requestTelegramApproval env tc.name tc.arguments w).2.1)
    | none =>
      Executor.Execute env (requestTelegramApproval env tc.name tc.arguments w).2.1 tc.name args
  else Executor.Execute env w tc.name args

/-- A loop body `f` stores in slot `i` the outcome `g` of the call held there, leaves the
other slots as they are and moves to the world `g` yields. -/
def StepBy {σ : Type} (g : ToolCall → Args → σ → (ToolResult × Option String) × σ)
    (f : Running σ → Nat → Running σ) : Prop :=
  ∀ (st : Running σ) (i : Nat),
    (f st i).results = st.results.set i
      { st.results.getD i toolExecutionResult.zero with
        result := (g (st.results.getD i toolExecutionResult.zero).tc
          (st.results.getD i toolExecutionResult.zero).args st.world).1.1,
        err := (g (st.results.getD i toolExecutionResult.zero).tc
          (st.results.getD i toolExecutionResult.zero).args st.world).1.2 } ∧
    (f st i).world = (g (st.results.getD i toolExecutionResult.zero).tc
      (st.results.getD i toolExecutionResult.zero).args st.world).2

/-- The world after the last loop: `AddFile` for every slot that calls for it. -/
def worldAfterFiles {σ : Type} (env : Env σ) (w : σ) (results : List toolExecutionResult) : σ :=
  results.foldl (fun w res =>
    match addedFile res with
    | some f => env.addFile w f.1 f.2.1 f.2.2
    | none => w) w

/-- The tool message of a call from what its slot holds. -/
def contentMessage (tc : ToolCall) (content : ToolCall × Args × ToolResult × Option String) :
    Message :=
  { role := "tool", content := (reportedResult content.2.2.1 content.2.2.2).output,
    toolCalls := [], toolCallID := tc.id }

/-! ## Scenarios -/

/-- A small concrete world for the scenarios: what the collaborators remember. -/
structure World where
  modelCalls : Nat
  approvalsAsked : Nat
  executed : List String
  history : List HistoryMessage
  files : List (String × String)
  contextSent : Option (String × String × String)
  tokens : Int
  deriving DecidableEq, Repr

/-- The world at the start of a session. -/
def World.start : World :=
  { modelCalls := 0, approvalsAsked := 0, executed := [], history := [], files := [],
    contextSent := none, tokens := 0 }

/-- The decoder of the scenarios: three argument texts are JSON objects, every other
text is rejected. -/
def scenarioUnmarshal (s : String) : Args × Option String :=
  if s = "\x7b\x7d" then ([], none)
  else if s = "\x7b\"path\":\"notes.txt\"\x7d" then ([("path", JsonValue.str "notes.txt")], none)
  else if s = "\x7b\"path\":7\x7d" then ([("path", JsonValue.other "7")], none)
  else ([], some "invalid character")

/-- The tools of the scenarios. -/
def scenarioHandler (w : World) (name : String) (args : Args) :
    (ToolResult × Option String) × World :=
  let w1 := { w with executed := w.executed ++ [name] }
  if name = "read_file" then
    (({ success := true, output := "contents of notes", error := "" }, none), w1)
  else if name = "write_file" then
    (({ success := true, output := "written", error := "" }, none), w1)
  else if name = "view_file" then
    (({ success := true, output := "first lines", error := "" }, some "read interrupted"), w1)
  else
    (({ success := true, output := "done", error := "" }, none), w1)

/-- The collaborators of the scenarios: the model answers its `n`-th call with
`script n`, the approver answers the `n`-th request with `approvals n`. -/
def scenarioEnv (script : Nat → LLMReply) (approvals : Nat → ApprovalSignal) (telegram : Bool)
    (picks : List Nat) : Env World :=
  { unmarshal := scenarioUnmarshal,
    chatWithTools := fun w _ => (script w.modelCalls, { w with modelCalls := w.modelCalls + 1 }),
    chatWithStreaming := fun w _ =>
      (script w.modelCalls, { w with modelCalls := w.modelCalls + 1 }),
    simpleQuery := fun w _ => (QueryReply.ok "summary", w),
    hasToolCalls := fun resp => !resp.message.toolCalls.isEmpty,
    getToolCalls := fun resp => resp.message.toolCalls,
    getContent := fun resp => resp.message.content,
    requiresApproval := fun _ name => name = "write_file" || name = "run_command",
    approvalTimeoutText := fun _ => "5m0s",
    telegramEnabled := telegram,
    compressionTrigger := 100000,
    approvalMessage := fun name args => name ++ " " ++ args,
    sendMessageWithButtons := fun w _ => (none, w),
    awaitApproval := fun w =>
      (approvals w.approvalsAsked, { w with approvalsAsked := w.approvalsAsked + 1 }),
    registered := fun _ name => name ≠ "missing_tool",
    handler := scenarioHandler,
    picks := fun _ => picks,
    ageWorkingMemory := fun w _ => w,
    addMessage := fun w role content => { w with history := w.history ++ [⟨role, content⟩] },
    addFile := fun w path content _ => { w with files := w.files ++ [(path, content)] },
    getMessages := fun w => w.history,
    getContext := fun _ => "",
    getItemsToCompress := fun _ => [],
    compressItems := fun w _ => w,
    addDecision := fun w _ _ => w,
    needsContextRefresh := fun w sp rules proj => decide (w.contextSent ≠ some (sp, rules, proj)),
    markContextSent := fun w sp rules proj => { w with contextSent := some (sp, rules, proj) },
    updateTokenUsage := fun w n => { w with tokens := w.tokens + n },
    shouldCompress := fun w trigger => decide (w.tokens ≥ trigger),
    resetSession := fun w => { w with contextSent := none, tokens := 0 },
    formattedRules := fun _ => "rules",
    projectSummary := fun _ => "project",
    toolsSummary := fun _ => "tools",
    buildSystemPrompt := fun _ tools proj hist rules => tools ++ proj ++ hist ++ rules,
    taskFileMissing := fun _ => false,
    writeTaskFile := fun w => w }

/-- A model response that requests the given tool calls. -/
def callsResponse (calls : List ToolCall) : ChatResponse :=
  { message := { role := "assistant", content := "", toolCalls := calls, toolCallID := "" },
    usage := ⟨10, 5, 15⟩, rateLimits := ⟨0, 0, "", ""⟩ }

/-- A model response that is a plain answer. -/
def textResponse (text : String) : ChatResponse :=
  { message := { role := "assistant", content := text, toolCalls := [], toolCallID := "" },
    usage := ⟨10, 5, 15⟩, rateLimits := ⟨0, 0, "", ""⟩ }

/-- A model that answers every call with the plain text "done". -/
def doneScript (_ : Nat) : LLMReply := LLMReply.ok (textResponse "done")

/-- Remote approval switched off. -/
def unapprovedEnv : Env World :=
  scenarioEnv doneScript (fun _ => ApprovalSignal.received true) false []

/-- Remote approval switched on, every request granted. -/
def approvingEnv : Env World :=
  scenarioEnv doneScript (fun _ => ApprovalSignal.received true) true []

/-- A call of the sensitive tool `write_file`. -/
def writeCall : ToolCall := ⟨"call_w", "write_file", "\x7b\"path\":\"notes.txt\"\x7d"⟩

/-- A call of the tool `read_file` with a path. -/
def readCall : ToolCall := ⟨"call_r", "read_file", "\x7b\"path\":\"notes.txt\"\x7d"⟩

/-- A call of the tool `list_files` without arguments. -/
def listCall : ToolCall := ⟨"call_l", "list_files", "\x7b\x7d"⟩

/-- A call of the tool `view_file`, whose handler returns output together with an error. -/
def viewCall : ToolCall := ⟨"call_v", "view_file", "\x7b\"path\":\"notes.txt\"\x7d"⟩

/-- The agent at the start of a session of the scenarios. -/
def freshAgent : AgentState World :=
  { world := World.start, totalUsage := ⟨0, 0, 0⟩, lastRateLimits := ⟨0, 0, "", ""⟩ }

/-- A model that requests a tool call in every response. -/
def loopingEnv : Env World :=
  scenarioEnv (fun _ => LLMReply.ok (callsResponse [listCall]))
    (fun _ => ApprovalSignal.received true) false []

/-- A model that requests a tool call in its first 11 responses and then answers. -/
def elevenRoundsEnv : Env World :=
  scenarioEnv
    (fun n => if n < 11 then LLMReply.ok (callsResponse [listCall])
      else LLMReply.ok (textResponse "final"))
    (fun _ => ApprovalSignal.received true) false []

/-- An execution of a tool by the executor. -/
def Event.isExecute : Event → Bool
  | Event.execute _ _ _ _ _ _ => true
  | _ => false

/-- A model that answers without tool calls, remote approval off. -/
def plainEnv : Env World := unapprovedEnv

/-- The agent of the scenarios after the context block of `plainEnv` was sent and
marked as sent. -/
def informedAgent : AgentState World :=
  { freshAgent with
    world := { World.start with contextSent := some ("toolsprojectrules", "rules", "project") } }

/-- A model that requests a tool call first and whose follow-up call fails. -/
def followUpFailingEnv : Env World :=
  scenarioEnv
    (fun n => if n = 0 then LLMReply.ok (callsResponse [readCall])
      else LLMReply.failed "connection reset")
    (fun _ => ApprovalSignal.received true) false []

/-- The message list that an event carries, for a call of the model. -/
def Event.sentMessages : Event → Option (List Message)
  | Event.chatWithTools messages _ => some messages
  | Event.chatWithStreaming messages _ => some messages
  | _ => none

/-- The message lists sent to the model, in order. -/
def messageLists (events : List Event) : List (List Message) :=
  events.filterMap Event.sentMessages

/-- A call made by `compressContext`: the summarization query or `CompressItems`. -/
def Event.isCompression : Event → Bool
  | Event.simpleQuery _ _ => true
  | Event.compressItems _ => true
  | _ => false

/-- A session that is over the compression trigger after one model response, with one
old item to compress, and a summarization query that fails. -/
def failingSummaryEnv : Env World :=
  { plainEnv with
    simpleQuery := fun w _ => (QueryReply.failed "summary timeout", w),
    getItemsToCompress := fun _ => [⟨"user", "old question"⟩],
    compressionTrigger := 5 }

/-! ## Go strings and paths -/

/-- Go `unicode.IsSpace`. -/
def isSpaceRune (c : Char) : Bool :=
  c.toNat = 0x09 || c.toNat = 0x0A || c.toNat = 0x0B || c.toNat = 0x0C || c.toNat = 0x0D ||
  c.toNat = 0x20 || c.toNat = 0x85 || c.toNat = 0xA0 || c.toNat = 0x1680 ||
  (0x2000 ≤ c.toNat && c.toNat ≤ 0x200A) || c.toNat = 0x2028 || c.toNat = 0x2029 ||
  c.toNat = 0x202F || c.toNat = 0x205F || c.toNat = 0x3000

/-- Go `unicode.ToLower` and `unicode.ToUpper` on the runes outside ASCII: the case
tables of Unicode, which map no rune to or from white space. -/
structure UnicodeTables where
  lower : Char → Char
  upper : Char → Char
  lower_isSpace : ∀ c, isSpaceRune (lower c) = isSpaceRune c

/-- The tables that leave every rune outside ASCII as it is. -/
def asciiTables : UnicodeTables :=
  { lower := fun c => c, upper := fun c => c, lower_isSpace := fun _ => rfl }

/-- Go `unicode.ToLower`: the ASCII rule below 128, the table above. -/
def toLowerRune (u : UnicodeTables) (c : Char) : Char :=
  if c.toNat < 128 then c.toLower else u.lower c

/-- Go `strings.ToLower`. -/
def ToLower (u : UnicodeTables) (s : String) : String :=
  String.mk (s.data.map (toLowerRune u))

/-- The fields of a list of runes: the maximal runs of runes that are not white space.
`cur` is the field being read, last rune first. -/
def fieldsAux : List Char → List Char → List (List Char)
  | cur, [] => if cur.isEmpty then [] else [cur.reverse]
  | cur, c :: rest =>
    if isSpaceRune c then
      (if cur.isEmpty then fieldsAux [] rest else cur.reverse :: fieldsAux [] rest)
    else fieldsAux (c :: cur) rest

/-- Go `strings.Fields`. -/
def Fields (s : String) : List String :=
  (fieldsAux [] s.data).map String.mk

/-- Go `strings.Join`. -/
def Join (elems : List String) (sep : String) : String :=
  String.mk (List.intercalate sep.data (elems.map String.data))

/-- Go `strings.Contains`. -/
def Contains (s substr : String) : Bool :=
  decide (substr.data <:+: s.data)

/-- Go `strings.HasPrefix`. -/
def HasPrefix (s pre : String) : Bool :=
  decide (pre.data <+: s.data)

/-- The pieces of a list of runes between the occurrences of `sep`.  `cur` is the piece
being read, last rune first. -/
def splitAux (sep : Char) : List Char → List Char → List (List Char)
  | cur, [] => [cur.reverse]
  | cur, c :: rest =>
    if c = sep then cur.reverse :: splitAux sep [] rest else splitAux sep (c :: cur) rest

/-- Go `strings.Split(s, sep)` for a separator of one rune. -/
def Split (s : String) (sep : Char) : List String :=
  (splitAux sep [] s.data).map String.mk

/-- Go `filepath.IsAbs` on Unix. -/
def IsAbs (path : String) : Bool :=
  path.data.head? = some '/'

/-- The elements of a cleaned path: empty elements and `.` are dropped, `..` removes
the element before it, is dropped at the root, and is kept at the start of a path that
is not rooted.  `out` holds the elements kept so far, last one first. -/
def cleanElems (rooted : Bool) : List (List Char) → List (List Char) → List (List Char)
  | out, [] => out.reverse
  | out, e :: rest =>
    if e = [] ∨ e = ['.'] then cleanElems rooted out rest
    else if e = ['.', '.'] then
      match out with
      | [] => if rooted then cleanElems rooted [] rest else cleanElems rooted [e] rest
      | top :: below =>
        if top = ['.', '.'] then cleanElems rooted (e :: top :: below) rest
        else cleanElems rooted below rest
    else cleanElems rooted (e :: out) rest

/-- Go `filepath.Clean` on Unix. -/
def Clean (path : String) : String :=
  let body := List.intercalate ['/'] (cleanElems (IsAbs path) [] (splitAux '/' [] path.data))
  if IsAbs path then String.mk ('/' :: body)
  else if body = [] then "."
  else String.mk body

/-- Go `filepath.Join(a, b)` on Unix. -/
def filepathJoin (a b : String) : String :=
  if a = "" ∧ b = "" then ""
  else if a = "" then Clean b
  else if b = "" then Clean a
  else Clean (a ++ "/" ++ b)

/-- Go `filepath.Abs` on Unix: the path and the error; `getwd` is what `os.Getwd`
returns. -/
def Abs (getwd : String × Option String) (path : String) : String × Option String :=
  if IsAbs path then (Clean path, none)
  else
    match getwd with
    | (_, some e) => ("", some e)
    | (wd, none) => (filepathJoin wd path, none)

/-! ## `security.Auditor` -/

/-- Go `security.DangerousPatterns`. -/
def DangerousPatterns : List String :=
  ["rm -rf /", "rm -rf ~", "dd if=", "mkfs.", "format ", ":()\x7b:|:&\x7d;:", "chmod 777 /",
   "wget ", "curl ", "> /dev/sda", "sh -c", "bash -c", "cmd.exe", "powershell",
   "Invoke-Expression"]

/-- Go `security.Auditor`. -/
structure Auditor where
  projectPath : String
  customBlocked : List String

/-- Go `AuditPath(path)`: the error, `none` for nil. -/
def AuditPath (getwd : String × Option String) (a : Auditor) (path : String) :
    Option String :=
  match Abs getwd a.projectPath with
  | (_, some e) => some ("failed to get absolute project path: " ++ e)
  | (absProject, none) =>
    match Abs getwd path with
    | (_, some e) => some ("failed to get absolute target path: " ++ e)
    | (absPath, none) =>
      if !HasPrefix absPath absProject then
        some ("access denied: path " ++ path ++ " is outside project directory " ++
          a.projectPath)
      else none

/-- The first pattern of a list that the normalized command contains, lowered. -/
def firstContained (u : UnicodeTables) (normalized : String) : List String → Option String
  | [] => none
  | pattern :: rest =>
    if Contains normalized (ToLower u pattern) then some pattern
    else firstContained u normalized rest

/-- Go `AuditCommand(command)`: the error, `none` for nil. -/
def AuditCommand (u : UnicodeTables) (a : Auditor) (command : String) : Option String :=
  let normalized := Join (Fields (ToLower u command)) " "
  match firstContained u normalized DangerousPatterns with
  | some pattern => some ("dangerous pattern detected: " ++ pattern)
  | none =>
    match firstContained u normalized a.customBlocked with
    | some pattern => some ("custom blocked pattern detected: " ++ pattern)
    | none => none

/-- The loop of `AuditScript` from the line of index `i` on. -/
def auditLines (u : UnicodeTables) (a : Auditor) : Nat → List String → Option String
  | _, [] => none
  | i, line :: rest =>
    match AuditCommand u a line with
    | some err => some ("line " ++ toString (i + 1) ++ ": " ++ err)
    | none => auditLines u a (i + 1) rest

/-- Go `AuditScript(content)`: the error, `none` for nil. -/
def AuditScript (u : UnicodeTables) (a : Auditor) (content : String) : Option String :=
  auditLines u a 0 (Split content '\n')

/-- The elements of a path between the separators, empty ones left out. -/
def pathElements (path : String) : List (List Char) :=
  (splitAux '/' [] path.data).filter (fun e => !e.isEmpty)

/-- The words of the claim about `AuditPath`: the absolute path is the project directory
itself or lies beneath it, that is, the elements of the project directory are the first
elements of the path. -/
def withinDirectory (absProject absPath : String) : Prop :=
  pathElements absProject <+: pathElements absPath

instance (absProject absPath : String) : Decidable (withinDirectory absProject absPath) := by
  unfold withinDirectory
  infer_instance

/-- The runes of a command after `ToLower`, `Fields` and `Join` with one space. -/
def normalizedRunes (cur l : List Char) : List Char :=
  List.intercalate [' '] (fieldsAux cur l)

/-- A pattern that the normalization leaves as it is, when it is read after a field
(`afterField`) or at the start of one, and is followed by text that holds a rune other
than white space (`textFollows`) or not: its white space is single spaces between two
other runes, or one last space if text follows. -/
def keptByNormalization : Bool → List Char → Bool → Bool
  | _, [], _ => true
  | afterField, c :: rest, textFollows =>
    if isSpaceRune c then
      decide (c = ' ') && afterField &&
        (match rest with
          | [] => textFollows
          | d :: _ => !isSpaceRune d) &&
        keptByNormalization false rest textFollows
    else keptByNormalization true rest textFollows

/-- The words of the claim about `AuditCommand`, with the amendment: the command holds
the pattern as a substring in some letter case, and when the pattern ends with a space,
a rune that is not white space comes somewhere after the occurrence. -/
def occursWithText (command pattern : String) : Prop :=
  ∃ before variant after : List Char,
    command.data = before ++ variant ++ after ∧
    variant.map Char.toLower = pattern.data.map Char.toLower ∧
    (pattern.data.getLast? = some ' ' → ∃ c ∈ after, isSpaceRune c = false)

/-- The list of runes starts with a rune that is not white space. -/
def startsWithText : List Char → Bool
  | [] => false
  | c :: _ => !isSpaceRune c

/-! ## `config.OAuthCredentials` -/

/-- A Go `int64` result: the integer wrapped to 64 bits, two's complement. -/
def wrapInt64 (x : Int) : Int :=
  (x + 2 ^ 63) % 2 ^ 64 - 2 ^ 63

/-- Go `config.OAuthCredentials`; `expiresAt` is in unix milliseconds. -/
structure OAuthCredentials where
  provider : String
  accessToken : String
  refreshToken : String
  expiresAt : Int
  deriving DecidableEq, Repr

/-- Go `(*OAuthCredentials).IsExpired()`; `c` is `none` for the nil receiver and `now` is
`time.Now().UnixMilli()`. -/
def IsExpired (c : Option OAuthCredentials) (now : Int) : Bool :=
  match c with
  | none => true
  | some c => decide (now ≥ c.expiresAt)

/-- Go `(*OAuthCredentials).NeedsRefresh()`. -/
def NeedsRefresh (c : Option OAuthCredentials) (now : Int) : Bool :=
  match c with
  | none => true
  | some c =>
    let buffer : Int := 5 * 60 * 1000
    decide (now ≥ wrapInt64 (c.expiresAt - buffer))

/-! ## `llm.ExchangeCode` -/

/-- Go `llm.OAuthTokenResponse`. -/
structure OAuthTokenResponse where
  accessToken : String
  refreshToken : String
  expiresIn : Int
  tokenType : String
  deriving DecidableEq, Repr

/-- What `ExchangeCode` reads of a Go `http.Response`: the status code, and what
`io.ReadAll(resp.Body)` returns. -/
structure HttpResponse where
  statusCode : Int
  body : String × Option String
  deriving DecidableEq, Repr

/-- A call of `oauthHTTPClient.Post`. -/
structure PostRequest where
  url : String
  contentType : String
  body : String
  deriving DecidableEq, Repr

/-- The collaborators of `ExchangeCode`, over a world `σ`. -/
structure TokenEndpoint (σ : Type) where
  /-- Go `json.Marshal` of the map of the request, given as its entries. -/
  marshal : List (String × String) → String × Option String
  /-- Go `oauthHTTPClient.Post`: the response, or an error. -/
  post : σ → PostRequest → (HttpResponse × Option String) × σ
  /-- Go `json.Unmarshal(respBody, &tokenResp)`. -/
  unmarshalToken : String → OAuthTokenResponse × Option String
  /-- Go `time.Now().UnixMilli()`. -/
  now : σ → Int

/-- Go `llm.OAuthClientID`. -/
def OAuthClientID : String := "9d1c250a-e61b-44d9-88ed-5944d1962f5e"

/-- Go `llm.OAuthTokenURL`. -/
def OAuthTokenURL : String := "https://console.anthropic.com/v1/oauth/token"

/-- Go `llm.OAuthRedirectURI`. -/
def OAuthRedirectURI : String := "https://console.anthropic.com/oauth/code/callback"

/-- The pieces of `strings.SplitN(s, sep, 2)` for a separator of one rune: the text
before the first separator and the text after it, or the whole text.  `cur` is the
piece being read, last rune first. -/
def splitFirst (sep : Char) : List Char → List Char → List (List Char)
  | cur, [] => [cur.reverse]
  | cur, c :: rest =>
    if c = sep then [cur.reverse, rest] else splitFirst sep (c :: cur) rest

/-- Go `strings.SplitN(s, sep, 2)` for a separator of one rune. -/
def SplitN2 (s : String) (sep : Char) : List String :=
  (splitFirst sep [] s.data).map String.mk

/-- Go `truncateError`; lengths are counted in runes, which are the bytes of Go for
ASCII text. -/
def truncateError (body : String) : String :=
  if body.length > 200 then String.mk (body.data.take 200) ++ "..." else body

/-- What `ExchangeCode` returns and does: the credentials (`none` for nil), the error,
the next world and the requests sent to the token endpoint. -/
structure ExchangeResult (σ : Type) where
  credentials : Option OAuthCredentials
  err : Option String
  world : σ
  requests : List PostRequest

/-- Go `ExchangeCode(authCode, verifier, expectedState)`. -/
def ExchangeCode {σ : Type} (ep : TokenEndpoint σ) (authCode verifier expectedState : String)
    (w : σ) : ExchangeResult σ :=
  let parts := SplitN2 authCode '#'
  let code := parts.getD 0 ""
  let state := if parts.length = 2 then parts.getD 1 "" else ""
  if expectedState ≠ "" ∧ state ≠ expectedState then
    ⟨none, some "OAuth state mismatch (possible CSRF attack)", w, []⟩
  else
    match ep.marshal [("grant_type", "authorization_code"), ("client_id", OAuthClientID),
        ("code", code), ("state", state), ("redirect_uri", OAuthRedirectURI),
        ("code_verifier", verifier)] with
    | (_, some e) => ⟨none, some e, w, []⟩
    | (body, none) =>
      let request : PostRequest := ⟨OAuthTokenURL, "application/json", body⟩
      match ep.post w request with
      | ((_, some e), w1) => ⟨none, some ("token exchange request failed: " ++ e), w1, [request]⟩
      | ((resp, none), w1) =>
        match resp.body with
        | (_, some e) => ⟨none, some ("failed to read token response: " ++ e), w1, [request]⟩
        | (respBody, none) =>
          if resp.statusCode ≠ 200 then
            ⟨none, some ("token exchange failed (status " ++ toString resp.statusCode ++ "): " ++
              truncateError respBody), w1, [request]⟩
          else
            match ep.unmarshalToken respBody with
            | (_, some e) =>
              ⟨none, some ("failed to parse token response: " ++ e), w1, [request]⟩
            | (tokenResp, none) =>
              let expiresAt := wrapInt64 (ep.now w1 + wrapInt64 (tokenResp.expiresIn * 1000))
              ⟨some { provider := "anthropic", accessToken := tokenResp.accessToken,
                      refreshToken := tokenResp.refreshToken, expiresAt := expiresAt },
                none, w1, [request]⟩

/-- The words of the claim about `ExchangeCode`: the text after the first `#` of the
authorization code, the empty text when it holds no `#`. -/
def stateAfterHash (authCode : String) : String :=
  String.mk ((authCode.data.dropWhile (fun c => c ≠ '#')).drop 1)

/-- A token endpoint for the scenarios: it accepts every request and answers with a
token that lasts one hour. -/
def scenarioEndpoint : TokenEndpoint Nat :=
  { marshal := fun entries =>
      (String.intercalate "&" (entries.map (fun kv => kv.1 ++ "=" ++ kv.2)), none),
    post := fun w _ => ((⟨200, ("token", none)⟩, none), w + 1),
    unmarshalToken := fun _ => (⟨"access", "refresh", 3600, "Bearer"⟩, none),
    now := fun _ => 1000000 }

/-! ## `utils.ExecuteWithRetry` -/

/-- Go `utils.RetryConfig`; durations are in nanoseconds, `jitterFactor` in thousandths. -/
structure RetryConfig where
  maxRetries : Int
  initialDelay : Int
  maxDelay : Int
  jitterFactor : Int
  deriving DecidableEq, Repr

/-- The collaborators of `ExecuteWithRetry`, over a world `σ`. -/
structure RetryEnv (σ : Type) where
  /-- The operation: the error it returns, `none` for nil. -/
  operation : σ → Option String × σ
  /-- The jittered delay `delay + time.Duration((rand.Float64()*2-1)*jitter)` for a delay
  and a jitter factor. -/
  jittered : σ → Int → Int → Int × σ
  /-- Go `time.Sleep`. -/
  sleep : σ → Int → σ

/-- A call made by `ExecuteWithRetry`. -/
inductive RetryCall where
  | operation (err : Option String)
  | sleep (delay : Int)
  deriving DecidableEq, Repr

/-- What `ExecuteWithRetry` returns and does. -/
structure RetryResult (σ : Type) where
  err : Option String
  world : σ
  calls : List RetryCall

/-- Go `fmt.Errorf("operation failed after %d retries: %w", maxRetries, lastErr)`. -/
def retryError (maxRetries : Int) (lastErr : Option String) : String :=
  "operation failed after " ++ toString maxRetries ++ " retries: " ++
    (match lastErr with
      | some e => e
      | none => "%!w(<nil>)")

/-- The loop of `ExecuteWithRetry` at the counter `i`, with at most `fuel` iterations
left. -/
def retryLoop {σ : Type} (env : RetryEnv σ) (config : RetryConfig) :
    Nat → Int → Int → Option String → σ → RetryResult σ
  | 0, _, _, lastErr, w => ⟨some (retryError config.maxRetries lastErr), w, []⟩
  | fuel + 1, i, delay, lastErr, w =>
    if i ≤ config.maxRetries then
      match env.operation w with
      | (none, w1) => ⟨none, w1, [RetryCall.operation none]⟩
      | (some e, w1) =>
        if i = config.maxRetries then
          ⟨some (retryError config.maxRetries (some e)), w1, [RetryCall.operation (some e)]⟩
        else
          let actual := env.jittered w1 delay config.jitterFactor
          let w3 := env.sleep actual.2 actual.1
          let doubled := wrapInt64 (delay * 2)
          let next := if doubled > config.maxDelay then config.maxDelay else doubled
          let r := retryLoop env config fuel (i + 1) next (some e) w3
          { r with calls := RetryCall.operation (some e) :: RetryCall.sleep actual.1 :: r.calls }
    else ⟨some (retryError config.maxRetries lastErr), w, []⟩

/-- Go `ExecuteWithRetry(operation, config)`.  The loop runs while `i <= MaxRetries` from
`i = 0`, so `MaxRetries + 1` iterations are all it can make. -/
def ExecuteWithRetry {σ : Type} (env : RetryEnv σ) (config : RetryConfig) (w : σ) :
    RetryResult σ :=
  retryLoop env config (config.maxRetries + 1).toNat 0 config.initialDelay none w

/-- The error of an event, for an invocation of the operation. -/
def RetryCall.invocation : RetryCall → Option (Option String)
  | RetryCall.operation err => some err
  | RetryCall.sleep _ => none

/-- What the invocations of the operation returned, in order. -/
def invocations (calls : List RetryCall) : List (Option String) :=
  calls.filterMap RetryCall.invocation

/-- An operation that fails twice and then succeeds; the world counts its invocations. -/
def flakyOperation : RetryEnv Nat :=
  { operation := fun w => (if w < 2 then some "busy" else none, w + 1),
    jittered := fun w delay _ => (delay, w),
    sleep := fun w _ => w }

/-- An operation that always fails. -/
def brokenOperation : RetryEnv Nat :=
  { operation := fun w => (some ("failure " ++ toString w), w + 1),
    jittered := fun w delay _ => (delay, w),
    sleep := fun w _ => w }

/-! ## `Agent.extractInsights` -/

/-- An event of the conversation with the model and its tools: the start of a round of
tool calls, an event of a round, a call of the model, or a message added. -/
def Event.isDialogue : Event → Bool
  | Event.executingToolCalls _ _ => true
  | Event.chatWithTools _ _ => true
  | Event.addMessage _ _ => true
  | e => e.isToolRound

/-- Go `editor.EditRecord`, without its timestamp. -/
structure EditRecord where
  id : String
  filePath : String
  operation : String
  oldContent : String
  newContent : String
  applied : Bool
  description : String
  deriving DecidableEq, Repr

/-- Go `editor.SessionStatus`: "active", "completed", "rolled_back". -/
inductive SessionStatus where
  | active
  | completed
  | rolledBack
  deriving DecidableEq, Repr

/-- Go `editor.Session`, without its start time. -/
structure Session where
  id : String
  description : String
  edits : List EditRecord
  status : SessionStatus
  checkpoint : String
  deriving DecidableEq, Repr

/-- Go `editor.Manager`.  The map `sessions` holds pointers to the sessions started; the
functions embedded here read and write the current session only. -/
structure Manager where
  projectRoot : String
  storagePath : String
  current : Option Session
  deriving DecidableEq, Repr

/-- The state of the file system: the content of the regular file under each name,
`none` where there is no file. -/
abbrev Files := String → Option String

/-- What the path library and the operating system decide for the editor. -/
structure Host where
  /-- Go `os.Getwd`. -/
  getwd : String × Option String
  /-- Go `filepath.Rel(basepath, targpath)`. -/
  rel : String → String → String × Option String
  /-- The name under which the file system keeps the file that a path leads to. -/
  resolve : String → String
  /-- The error with which the operating system refuses an operation ("WriteFile",
  "Remove", "MkdirAll") on a path for a reason other than the files themselves, such as
  a missing directory or a missing permission. -/
  refuses : Files → String → String → Option String

/-- Go `os.WriteFile(path, data, 0644)`: the error and the files afterwards. -/
def WriteFile (host : Host) (fs : Files) (path data : String) : Option String × Files :=
  match host.refuses fs "WriteFile" path with
  | some e => (some e, fs)
  | none => (none, Function.update fs (host.resolve path) (some data))

/-- Go `os.Remove(path)` for the path of a file: it fails when there is no file. -/
def Remove (host : Host) (fs : Files) (path : String) : Option String × Files :=
  match host.refuses fs "Remove" path with
  | some e => (some e, fs)
  | none =>
    match fs (host.resolve path) with
    | none => (some ("remove " ++ path ++ ": no such file or directory"), fs)
    | some _ => (none, Function.update fs (host.resolve path) none)

/-- Go `os.MkdirAll(dir, 0755)`: it changes no file. -/
def MkdirAll (host : Host) (fs : Files) (dir : String) : Option String × Files :=
  match host.refuses fs "MkdirAll" dir with
  | some e => (some e, fs)
  | none => (none, fs)

/-- Go `filepath.Dir` on Unix: the path up to its last separator, cleaned. -/
def Dir (path : String) : String :=
  Clean (String.mk ((path.data.reverse.dropWhile (fun c => c ≠ '/')).reverse))

/-- Go `validatePath(path)`: the error, `none` for nil. -/
def validatePath (host : Host) (m : Manager) (path : String) : Option String :=
  match Abs host.getwd path with
  | (_, some e) => some e
  | (absPath, none) =>
    match host.rel m.projectRoot absPath with
    | (rel, err) =>
      if err.isSome ∨ HasPrefix rel ".." = true ∨ IsAbs rel = true then
        some ("path escapes project root: " ++ path)
      else none

/-- Go `applyFileEdit(edit)`: the error and the files afterwards. -/
def applyFileEdit (host : Host) (m : Manager) (fs : Files) (edit : EditRecord) :
    Option String × Files :=
  match validatePath host m edit.filePath with
  | some e => (some e, fs)
  | none =>
    if edit.operation = "create" then
      match MkdirAll host fs (Dir edit.filePath) with
      | (some e, fs1) => (some e, fs1)
      | (none, fs1) => WriteFile host fs1 edit.filePath edit.newContent
    else if edit.operation = "modify" then
      WriteFile host fs edit.filePath edit.newContent
    else if edit.operation = "delete" then
      Remove host fs edit.filePath
    else (some ("unknown operation: " ++ edit.operation), fs)

/-- Go `rollbackFileEdit(edit)`: the error and the files afterwards. -/
def rollbackFileEdit (host : Host) (m : Manager) (fs : Files) (edit : EditRecord) :
    Option String × Files :=
  match validatePath host m edit.filePath with
  | some e => (some e, fs)
  | none =>
    if edit.operation = "create" then
      Remove host fs edit.filePath
    else if edit.operation = "modify" then
      WriteFile host fs edit.filePath edit.oldContent
    else if edit.operation = "delete" then
      match MkdirAll host fs (Dir edit.filePath) with
      | (some e, fs1) => (some e, fs1)
      | (none, fs1) => WriteFile host fs1 edit.filePath edit.oldContent
    else (some ("unknown operation: " ++ edit.operation), fs)

/-- The loop of `ApplyAll` over the edits from the first one on: the error, the edits
and the files afterwards. -/
def applyEdits (host : Host) (m : Manager) :
    List EditRecord → Files → Option String × List EditRecord × Files
  | [], fs => (none, [], fs)
  | edit :: rest, fs =>
    if !edit.applied then
      match applyFileEdit host m fs edit with
      | (some e, fs1) =>
        (some ("failed to apply edit " ++ edit.id ++ ": " ++ e), edit :: rest, fs1)
      | (none, fs1) =>
        let r := applyEdits host m rest fs1
        (r.1, { edit with applied := true } :: r.2.1, r.2.2)
    else
      let r := applyEdits host m rest fs
      (r.1, edit :: r.2.1, r.2.2)

/-- Go `ApplyAll()`: the error, the manager and the files afterwards. -/
def ApplyAll (host : Host) (m : Manager) (fs : Files) : Option String × Manager × Files :=
  match m.current with
  | none => (some "no active session", m, fs)
  | some s =>
    let r := applyEdits host m s.edits fs
    (r.1, { m with current := some { s with edits := r.2.1 } }, r.2.2)

/-- The loop of `RollbackAll` over the edits in the order it visits them, the last edit
of the session first: the error, the edits (in that order) and the files afterwards. -/
def rollbackEdits (host : Host) (m : Manager) :
    List EditRecord → Files → Option String × List EditRecord × Files
  | [], fs => (none, [], fs)
  | edit :: rest, fs =>
    if edit.applied then
      match rollbackFileEdit host m fs edit with
      | (some e, fs1) =>
        (some ("failed to rollback edit " ++ edit.id ++ ": " ++ e), edit :: rest, fs1)
      | (none, fs1) =>
        let r := rollbackEdits host m rest fs1
        (r.1, { edit with applied := false } :: r.2.1, r.2.2)
    else
      let r := rollbackEdits host m rest fs
      (r.1, edit :: r.2.1, r.2.2)

/-- Go `RollbackAll()`: the error, the manager and the files afterwards. -/
def RollbackAll (host : Host) (m : Manager) (fs : Files) : Option String × Manager × Files :=
  match m.current with
  | none => (some "no active session", m, fs)
  | some s =>
    let r := rollbackEdits host m s.edits.reverse fs
    match r.1 with
    | some e => (some e, { m with current := some { s with edits := r.2.1.reverse } }, r.2.2)
    | none =>
      (none,
        { m with
          current := some { s with edits := r.2.1.reverse, status := SessionStatus.rolledBack } },
        r.2.2)

/-- The loop of `ApplyEdit`: `none` when no pending edit has the identifier. -/
def applyFirst (host : Host) (m : Manager) (editID : String) :
    List EditRecord → Files → Option (Option String × List EditRecord × Files)
  | [], _ => none
  | edit :: rest, fs =>
    if edit.id = editID ∧ edit.applied = false then
      match applyFileEdit host m fs edit with
      | (some e, fs1) => some (some e, edit :: rest, fs1)
      | (none, fs1) => some (none, { edit with applied := true } :: rest, fs1)
    else
      match applyFirst host m editID rest fs with
      | none => none
      | some r => some (r.1, edit :: r.2.1, r.2.2)

/-- Go `ApplyEdit(editID)`: the error, the manager and the files afterwards. -/
def ApplyEdit (host : Host) (m : Manager) (fs : Files) (editID : String) :
    Option String × Manager × Files :=
  match m.current with
  | none => (some "no active session", m, fs)
  | some s =>
    match applyFirst host m editID s.edits fs with
    | none => (some ("edit not found or already applied: " ++ editID), m, fs)
    | some r => (r.1, { m with current := some { s with edits := r.2.1 } }, r.2.2)

/-- The words of the claim about `ApplyAll` and `RollbackAll`, for one edit at the
moment it is applied: a "create" edit is of a file that does not exist, and the
`OldContent` of a "modify" or "delete" edit is the content of the file. -/
def editFits (host : Host) (fs : Files) (edit : EditRecord) : Prop :=
  (edit.operation = "create" ∧ fs (host.resolve edit.filePath) = none) ∨
  ((edit.operation = "modify" ∨ edit.operation = "delete") ∧
    fs (host.resolve edit.filePath) = some edit.oldContent)

/-- The words of the claim for the edits of a session: every edit fits the files at the
moment `ApplyAll` applies it. -/
def editsFit (host : Host) (m : Manager) : List EditRecord → Files → Prop
  | [], _ => True
  | edit :: rest, fs =>
    editFits host fs edit ∧ editsFit host m rest (applyFileEdit host m fs edit).2

/-- A host for the scenarios: the working directory is `/work`, a file is kept under
its absolute path, and nothing is refused. -/
def scenarioHost : Host :=
  { getwd := ("/work", none),
    rel := fun base target =>
      if HasPrefix target (base ++ "/") = true then
        (String.mk (target.data.drop (base.length + 1)), none)
      else if target = base then (".", none)
      else ("..", none),
    resolve := fun path => (Abs ("/work", none) path).1,
    refuses := fun _ _ _ => none }

/-- The files of the scenarios: `/work/a.txt` and `/work/b.txt`. -/
def scenarioFiles : Files :=
  fun name =>
    if name = "/work/a.txt" then some "old a"
    else if name = "/work/b.txt" then some "old b"
    else none

/-- A session with three pending edits: `a.txt` is modified, `b.txt` is deleted and
`c.txt` is created and then modified. -/
def scenarioManager : Manager :=
  { projectRoot := "/work", storagePath := ".agi",
    current := some
      { id := "session_1", description := "refactor", status := SessionStatus.active,
        checkpoint := "",
        edits :=
          [⟨"edit_1", "a.txt", "modify", "old a", "new a", false, "rewrite a"⟩,
           ⟨"edit_2", "b.txt", "delete", "old b", "", false, "drop b"⟩,
           ⟨"edit_3", "sub/c.txt", "create", "", "new c", false, "add c"⟩,
           ⟨"edit_4", "sub/c.txt", "modify", "new c", "newer c", false, "rewrite c"⟩] } }

/-- A session with one pending edit of `a.txt`. -/
def oneEditManager : Manager :=
  { projectRoot := "/work", storagePath := ".agi",
    current := some
      { id := "session_2", description := "fix", status := SessionStatus.active,
        checkpoint := "",
        edits := [⟨"edit_1", "a.txt", "modify", "old a", "new a", false, "rewrite a"⟩] } }

/-- The role and content that an event carries, for an `AddMessage` call. -/
def Event.messageAdded : Event → Option (String × String)
  | Event.addMessage role content => some (role, content)
  | _ => none

/-- The `AddMessage` calls on the conversational history, in order. -/
def messagesAdded (events : List Event) : List (String × String) :=
  events.filterMap Event.messageAdded

/-- The prompt tokens that an event carries, for an `UpdateTokenUsage` call. -/
def Event.tokenUpdate : Event → Option Int
  | Event.updateTokenUsage promptTokens => some promptTokens
  | _ => none

/-- The `UpdateTokenUsage` calls on the session, in order. -/
def tokenUpdates (events : List Event) : List Int :=
  events.filterMap Event.tokenUpdate

/-- The usage that a model reply reports: that of the response, nothing for a failed
call. -/
def LLMReply.reportedUsage : LLMReply → Option Usage
  | LLMReply.ok resp => some resp.usage
  | LLMReply.failed _ => none

/-- Go `GetUsageStats()`: the three token counters and the four rate-limit fields. -/
def GetUsageStats {σ : Type} (st : AgentState σ) : Usage × RateLimits :=
  (st.totalUsage, st.lastRateLimits)

/-- A model that requests one tool call in its first response and then answers. -/
def oneRoundEnv : Env World :=
  scenarioEnv
    (fun n => if n = 0 then LLMReply.ok (callsResponse [listCall])
      else LLMReply.ok (textResponse "done"))
    (fun _ => ApprovalSignal.received true) false []

/-! ## `agent.splitMessage` -/

/-- A Go `string`: a sequence of bytes; `len` is the number of bytes. -/
abbrev Bytes := List UInt8

/-- Go `s[:hi]` for a string: the first `hi` bytes; `none` is the run-time panic for a
bound out of range. -/
def sliceTo (s : Bytes) (hi : Int) : Option Bytes :=
  if 0 ≤ hi ∧ hi ≤ (s.length : Int) then some (s.take hi.toNat) else none

/-- Go `s[lo:]` for a string: the bytes from index `lo` on; `none` is the run-time panic
for a bound out of range. -/
def sliceFrom (s : Bytes) (lo : Int) : Option Bytes :=
  if 0 ≤ lo ∧ lo ≤ (s.length : Int) then some (s.drop lo.toNat) else none

/-- The index of the last newline byte among the bytes numbered from `i`, or `found`. -/
def lastNewlineFrom : Nat → Bytes → Int → Int
  | _, [], found => found
  | i, b :: rest, found => lastNewlineFrom (i + 1) rest (if b = 10 then (i : Int) else found)

/-- Go `strings.LastIndex(s, "\n")`: the index of the last newline byte, or -1. -/
def LastIndexNewline (s : Bytes) : Int :=
  lastNewlineFrom 0 s (-1)

/-- The loop of `splitMessage`, on a counter that bounds the number of passes; `none`
stands for a run that returns nothing: a panic, or the counter running out.  The
division is that of Go `int`, which truncates. -/
def splitLoop (maxLen : Int) : Nat → Bytes → List Bytes → Option (List Bytes)
  | 0, _, _ => none
  | fuel + 1, message, parts =>
    if (message.length : Int) > 0 then
      if (message.length : Int) ≤ maxLen then some (parts ++ [message])
      else
        match sliceTo message maxLen with
        | none => none
        | some head =>
          let lastNewline := LastIndexNewline head
          let splitPos := if lastNewline > maxLen.tdiv 2 then lastNewline + 1 else maxLen
          match sliceTo message splitPos, sliceFrom message splitPos with
          | some part, some rest => splitLoop maxLen fuel rest (parts ++ [part])
          | _, _ => none
    else some parts

/-- Go `splitMessage(message, maxLen)`.  The loop is started with a counter of
`len(message) + 1`, which never runs out when `maxLen >= 1` (`splitLoop_spec`). -/
def splitMessage (message : Bytes) (maxLen : Int) : Option (List Bytes) :=
  if (message.length : Int) ≤ maxLen then some [message]
  else splitLoop maxLen (message.length + 1) message []

/-! ## `llm.Client.parseSSEStream` -/

/-- Go `strings.TrimSpace`. -/
def TrimSpace (s : String) : String :=
  String.mk ((s.data.dropWhile isSpaceRune).reverse.dropWhile isSpaceRune).reverse

/-- Go `strings.TrimPrefix`. -/
def TrimPrefix (s pre : String) : String :=
  if HasPrefix s pre then String.mk (s.data.drop pre.data.length) else s

/-- Go `llm.StreamingDelta`. -/
structure StreamingDelta where
  content : String
  toolCalls : List ToolCall
  deriving DecidableEq, Repr

/-- Go `llm.StreamingChoice`. -/
structure StreamingChoice where
  index : Int
  delta : StreamingDelta
  finishReason : String
  deriving DecidableEq, Repr

/-- Go `llm.StreamingResponse`. -/
structure StreamingResponse where
  id : String
  object : String
  created : Int
  model : String
  choices : List StreamingChoice
  deriving DecidableEq, Repr

/-- Go zero value of `llm.StreamingResponse`. -/
def StreamingResponse.zero : StreamingResponse :=
  { id := "", object := "", created := 0, model := "", choices := [] }

/-- Go `llm.Choice`, with the fields `parseSSEStream` sets. -/
structure Choice where
  index : Int
  message : Message
  finishReason : String
  deriving DecidableEq, Repr

/-- Go `llm.ChatResponse`, with the fields `parseSSEStream` sets. -/
structure StreamedChatResponse where
  id : String
  object : String
  created : Int
  model : String
  choices : List Choice
  deriving DecidableEq, Repr

/-- The `io.Reader` that `parseSSEStream` reads: the text it delivers, and the error that
ends the reading, `none` for `io.EOF`. -/
structure Body where
  text : String
  readError : Option String
  deriving DecidableEq, Repr

/-- The lines that `reader.ReadString` returns without an error, in order: each ends
with its newline.  What follows the last newline comes back together with the error that
ends the reading, and `parseSSEStream` leaves the loop without looking at it.  `cur` is
the line being read, last rune first. -/
def completeLines : List Char → List Char → List String
  | _, [] => []
  | cur, c :: rest =>
    if c = '\n' then String.mk (c :: cur).reverse :: completeLines [] rest
    else completeLines (c :: cur) rest

/-- The variables of `parseSSEStream`, and the calls of the callback made so far: the
chunk and the `done` flag of each. -/
structure StreamState where
  fullContent : String
  toolCalls : List ToolCall
  lastResponse : StreamingResponse
  callbacks : List (String × Bool)
  deriving DecidableEq, Repr

/-- The variables of `parseSSEStream` before the loop. -/
def StreamState.start : StreamState :=
  { fullContent := "", toolCalls := [], lastResponse := StreamingResponse.zero, callbacks := [] }

/-- The merge of one tool-call delta: a delta with an id is a new tool call, a delta
without one extends the arguments of the last tool call, if there is any. -/
def mergeToolCall (toolCalls : List ToolCall) (tc : ToolCall) : List ToolCall :=
  if tc.id ≠ "" then toolCalls ++ [tc]
  else
    match toolCalls.getLast? with
    | some last => toolCalls.dropLast ++ [{ last with arguments := last.arguments ++ tc.arguments }]
    | none => toolCalls

/-- The loop of `parseSSEStream` over the lines read; the flag tells whether the loop was
left at "[DONE]".  `decode` is `json.Unmarshal` into a fresh `StreamingResponse`, `none`
for an error; `callback` tells whether the callback is not nil. -/
def streamLoop (decode : String → Option StreamingResponse) (callback : Bool) :
    List String → StreamState → StreamState × Bool
  | [], st => (st, false)
  | raw :: rest, st =>
    let line := TrimSpace raw
    if line = "" ∨ HasPrefix line ":" = true then streamLoop decode callback rest st
    else if ¬ HasPrefix line "data: " = true then streamLoop decode callback rest st
    else
      let data := TrimPrefix line "data: "
      if data = "[DONE]" then
        ({ st with callbacks := if callback then st.callbacks ++ [("", true)] else st.callbacks },
          true)
      else
        match decode data with
        | none => streamLoop decode callback rest st
        | some streamResp =>
          let st1 := { st with lastResponse := streamResp }
          match streamResp.choices with
          | [] => streamLoop decode callback rest st1
          | choice :: _ =>
            let st2 :=
              if choice.delta.content ≠ "" then
                { st1 with
                  fullContent := st1.fullContent ++ choice.delta.content,
                  callbacks :=
                    if callback then st1.callbacks ++ [(choice.delta.content, false)]
                    else st1.callbacks }
              else st1
            streamLoop decode callback rest
              { st2 with toolCalls := choice.delta.toolCalls.foldl mergeToolCall st2.toolCalls }

/-- The response `parseSSEStream` constructs after the loop. -/
def finalResponse (st : StreamState) : StreamedChatResponse :=
  { id := st.lastResponse.id, object := "chat.completion", created := st.lastResponse.created,
    model := st.lastResponse.model,
    choices := [{ index := 0,
                  message := { role := "assistant", content := st.fullContent,
                               toolCalls := st.toolCalls, toolCallID := "" },
                  finishReason := "stop" }] }

/-- Go `parseSSEStream(body, callback)`: the pair `(*ChatResponse, error)` and the calls
of the callback.  The loop ends at "[DONE]" or when the reader reports an error, which
is returned unless it is `io.EOF`. -/
def parseSSEStream (decode : String → Option StreamingResponse) (body : Body) (callback : Bool) :
    (Option StreamedChatResponse × Option String) × List (String × Bool) :=
  let r := streamLoop decode callback (completeLines [] body.text.data) StreamState.start
  if r.2 then ((some (finalResponse r.1), none), r.1.callbacks)
  else
    match body.readError with
    | some e => ((none, some e), r.1.callbacks)
    | none => ((some (finalResponse r.1), none), r.1.callbacks)

/-- In the words of the claim: the line is the event "[DONE]". -/
def isDoneLine (raw : String) : Bool :=
  decide (TrimSpace raw = "data: [DONE]")

/-- In the words of the claim: the well-formed "data: " event that a line carries, if it
carries one: the line starts with "data: " and what follows decodes. -/
def eventOf (decode : String → Option StreamingResponse) (raw : String) :
    Option StreamingResponse :=
  if HasPrefix (TrimSpace raw) "data: " then
    decode (String.mk ((TrimSpace raw).data.drop 6))
  else none

/-- In the words of the claim: the well-formed "data: " events of the stream that precede
"[DONE]", or the end of the stream when there is no "[DONE]". -/
def eventsBeforeDone (decode : String → Option StreamingResponse) (lines : List String) :
    List StreamingResponse :=
  (lines.takeWhile (fun raw => !isDoneLine raw)).filterMap (eventOf decode)

/-- The content delta of an event: that of its first choice. -/
def contentDelta (ev : StreamingResponse) : String :=
  match ev.choices with
  | [] => ""
  | choice :: _ => choice.delta.content

/-- The tool-call deltas of an event: those of its first choice. -/
def toolCallDeltas (ev : StreamingResponse) : List ToolCall :=
  match ev.choices with
  | [] => []
  | choice :: _ => choice.delta.toolCalls

/-- A decoder for the scenarios: three payloads decode, every other text is rejected. -/
def scenarioDecode (data : String) : Option StreamingResponse :=
  if data = "A" then
    some { id := "r1", object := "chunk", created := 7, model := "m",
           choices := [{ index := 0, delta := { content := "Hel", toolCalls := [] },
                         finishReason := "" }] }
  else if data = "B" then
    some { id := "r1", object := "chunk", created := 7, model := "m",
           choices := [{ index := 0, delta := { content := "lo", toolCalls := [] },
                         finishReason := "" }] }
  else if data = "E" then
    some { id := "r1", object := "chunk", created := 7, model := "m",
           choices := [{ index := 0, delta := { content := "", toolCalls := [] },
                         finishReason := "" }] }
  else none

/-- In the words of the claim: the lines of the stream, the pieces of the text between
its newlines; the last one is what follows the last newline. -/
def streamLines (text : String) : List String :=
  Split text '\n'

/-- In the words of the amended claim: the lines of the stream that end with a newline,
which are all its lines but the last. -/
def terminatedLines (text : String) : List String :=
  (streamLines text).dropLast

theorem handleToolCalls_eq {σ : Type} (env : Env σ) (resp : ChatResponse)
    (messages : List Message) (depth : Nat) (st : AgentState σ) :
    handleToolCalls env resp messages depth st =
      if depth > 10 then
        { reply := "", err := some depthError, state := st, events := [] }
      else
        let round := handleToolCallsRound env resp messages depth st.world
        let sent := env.chatWithTools round.world round.messages
        match sent.1 with
        | LLMReply.failed e =>
          { reply := "", err := some e, state := { st with world := sent.2 },
            events := round.events ++
              [Event.chatWithTools round.messages (LLMReply.failed e)] }
        | LLMReply.ok next =>
          if env.hasToolCalls next then
            let rest := handleToolCalls env next round.messages (depth + 1)
              { st with world := sent.2 }
            { rest with
              events := round.events ++
                [Event.chatWithTools round.messages (LLMReply.ok next)] ++ rest.events }
          else
            let content := env.getContent next
            { reply := content, err := none,
              state := { st with world := env.addMessage sent.2 "assistant" content },
              events := round.events ++
                [Event.chatWithTools round.messages (LLMReply.ok next),
                 Event.addMessage "assistant" content] } := by
  unfold handleToolCalls
  by_cases h : depth > 10
  · rw [if_pos h]
    cases hf : 12 - depth with
    | zero => rfl
    | succ n => simp [handleToolCallsAux, h]
  · rw [if_neg h]
    have h1 : 12 - depth = (12 - (depth + 1)) + 1 := by omega
    rw [h1, handleToolCallsAux, if_neg h]

theorem classifyLoop_eq {σ : Type} (env : Env σ) (w : σ) :
    ∀ (rest : List ToolCall) (pre : List toolExecutionResult) (s n : List Nat) (e : List Event),
      classifyLoop env w pre.length rest
          { results := pre ++ List.replicate rest.length toolExecutionResult.zero,
            sensitiveCalls := s, nonSensitiveCalls := n, events := e } =
        { results := pre ++ initialSlots env pre.length rest,
          sensitiveCalls := s ++ sensitiveFrom env w pre.length rest,
          nonSensitiveCalls := n ++ nonSensitiveFrom env w pre.length rest,
          events := e ++ classifyEvents env w pre.length rest } := by
  intro rest
  induction rest with
  | nil => intro pre s n e; simp [classifyLoop, initialSlots, sensitiveFrom, nonSensitiveFrom, classifyEvents]
  | cons tc rest ih =>
    intro pre s n e
    have hset : ∀ x : toolExecutionResult,
        (pre ++ List.replicate (tc :: rest).length toolExecutionResult.zero).set pre.length x =
          (pre ++ [x]) ++ List.replicate rest.length toolExecutionResult.zero := by
      intro x
      simp [List.set_append, List.replicate_succ]
    have hget : (pre ++ List.replicate (tc :: rest).length toolExecutionResult.zero).getD
        pre.length toolExecutionResult.zero = toolExecutionResult.zero := by
      rw [List.getD_append_right _ _ _ _ (le_refl _)]
      simp [List.replicate_succ]
    have hlen : (pre ++ [initialSlot env pre.length tc]).length = pre.length + 1 := by simp
    rw [classifyLoop]
    rcases hu : env.unmarshal tc.arguments with ⟨args, _ | err⟩
    · by_cases hr : env.requiresApproval w tc.name = true
      · have := ih (pre ++ [initialSlot env pre.length tc]) (s ++ [pre.length]) n
          (e ++ [Event.requiresApproval pre.length tc.name true])
        rw [hlen] at this
        simp only [classifyCall, hu, hget, hset, hr, if_true]
        simp only [initialSlot, hu] at this
        simp only [toolExecutionResult.zero] at this ⊢
        rw [this]
        simp [initialSlots, sensitiveFrom, nonSensitiveFrom, classifyEvents, classifyEvent,
          initialSlot, hu, hr]
      · have := ih (pre ++ [initialSlot env pre.length tc]) s (n ++ [pre.length])
          (e ++ [Event.requiresApproval pre.length tc.name false])
        rw [hlen] at this
        simp only [classifyCall, hu, hget, hset, hr]
        simp only [initialSlot, hu] at this
        simp only [toolExecutionResult.zero] at this ⊢
        simp only [Bool.false_eq_true, if_false]
        rw [this]
        simp [initialSlots, sensitiveFrom, nonSensitiveFrom, classifyEvents, classifyEvent,
          initialSlot, hu, hr]
    · have := ih (pre ++ [initialSlot env pre.length tc]) s n
          (e ++ [Event.unmarshalFailed pre.length tc.name err])
      rw [hlen] at this
      simp only [classifyCall, hu, hset]
      simp only [initialSlot, hu, parseFailureResult] at this
      rw [this]
      simp [initialSlots, sensitiveFrom, nonSensitiveFrom, classifyEvents, classifyEvent,
          initialSlot, hu, parseFailureResult]

theorem outcomes_append (a b : List Event) (k : Nat) :
    outcomes (a ++ b) k = outcomes a k ++ outcomes b k := by
  simp [outcomes]

theorem classifications_append (a b : List Event) (k : Nat) :
    classifications (a ++ b) k = classifications a k ++ classifications b k := by
  simp [classifications]

theorem filesAdded_append (a b : List Event) (k : Nat) :
    filesAdded (a ++ b) k = filesAdded a k ++ filesAdded b k := by
  simp [filesAdded]

theorem getD_set_self {α : Type} (l : List α) (i : Nat) (x d : α) (h : i < l.length) :
    (l.set i x).getD i d = x := by
  simp [List.getD_eq_getElem?_getD, List.getElem?_set, h]

theorem getD_set_ne {α : Type} (l : List α) (i j : Nat) (x d : α) (h : i ≠ j) :
    (l.set i x).getD j d = l.getD j d := by
  simp [List.getD_eq_getElem?_getD, List.getElem?_set, h]

theorem foldl_handles {σ : Type} {S : OutcomeSource → Prop}
    {f : Running σ → Nat → Running σ} (hf : HandlesOneCall S f) :
    ∀ (l : List Nat) (st : Running σ), l.Nodup →
      ∃ new : List Event,
        (l.foldl f st).events = st.events ++ new ∧
        (l.foldl f st).results.length = st.results.length ∧
        (∀ k, classifications new k = []) ∧ (∀ k, filesAdded new k = []) ∧
        (∀ j, j ∉ l →
          (l.foldl f st).results.getD j toolExecutionResult.zero =
            st.results.getD j toolExecutionResult.zero ∧ outcomes new j = []) ∧
        (∀ i, i ∈ l → i < st.results.length → ∃ o : Outcome, S o.source ∧
          outcomes new i = [o] ∧
          (l.foldl f st).results.getD i toolExecutionResult.zero =
            { st.results.getD i toolExecutionResult.zero with
              result := o.result, err := o.err }) := by
  intro l
  induction l with
  | nil =>
    intro st _
    exact ⟨[], by simp, rfl, by simp [classifications], by simp [filesAdded],
      by simp [outcomes], by simp⟩
  | cons i l ih =>
    intro st hnd
    obtain ⟨hi, hl⟩ := List.nodup_cons.1 hnd
    obtain ⟨o, new1, hS, hres, hev, hout, hcl, hfi⟩ := hf st i
    obtain ⟨new2, hev2, hlen2, hcl2, hfi2, hframe, hin⟩ := ih (f st i) hl
    have hlen1 : (f st i).results.length = st.results.length := by rw [hres]; simp
    refine ⟨new1 ++ new2, ?_, ?_, ?_, ?_, ?_, ?_⟩
    · simp [List.foldl_cons, hev2, hev]
    · simp [List.foldl_cons, hlen2, hlen1]
    · intro k; simp [classifications_append, hcl, hcl2]
    · intro k; simp [filesAdded_append, hfi, hfi2]
    · intro j hj
      have hji : j ≠ i := fun h => hj (h ▸ List.mem_cons_self _ _)
      have hjl : j ∉ l := fun h => hj (List.mem_cons_of_mem _ h)
      obtain ⟨h1, h2⟩ := hframe j hjl
      refine ⟨?_, ?_⟩
      · rw [List.foldl_cons, h1, hres, getD_set_ne _ _ _ _ _ (Ne.symm hji)]
      · rw [outcomes_append, hout, h2, if_neg hji]; rfl
    · intro k hk hklen
      rcases List.mem_cons.1 hk with rfl | hkl
      · obtain ⟨h1, h2⟩ := hframe k hi
        refine ⟨o, hS, ?_, ?_⟩
        · rw [outcomes_append, hout, h2, if_pos rfl]; rfl
        · rw [List.foldl_cons, h1, hres, getD_set_self _ _ _ _ hklen]
      · have hki : k ≠ i := fun h => hi (h ▸ hkl)
        obtain ⟨o2, hS2, ho2, hr2⟩ := hin k hkl (by rw [hlen1]; exact hklen)
        refine ⟨o2, hS2, ?_, ?_⟩
        · rw [outcomes_append, hout, ho2, if_neg hki]; rfl
        · rw [List.foldl_cons, hr2, hres, getD_set_ne _ _ _ _ _ (Ne.symm hki)]

theorem requestTelegramApproval_events {σ : Type} (env : Env σ) (name args : String) (w : σ) :
    ∀ e ∈ (requestTelegramApproval env name args w).2.2,
      (∃ t r, e = Event.sendMessageWithButtons t r) ∨
      (∃ n a, e = Event.logApprovalDecision n a) ∨ (∃ n, e = Event.logApprovalTimeout n) := by
  intro e he
  unfold requestTelegramApproval at he
  rcases h1 : env.sendMessageWithButtons w (env.approvalMessage name args) with ⟨_ | err, w1⟩
  · rcases h2 : env.awaitApproval w1 with ⟨_ | _, w2⟩
    · simp only [h1, h2] at he
      split at he <;> simp at he <;> rcases he with rfl | rfl <;> simp
    · simp only [h1, h2] at he
      simp at he
      rcases he with rfl | rfl <;> simp
  · simp only [h1] at he
    simp at he
    subst he
    simp

theorem requestTelegramApproval_neutral {σ : Type} (env : Env σ) (name args : String) (w : σ) :
    (∀ k, outcomes (requestTelegramApproval env name args w).2.2 k = []) ∧
    (∀ k, classifications (requestTelegramApproval env name args w).2.2 k = []) ∧
    (∀ k, filesAdded (requestTelegramApproval env name args w).2.2 k = []) ∧
    sensitiveTimeline (requestTelegramApproval env name args w).2.2 = [] := by
  have h := requestTelegramApproval_events env name args w
  refine ⟨?_, ?_, ?_, ?_⟩
  · intro k
    rw [outcomes, List.filterMap_eq_nil_iff]
    intro e he
    rcases h e he with ⟨t, r, rfl⟩ | ⟨n, a, rfl⟩ | ⟨n, rfl⟩ <;> rfl
  · intro k
    rw [classifications, List.filterMap_eq_nil_iff]
    intro e he
    rcases h e he with ⟨t, r, rfl⟩ | ⟨n, a, rfl⟩ | ⟨n, rfl⟩ <;> rfl
  · intro k
    rw [filesAdded, List.filterMap_eq_nil_iff]
    intro e he
    rcases h e he with ⟨t, r, rfl⟩ | ⟨n, a, rfl⟩ | ⟨n, rfl⟩ <;> rfl
  · rw [sensitiveTimeline, List.filterMap_eq_nil_iff]
    intro e he
    rcases h e he with ⟨t, r, rfl⟩ | ⟨n, a, rfl⟩ | ⟨n, rfl⟩ <;> rfl

theorem executeConcurrent_handles {σ : Type} (env : Env σ) :
    HandlesOneCall (fun s => s = OutcomeSource.executor ExecMode.concurrent)
      (executeConcurrent env) := by
  intro st i
  refine ⟨⟨OutcomeSource.executor ExecMode.concurrent, _, _⟩, _, rfl, rfl, rfl, ?_, ?_, ?_⟩
  · intro k
    by_cases h : k = i
    · subst h; simp [outcomes, Event.outcomeFor]
    · simp [outcomes, Event.outcomeFor, h, Ne.symm h]
  · intro k; simp [classifications, Event.classificationFor]
  · intro k; simp [filesAdded, Event.fileFor]

theorem executeSequential_handles {σ : Type} (env : Env σ) :
    HandlesOneCall (fun s => s = OutcomeSource.executor ExecMode.sequential ∨
        (s = OutcomeSource.denial ∧ env.telegramEnabled = true))
      (executeSequential env) := by
  intro st i
  obtain ⟨n1, n2, n3, _⟩ := requestTelegramApproval_neutral env
    (st.results.getD i toolExecutionResult.zero).tc.name
    (st.results.getD i toolExecutionResult.zero).tc.arguments st.world
  generalize hslot : st.results.getD i toolExecutionResult.zero = slot at n1 n2 n3
  generalize hreq : requestTelegramApproval env slot.tc.name slot.tc.arguments st.world = req
    at n1 n2 n3
  by_cases ht : env.telegramEnabled = true
  · rcases hr1 : req.1 with _ | e
    · refine ⟨⟨OutcomeSource.executor ExecMode.sequential,
        (Executor.Execute env req.2.1 slot.tc.name slot.args).1.1,
        (Executor.Execute env req.2.1 slot.tc.name slot.args).1.2⟩,
        [Event.approvalRequested i slot.tc.name slot.tc.arguments] ++ req.2.2 ++
          [Event.approvalReturned i none,
           Event.execute ExecMode.sequential i slot.tc.name slot.args
            (Executor.Execute env req.2.1 slot.tc.name slot.args).1.1
            (Executor.Execute env req.2.1 slot.tc.name slot.args).1.2],
        Or.inl rfl, ?_, ?_, ?_, ?_, ?_⟩
      · simp only [executeSequential, ht, if_true, hslot, hreq, hr1]
      · simp only [executeSequential, ht, if_true, hslot, hreq, hr1]
        simp
      · intro k
        by_cases h : k = i
        · subst h
          rw [outcomes_append, outcomes_append, n1]
          simp [outcomes, Event.outcomeFor]
        · rw [outcomes_append, outcomes_append, n1]
          simp [outcomes, Event.outcomeFor, h, Ne.symm h]
      · intro k
        rw [classifications_append, classifications_append, n2]
        simp [classifications, Event.classificationFor]
      · intro k
        rw [filesAdded_append, filesAdded_append, n3]
        simp [filesAdded, Event.fileFor]
    · refine ⟨⟨OutcomeSource.denial, denialResult, some e⟩,
        [Event.approvalRequested i slot.tc.name slot.tc.arguments] ++ req.2.2 ++
          [Event.approvalReturned i (some e)], Or.inr ⟨rfl, ht⟩, ?_, ?_, ?_, ?_, ?_⟩
      · simp only [executeSequential, ht, if_true, hslot, hreq, hr1, denialResult]
      · simp only [executeSequential, ht, if_true, hslot, hreq, hr1]
        simp
      · intro k
        by_cases h : k = i
        · subst h
          rw [outcomes_append, outcomes_append, n1]
          simp [outcomes, Event.outcomeFor]
        · rw [outcomes_append, outcomes_append, n1]
          simp [outcomes, Event.outcomeFor, h, Ne.symm h]
      · intro k
        rw [classifications_append, classifications_append, n2]
        simp [classifications, Event.classificationFor]
      · intro k
        rw [filesAdded_append, filesAdded_append, n3]
        simp [filesAdded, Event.fileFor]
  · refine ⟨⟨OutcomeSource.executor ExecMode.sequential,
        (Executor.Execute env st.world slot.tc.name slot.args).1.1,
        (Executor.Execute env st.world slot.tc.name slot.args).1.2⟩,
        [Event.execute ExecMode.sequential i slot.tc.name slot.args
            (Executor.Execute env st.world slot.tc.name slot.args).1.1
            (Executor.Execute env st.world slot.tc.name slot.args).1.2],
        Or.inl rfl, ?_, ?_, ?_, ?_, ?_⟩
    · simp only [executeSequential, ht, hslot]; rfl
    · simp only [executeSequential, ht, hslot]; rfl
    · intro k
      by_cases h : k = i
      · subst h; simp [outcomes, Event.outcomeFor]
      · simp [outcomes, Event.outcomeFor, h, Ne.symm h]
    · intro k; simp [classifications, Event.classificationFor]
    · intro k; simp [filesAdded, Event.fileFor]

theorem initialSlots_length {σ : Type} (env : Env σ) :
    ∀ (calls : List ToolCall) (k : Nat), (initialSlots env k calls).length = calls.length := by
  intro calls
  induction calls with
  | nil => intro k; rfl
  | cons tc rest ih => intro k; simp [initialSlots, ih]

theorem initialSlots_getElem? {σ : Type} (env : Env σ) :
    ∀ (calls : List ToolCall) (k i : Nat),
      (initialSlots env k calls)[i]? = (calls[i]?).map (initialSlot env (k + i)) := by
  intro calls
  induction calls with
  | nil => intro k i; simp [initialSlots]
  | cons tc rest ih =>
    intro k i
    cases i with
    | zero => simp [initialSlots]
    | succ i =>
      simp only [initialSlots, List.getElem?_cons_succ, ih]
      have h : k + 1 + i = k + (i + 1) := by omega
      rw [h]

theorem mem_sensitiveFrom {σ : Type} (env : Env σ) (w : σ) :
    ∀ (calls : List ToolCall) (k j : Nat),
      j ∈ sensitiveFrom env w k calls ↔
        k ≤ j ∧ ∃ tc, calls[j - k]? = some tc ∧ (env.unmarshal tc.arguments).2 = none ∧
          env.requiresApproval w tc.name = true := by
  intro calls
  induction calls with
  | nil => intro k j; simp [sensitiveFrom]
  | cons tc rest ih =>
    intro k j
    have hrec := ih (k + 1) j
    rcases Nat.lt_trichotomy j k with hlt | heq | hgt
    · have h1 : j ∉ sensitiveFrom env w (k + 1) rest := by
        rw [hrec]; intro h; omega
      simp only [sensitiveFrom]
      split
      · simp only [List.mem_cons, h1, or_false]
        constructor
        · intro h; omega
        · intro h; omega
      · simp only [h1, false_iff]
        intro h; omega
    · subst heq
      have h1 : j ∉ sensitiveFrom env w (j + 1) rest := by
        rw [hrec]; intro h; omega
      simp only [sensitiveFrom]
      split
      · rename_i hc
        simp [hc.1, hc.2]
      · rename_i hc
        simp only [h1, false_iff]
        rintro ⟨_, tc2, h2, h3, h4⟩
        simp at h2
        subst h2
        exact hc ⟨h3, h4⟩
    · have hidx : j - k = (j - (k + 1)) + 1 := by omega
      have h2 : (tc :: rest)[j - k]? = rest[j - (k + 1)]? := by
        rw [hidx, List.getElem?_cons_succ]
      simp only [sensitiveFrom]
      split
      · simp only [List.mem_cons, hrec, h2]
        constructor
        · rintro (h | h)
          · omega
          · exact ⟨by omega, h.2⟩
        · intro h
          exact Or.inr ⟨by omega, h.2⟩
      · simp only [hrec, h2]
        constructor
        · intro h; exact ⟨by omega, h.2⟩
        · intro h; exact ⟨by omega, h.2⟩

theorem mem_nonSensitiveFrom {σ : Type} (env : Env σ) (w : σ) :
    ∀ (calls : List ToolCall) (k j : Nat),
      j ∈ nonSensitiveFrom env w k calls ↔
        k ≤ j ∧ ∃ tc, calls[j - k]? = some tc ∧ (env.unmarshal tc.arguments).2 = none ∧
          env.requiresApproval w tc.name = false := by
  intro calls
  induction calls with
  | nil => intro k j; simp [nonSensitiveFrom]
  | cons tc rest ih =>
    intro k j
    have hrec := ih (k + 1) j
    rcases Nat.lt_trichotomy j k with hlt | heq | hgt
    · have h1 : j ∉ nonSensitiveFrom env w (k + 1) rest := by
        rw [hrec]; intro h; omega
      simp only [nonSensitiveFrom]
      split
      · simp only [List.mem_cons, h1, or_false]
        constructor
        · intro h; omega
        · intro h; omega
      · simp only [h1, false_iff]
        intro h; omega
    · subst heq
      have h1 : j ∉ nonSensitiveFrom env w (j + 1) rest := by
        rw [hrec]; intro h; omega
      simp only [nonSensitiveFrom]
      split
      · rename_i hc
        simp [hc.1, hc.2]
      · rename_i hc
        simp only [h1, false_iff]
        rintro ⟨_, tc2, h2, h3, h4⟩
        simp at h2
        subst h2
        exact hc ⟨h3, h4⟩
    · have hidx : j - k = (j - (k + 1)) + 1 := by omega
      have h2 : (tc :: rest)[j - k]? = rest[j - (k + 1)]? := by
        rw [hidx, List.getElem?_cons_succ]
      simp only [nonSensitiveFrom]
      split
      · simp only [List.mem_cons, hrec, h2]
        constructor
        · rintro (h | h)
          · omega
          · exact ⟨by omega, h.2⟩
        · intro h
          exact Or.inr ⟨by omega, h.2⟩
      · simp only [hrec, h2]
        constructor
        · intro h; exact ⟨by omega, h.2⟩
        · intro h; exact ⟨by omega, h.2⟩

theorem sensitiveFrom_sorted {σ : Type} (env : Env σ) (w : σ) :
    ∀ (calls : List ToolCall) (k : Nat),
      (sensitiveFrom env w k calls).Pairwise (fun a b => a < b) := by
  intro calls
  induction calls with
  | nil => intro k; simp [sensitiveFrom]
  | cons tc rest ih =>
    intro k
    simp only [sensitiveFrom]
    split
    · refine List.pairwise_cons.2 ⟨?_, ih (k + 1)⟩
      intro j hj
      have := (mem_sensitiveFrom env w rest (k + 1) j).1 hj
      omega
    · exact ih (k + 1)

theorem nonSensitiveFrom_sorted {σ : Type} (env : Env σ) (w : σ) :
    ∀ (calls : List ToolCall) (k : Nat),
      (nonSensitiveFrom env w k calls).Pairwise (fun a b => a < b) := by
  intro calls
  induction calls with
  | nil => intro k; simp [nonSensitiveFrom]
  | cons tc rest ih =>
    intro k
    simp only [nonSensitiveFrom]
    split
    · refine List.pairwise_cons.2 ⟨?_, ih (k + 1)⟩
      intro j hj
      have := (mem_nonSensitiveFrom env w rest (k + 1) j).1 hj
      omega
    · exact ih (k + 1)

theorem nodup_of_sorted (l : List Nat) (h : l.Pairwise (fun a b => a < b)) : l.Nodup :=
  h.imp (fun hab => Nat.ne_of_lt hab)

theorem completionOrder_perm : ∀ (ps pending : List Nat),
    (completionOrder ps pending).Perm pending := by
  intro ps
  induction ps with
  | nil => intro pending; cases pending <;> simp [completionOrder]
  | cons p ps ih =>
    intro pending
    cases pending with
    | nil => simp [completionOrder]
    | cons x xs =>
      simp only [completionOrder]
      have hk : p % (x :: xs).length < (x :: xs).length := Nat.mod_lt _ (by simp)
      generalize p % (x :: xs).length = k at hk
      generalize x :: xs = l at hk
      have h1 := ih (l.eraseIdx k)
      refine (List.Perm.cons _ h1).trans ?_
      rw [List.getD_eq_getElem _ _ hk]
      rw [List.eraseIdx_eq_take_drop_succ]
      conv_rhs => rw [← List.take_append_drop k l]
      rw [List.drop_eq_getElem_cons hk]
      exact List.perm_middle.symm

theorem outcomes_cons (e : Event) (l : List Event) (k : Nat) :
    outcomes (e :: l) k = (Event.outcomeFor k e).toList ++ outcomes l k := by
  cases h : Event.outcomeFor k e <;> simp [outcomes, List.filterMap_cons, h]

theorem classifications_cons (e : Event) (l : List Event) (k : Nat) :
    classifications (e :: l) k = (Event.classificationFor k e).toList ++ classifications l k := by
  cases h : Event.classificationFor k e <;> simp [classifications, List.filterMap_cons, h]

theorem filesAdded_cons (e : Event) (l : List Event) (k : Nat) :
    filesAdded (e :: l) k = (Event.fileFor k e).toList ++ filesAdded l k := by
  cases h : Event.fileFor k e <;> simp [filesAdded, List.filterMap_cons, h]

theorem classifyEvents_read {σ : Type} (env : Env σ) (w : σ) :
    ∀ (calls : List ToolCall) (k j : Nat),
      (outcomes (classifyEvents env w k calls) j =
        if k ≤ j then
          match calls[j - k]? with
          | some tc =>
            (match (env.unmarshal tc.arguments).2 with
              | some e => [⟨OutcomeSource.parseFailure, parseFailureResult e, some e⟩]
              | none => [])
          | none => []
        else []) ∧
      (classifications (classifyEvents env w k calls) j =
        if k ≤ j then
          match calls[j - k]? with
          | some tc =>
            (match (env.unmarshal tc.arguments).2 with
              | some _ => []
              | none => [env.requiresApproval w tc.name])
          | none => []
        else []) ∧
      filesAdded (classifyEvents env w k calls) j = [] ∧
      sensitiveTimeline (classifyEvents env w k calls) = [] := by
  intro calls
  induction calls with
  | nil => intro k j; simp [classifyEvents, outcomes, classifications, filesAdded, sensitiveTimeline]
  | cons tc rest ih =>
    intro k j
    obtain ⟨h1, h2, h3, h4⟩ := ih (k + 1) j
    have h5 : sensitiveTimeline (classifyEvents env w k (tc :: rest)) = [] := by
      have : Event.sensitiveKey (classifyEvent env w k tc) = none := by
        unfold classifyEvent; split <;> rfl
      rw [classifyEvents, sensitiveTimeline, List.filterMap_cons, this]
      exact h4
    have h6 : filesAdded (classifyEvents env w k (tc :: rest)) j = [] := by
      have : Event.fileFor j (classifyEvent env w k tc) = none := by
        unfold classifyEvent; split <;> rfl
      rw [classifyEvents, filesAdded_cons, this, h3]; rfl
    refine ⟨?_, ?_, h6, h5⟩
    · rw [classifyEvents, outcomes_cons, h1]
      rcases Nat.lt_trichotomy j k with hlt | heq | hgt
      · have : Event.outcomeFor j (classifyEvent env w k tc) = none := by
          unfold classifyEvent; split <;> simp [Event.outcomeFor] <;> omega
        rw [this, if_neg (by omega), if_neg (by omega)]; rfl
      · subst heq
        rw [if_neg (by omega), if_pos (le_refl _)]
        simp only [Nat.sub_self, List.getElem?_cons_zero, List.append_nil]
        unfold classifyEvent
        split <;> rename_i hu <;> simp [hu, Event.outcomeFor]
      · have : Event.outcomeFor j (classifyEvent env w k tc) = none := by
          unfold classifyEvent; split <;> simp [Event.outcomeFor] <;> omega
        have hidx : j - k = (j - (k + 1)) + 1 := by omega
        rw [this, if_pos (by omega), if_pos (by omega), hidx, List.getElem?_cons_succ]; rfl
    · rw [classifyEvents, classifications_cons, h2]
      rcases Nat.lt_trichotomy j k with hlt | heq | hgt
      · have : Event.classificationFor j (classifyEvent env w k tc) = none := by
          unfold classifyEvent; split <;> simp [Event.classificationFor] <;> omega
        rw [this, if_neg (by omega), if_neg (by omega)]; rfl
      · subst heq
        rw [if_neg (by omega), if_pos (le_refl _)]
        simp only [Nat.sub_self, List.getElem?_cons_zero, List.append_nil]
        unfold classifyEvent
        split <;> rename_i hu <;> simp [hu, Event.classificationFor]
      · have : Event.classificationFor j (classifyEvent env w k tc) = none := by
          unfold classifyEvent; split <;> simp [Event.classificationFor] <;> omega
        have hidx : j - k = (j - (k + 1)) + 1 := by omega
        rw [this, if_pos (by omega), if_pos (by omega), hidx, List.getElem?_cons_succ]; rfl

theorem reportLoop_eq {σ : Type} (env : Env σ) (toolCalls : List ToolCall) :
    ∀ (results : List toolExecutionResult) (k : Nat) (acc : Reporting σ),
      (reportLoop env toolCalls k results acc).messages =
          acc.messages ++ toolMessages toolCalls k results ∧
      (reportLoop env toolCalls k results acc).events = acc.events ++ fileEvents k results := by
  intro results
  induction results with
  | nil => intro k acc; simp [reportLoop, toolMessages, fileEvents]
  | cons res rest ih =>
    intro k acc
    obtain ⟨h1, h2⟩ := ih (k + 1) (reportResult env toolCalls acc k res)
    rw [reportLoop, h1, h2]
    have hm : (reportResult env toolCalls acc k res).messages =
        acc.messages ++ [toolMessage toolCalls k res] := by
      unfold reportResult
      simp only
      split
      · split
        · split <;> rfl
        · rfl
      · rfl
    have he : (reportResult env toolCalls acc k res).events = acc.events ++ fileEvent k res := by
      unfold reportResult fileEvent addedFile
      simp only
      split
      · split
        · split <;> simp
        · simp
      · simp
    rw [hm, he]
    simp [toolMessages, fileEvents]

theorem fileEvents_read :
    ∀ (results : List toolExecutionResult) (k j : Nat),
      (filesAdded (fileEvents k results) j =
        if k ≤ j then
          match results[j - k]? with
          | some res => (addedFile res).toList
          | none => []
        else []) ∧
      outcomes (fileEvents k results) j = [] ∧
      classifications (fileEvents k results) j = [] ∧
      sensitiveTimeline (fileEvents k results) = [] := by
  intro results
  induction results with
  | nil => intro k j; simp [fileEvents, outcomes, classifications, filesAdded, sensitiveTimeline]
  | cons res rest ih =>
    intro k j
    obtain ⟨h1, h2, h3, h4⟩ := ih (k + 1) j
    have e1 : outcomes (fileEvent k res) j = [] := by
      unfold fileEvent; split <;> rfl
    have e2 : classifications (fileEvent k res) j = [] := by
      unfold fileEvent; split <;> rfl
    have e3 : sensitiveTimeline (fileEvent k res) = [] := by
      unfold fileEvent; split <;> rfl
    refine ⟨?_, ?_, ?_, ?_⟩
    · rw [fileEvents, filesAdded_append, h1]
      rcases Nat.lt_trichotomy j k with hlt | heq | hgt
      · have : filesAdded (fileEvent k res) j = [] := by
          unfold fileEvent; split <;> simp [filesAdded, Event.fileFor] <;> omega
        rw [this, if_neg (by omega), if_neg (by omega)]; rfl
      · subst heq
        rw [if_neg (by omega), if_pos (le_refl _)]
        simp only [Nat.sub_self, List.getElem?_cons_zero, List.append_nil]
        unfold fileEvent
        split <;> rename_i hu <;> simp [hu, filesAdded, Event.fileFor]
      · have : filesAdded (fileEvent k res) j = [] := by
          unfold fileEvent; split <;> simp [filesAdded, Event.fileFor] <;> omega
        have hidx : j - k = (j - (k + 1)) + 1 := by omega
        rw [this, if_pos (by omega), if_pos (by omega), hidx, List.getElem?_cons_succ]; rfl
    · rw [fileEvents, outcomes_append, e1, h2]; rfl
    · rw [fileEvents, classifications_append, e2, h3]; rfl
    · rw [fileEvents, sensitiveTimeline, List.filterMap_append]
      rw [sensitiveTimeline] at e3 h4
      rw [e3, h4]; rfl

theorem getElem?_of_getD {α : Type} (l : List α) (i : Nat) (d x : α) (h : i < l.length)
    (hx : l.getD i d = x) : l[i]? = some x := by
  rw [List.getD_eq_getElem _ _ h] at hx
  rw [List.getElem?_eq_getElem h, hx]

theorem initialSlot_eq {σ : Type} (env : Env σ) (i : Nat) (tc : ToolCall) :
    initialSlot env i tc =
      { tc := tc, args := (env.unmarshal tc.arguments).1,
        result := (match (env.unmarshal tc.arguments).2 with
          | some e => parseFailureResult e
          | none => ToolResult.zero),
        err := (env.unmarshal tc.arguments).2, index := i } := by
  unfold initialSlot
  rcases env.unmarshal tc.arguments with ⟨args, _ | e⟩ <;> rfl

theorem dispatch_spec {σ : Type} (env : Env σ) (calls : List ToolCall)
    (messages : List Message) (w : σ) :
    (dispatch env calls messages w).results.length = calls.length ∧
    (dispatch env calls messages w).messages =
      messages ++ toolMessages calls 0 (dispatch env calls messages w).results ∧
    ∀ (i : Nat) (tc : ToolCall), calls[i]? = some tc →
      ∃ o : Outcome,
        outcomes (dispatch env calls messages w).events i = [o] ∧
        (dispatch env calls messages w).results[i]? =
          some { tc := tc, args := (env.unmarshal tc.arguments).1, result := o.result,
                 err := o.err, index := i } ∧
        (match (env.unmarshal tc.arguments).2 with
          | some e =>
            o = ⟨OutcomeSource.parseFailure, parseFailureResult e, some e⟩ ∧
            classifications (dispatch env calls messages w).events i = []
          | none =>
            classifications (dispatch env calls messages w).events i =
              [env.requiresApproval w tc.name] ∧
            (if env.requiresApproval w tc.name = true then
              (o.source = OutcomeSource.executor ExecMode.sequential ∨
                (o.source = OutcomeSource.denial ∧ env.telegramEnabled = true))
             else o.source = OutcomeSource.executor ExecMode.concurrent)) ∧
        filesAdded (dispatch env calls messages w).events i =
          (addedFile { tc := tc, args := (env.unmarshal tc.arguments).1, result := o.result,
                       err := o.err, index := i }).toList := by
  have hcl : classifyLoop env w 0 calls
      { results := List.replicate calls.length toolExecutionResult.zero,
        sensitiveCalls := [], nonSensitiveCalls := [], events := [] } =
      { results := initialSlots env 0 calls, sensitiveCalls := sensitiveFrom env w 0 calls,
        nonSensitiveCalls := nonSensitiveFrom env w 0 calls,
        events := classifyEvents env w 0 calls } := by
    simpa using classifyLoop_eq env w calls [] [] [] []
  have hperm := completionOrder_perm (env.picks w) (nonSensitiveFrom env w 0 calls)
  have hnd1 : (completionOrder (env.picks w) (nonSensitiveFrom env w 0 calls)).Nodup :=
    hperm.nodup_iff.2 (nodup_of_sorted _ (nonSensitiveFrom_sorted env w calls 0))
  have hnd2 : (sensitiveFrom env w 0 calls).Nodup :=
    nodup_of_sorted _ (sensitiveFrom_sorted env w calls 0)
  obtain ⟨new1, hev1, hlen1, hc1, hf1, hframe1, hin1⟩ :=
    foldl_handles (executeConcurrent_handles env) _
      { results := initialSlots env 0 calls, world := w,
        events := classifyEvents env w 0 calls } hnd1
  generalize hpar : (completionOrder (env.picks w) (nonSensitiveFrom env w 0 calls)).foldl
      (executeConcurrent env)
      { results := initialSlots env 0 calls, world := w,
        events := classifyEvents env w 0 calls } = par at hev1 hlen1 hframe1 hin1
  obtain ⟨new2, hev2, hlen2, hc2, hf2, hframe2, hin2⟩ :=
    foldl_handles (executeSequential_handles env) _ par hnd2
  generalize hseq : (sensitiveFrom env w 0 calls).foldl (executeSequential env) par = seq
    at hev2 hlen2 hframe2 hin2
  obtain ⟨hm, he⟩ := reportLoop_eq env calls seq.results 0
    { messages := messages, world := seq.world, events := seq.events }
  have hres : (dispatch env calls messages w).results = seq.results := by
    simp only [dispatch, hcl, hpar, hseq]
  have hmsg : (dispatch env calls messages w).messages =
      messages ++ toolMessages calls 0 seq.results := by
    simp only [dispatch, hcl, hpar, hseq, hm]
  have hevs : (dispatch env calls messages w).events =
      classifyEvents env w 0 calls ++ new1 ++ new2 ++ fileEvents 0 seq.results := by
    simp only [dispatch, hcl, hpar, hseq, he]
    rw [hev2, hev1]
  simp only [] at hlen1 hlen2 hframe1 hin1
  have hlen : seq.results.length = calls.length := by
    rw [hlen2, hlen1, initialSlots_length]
  refine ⟨by rw [hres, hlen], by rw [hmsg, hres], ?_⟩
  intro i tc hi
  have hilt : i < calls.length := (List.getElem?_eq_some_iff.1 hi).1
  have hinit : (initialSlots env 0 calls).getD i toolExecutionResult.zero =
      initialSlot env i tc := by
    rw [List.getD_eq_getElem?_getD, initialSlots_getElem?, hi]
    simp
  obtain ⟨ho0, hc0, hf0, _⟩ := classifyEvents_read env w calls 0 i
  simp only [Nat.zero_le, if_true, Nat.sub_zero, hi] at ho0 hc0
  obtain ⟨hfe, hoe, hce, _⟩ := fileEvents_read seq.results 0 i
  simp only [Nat.zero_le, if_true, Nat.sub_zero] at hfe
  have hmemS := mem_sensitiveFrom env w calls 0 i
  have hmemN := mem_nonSensitiveFrom env w calls 0 i
  simp only [Nat.zero_le, true_and, Nat.sub_zero, hi, Option.some.injEq, exists_eq_left']
    at hmemS hmemN
  have hmemO : i ∈ completionOrder (env.picks w) (nonSensitiveFrom env w 0 calls) ↔
      i ∈ nonSensitiveFrom env w 0 calls := hperm.mem_iff
  rw [hres, hevs]
  simp only [outcomes_append, classifications_append, filesAdded_append, hc1, hc2, hf1, hf2,
    hf0, hoe, hce, hfe, hc0, ho0, List.append_nil, List.nil_append]
  rcases hu : (env.unmarshal tc.arguments).2 with _ | e
  · by_cases hr : env.requiresApproval w tc.name = true
    · have hS : i ∈ sensitiveFrom env w 0 calls := hmemS.2 ⟨hu, hr⟩
      have hN : i ∉ completionOrder (env.picks w) (nonSensitiveFrom env w 0 calls) := by
        rw [hmemO, hmemN]; simp [hr]
      obtain ⟨hp1, hp2⟩ := hframe1 i hN
      obtain ⟨o, hSo, ho2, hr2⟩ := hin2 i hS (by rw [hlen1, initialSlots_length]; exact hilt)
      have hslot : seq.results[i]? = some
          { tc := tc, args := (env.unmarshal tc.arguments).1,
            result := o.result, err := o.err, index := i } := by
        apply getElem?_of_getD _ _ toolExecutionResult.zero _ (by rw [hlen]; exact hilt)
        rw [hr2, hp1, hinit]
        simp [initialSlot_eq, hu]
      refine ⟨o, ?_, hslot, ?_, ?_⟩
      · simp [hp2, ho2]
      · simp only [hr, if_true]
        exact ⟨trivial, hSo⟩
      · rw [hslot]
    · have hrf : env.requiresApproval w tc.name = false := by simpa using hr
      have hN : i ∈ completionOrder (env.picks w) (nonSensitiveFrom env w 0 calls) := by
        rw [hmemO, hmemN]; exact ⟨hu, hrf⟩
      have hS : i ∉ sensitiveFrom env w 0 calls := by
        rw [hmemS]; simp [hr]
      obtain ⟨o, hSo, ho1, hr1⟩ := hin1 i hN (by rw [initialSlots_length]; exact hilt)
      obtain ⟨hp1, hp2⟩ := hframe2 i hS
      have hslot : seq.results[i]? = some
          { tc := tc, args := (env.unmarshal tc.arguments).1,
            result := o.result, err := o.err, index := i } := by
        apply getElem?_of_getD _ _ toolExecutionResult.zero _ (by rw [hlen]; exact hilt)
        rw [hp1, hr1, hinit]
        simp [initialSlot_eq, hu]
      refine ⟨o, ?_, hslot, ?_, ?_⟩
      · simp [hp2, ho1]
      · simp only [hr]
        exact ⟨by simp [hrf], hSo⟩
      · rw [hslot]
  · have hS : i ∉ sensitiveFrom env w 0 calls := by
      rw [hmemS]; simp [hu]
    have hN : i ∉ completionOrder (env.picks w) (nonSensitiveFrom env w 0 calls) := by
      rw [hmemO, hmemN]; simp [hu]
    obtain ⟨hp1, hp2⟩ := hframe1 i hN
    obtain ⟨hq1, hq2⟩ := hframe2 i hS
    have hslot : seq.results[i]? = some
        { tc := tc, args := (env.unmarshal tc.arguments).1,
          result := parseFailureResult e, err := some e, index := i } := by
      apply getElem?_of_getD _ _ toolExecutionResult.zero _ (by rw [hlen]; exact hilt)
      rw [hq1, hp1, hinit]
      simp [initialSlot_eq, hu]
    refine ⟨⟨OutcomeSource.parseFailure, parseFailureResult e, some e⟩, ?_, hslot, ?_, ?_⟩
    · simp [hp2, hq2]
    · exact ⟨rfl, rfl⟩
    · rw [hslot]

theorem toolMessages_length (toolCalls : List ToolCall) :
    ∀ (results : List toolExecutionResult) (k : Nat),
      (toolMessages toolCalls k results).length = results.length := by
  intro results
  induction results with
  | nil => intro k; rfl
  | cons res rest ih => intro k; simp [toolMessages, ih]

theorem toolMessages_getElem? (toolCalls : List ToolCall) :
    ∀ (results : List toolExecutionResult) (k i : Nat),
      (toolMessages toolCalls k results)[i]? =
        (results[i]?).map (toolMessage toolCalls (k + i)) := by
  intro results
  induction results with
  | nil => intro k i; simp [toolMessages]
  | cons res rest ih =>
    intro k i
    cases i with
    | zero => simp [toolMessages]
    | succ i =>
      simp only [toolMessages, List.getElem?_cons_succ, ih]
      have h : k + 1 + i = k + (i + 1) := by omega
      rw [h]

theorem requestTelegramApproval_traffic {σ : Type} (env : Env σ) (name args : String) (w : σ) :
    ∀ e ∈ (requestTelegramApproval env name args w).2.2, e.isApprovalTraffic = true := by
  intro e he
  rcases requestTelegramApproval_events env name args w e he with
    ⟨t, r, rfl⟩ | ⟨n, a, rfl⟩ | ⟨n, rfl⟩ <;> rfl

/-- The three shapes of one pass through the loop over the sensitive calls. -/
theorem executeSequential_shape {σ : Type} (env : Env σ) (st : Running σ) (i : Nat) :
    ∃ (name arguments : String) (args : Args),
      (env.telegramEnabled = false ∧ ∃ res err,
        (executeSequential env st i).events =
          st.events ++ [Event.execute ExecMode.sequential i name args res err]) ∨
      (env.telegramEnabled = true ∧ ∃ internal res err,
        (∀ e ∈ internal, e.isApprovalTraffic = true) ∧
        (executeSequential env st i).events =
          st.events ++ (Event.approvalRequested i name arguments :: internal ++
            [Event.approvalReturned i none,
             Event.execute ExecMode.sequential i name args res err])) ∨
      (env.telegramEnabled = true ∧ ∃ internal e,
        (∀ e ∈ internal, e.isApprovalTraffic = true) ∧
        (executeSequential env st i).events =
          st.events ++ (Event.approvalRequested i name arguments :: internal ++
            [Event.approvalReturned i (some e)])) := by
  have htr := requestTelegramApproval_traffic env
    (st.results.getD i toolExecutionResult.zero).tc.name
    (st.results.getD i toolExecutionResult.zero).tc.arguments st.world
  generalize hslot : st.results.getD i toolExecutionResult.zero = slot at htr
  generalize hreq : requestTelegramApproval env slot.tc.name slot.tc.arguments st.world = req
    at htr
  refine ⟨slot.tc.name, slot.tc.arguments, slot.args, ?_⟩
  by_cases ht : env.telegramEnabled = true
  · rcases hr1 : req.1 with _ | e
    · refine Or.inr (Or.inl ⟨ht, req.2.2,
        (Executor.Execute env req.2.1 slot.tc.name slot.args).1.1,
        (Executor.Execute env req.2.1 slot.tc.name slot.args).1.2, htr, ?_⟩)
      simp only [executeSequential, ht, if_true, hslot, hreq, hr1]
      simp
    · refine Or.inr (Or.inr ⟨ht, req.2.2, e, htr, ?_⟩)
      simp only [executeSequential, ht, if_true, hslot, hreq, hr1]
      simp
  · refine Or.inl ⟨by simpa using ht,
      (Executor.Execute env st.world slot.tc.name slot.args).1.1,
      (Executor.Execute env st.world slot.tc.name slot.args).1.2, ?_⟩
    simp only [executeSequential, ht, hslot]
    rfl

theorem abe_nil (S : Nat → Prop) : ApprovedBeforeExecuted S [] := by
  intro pre post mode i name args res err h
  simp at h

theorem abe_snoc (S : Nat → Prop) (evs : List Event) (e : Event)
    (h : ApprovedBeforeExecuted S evs)
    (he : ∀ mode i name args res err, e = Event.execute mode i name args res err → S i →
      ∃ (x y z : List Event) (a : String),
        evs = x ++ Event.approvalRequested i name a :: y ++ Event.approvalReturned i none :: z) :
    ApprovedBeforeExecuted S (evs ++ [e]) := by
  intro pre post mode i name args res err hsplit hS
  rcases List.eq_nil_or_concat post with hp | ⟨post', last, hp⟩
  · subst hp
    have h2 : evs ++ [e] = pre ++ [Event.execute mode i name args res err] := hsplit
    obtain ⟨h3, h4⟩ := List.append_inj' h2 rfl
    subst h3
    exact he mode i name args res err (by simpa using h4) hS
  · subst hp
    have h2 : evs ++ [e] = (pre ++ Event.execute mode i name args res err :: post') ++ [last] := by
      rw [hsplit]; simp
    obtain ⟨h3, _⟩ := List.append_inj' h2 rfl
    exact h pre post' mode i name args res err h3 hS

theorem abe_append_quiet (S : Nat → Prop) : ∀ (l evs : List Event),
    ApprovedBeforeExecuted S evs →
    (∀ e ∈ l, ∀ mode i name args res err, e = Event.execute mode i name args res err → ¬ S i) →
    ApprovedBeforeExecuted S (evs ++ l) := by
  intro l
  induction l with
  | nil => intro evs h _; simpa using h
  | cons e l ih =>
    intro evs h hq
    have h1 : ApprovedBeforeExecuted S (evs ++ [e]) := by
      apply abe_snoc S evs e h
      intro mode i name args res err he hS
      exact absurd hS (hq e (List.mem_cons_self _ _) mode i name args res err he)
    have h2 := ih (evs ++ [e]) h1 (fun e' he' => hq e' (List.mem_cons_of_mem _ he'))
    simpa using h2

theorem traffic_not_execute (e : Event) (h : e.isApprovalTraffic = true) :
    ∀ mode i name args res err, e ≠ Event.execute mode i name args res err := by
  intro mode i name args res err he
  subst he
  simp [Event.isApprovalTraffic] at h

theorem foldl_sequential_abe {σ : Type} (env : Env σ) (S : Nat → Prop)
    (ht : env.telegramEnabled = true) :
    ∀ (l : List Nat) (st : Running σ), ApprovedBeforeExecuted S st.events →
      ApprovedBeforeExecuted S (l.foldl (executeSequential env) st).events := by
  intro l
  induction l with
  | nil => intro st h; exact h
  | cons i l ih =>
    intro st h
    rw [List.foldl_cons]
    apply ih
    obtain ⟨name, arguments, args, hshape⟩ := executeSequential_shape env st i
    rcases hshape with ⟨hoff, _⟩ | ⟨_, internal, res, err, hint, hev⟩ | ⟨_, internal, e, hint, hev⟩
    · rw [ht] at hoff; exact absurd hoff (by simp)
    · rw [hev]
      have h1 : ApprovedBeforeExecuted S
          (st.events ++ (Event.approvalRequested i name arguments :: internal ++
            [Event.approvalReturned i none])) := by
        apply abe_append_quiet S _ _ h
        intro e' he' mode j n a r er heq
        simp only [List.cons_append, List.mem_cons, List.mem_append, List.mem_singleton,
          List.not_mem_nil, or_false] at he'
        rcases he' with rfl | he' | rfl
        · simp at heq
        · exact absurd heq (traffic_not_execute e' (hint e' he') mode j n a r er)
        · simp at heq
      have h2 := abe_snoc S _ (Event.execute ExecMode.sequential i name args res err) h1 (by
        intro mode j n a r er heq _
        simp only [Event.execute.injEq] at heq
        obtain ⟨_, rfl, rfl, _⟩ := heq
        exact ⟨st.events, internal, [], arguments, by simp⟩)
      simpa using h2
    · rw [hev]
      apply abe_append_quiet S _ _ h
      intro e' he' mode j n a r er heq
      simp only [List.cons_append, List.mem_cons, List.mem_append, List.mem_singleton,
        List.not_mem_nil, or_false] at he'
      rcases he' with rfl | he' | rfl
      · simp at heq
      · exact absurd heq (traffic_not_execute e' (hint e' he') mode j n a r er)
      · simp at heq

theorem executeConcurrent_events {σ : Type} (env : Env σ) (st : Running σ) (i : Nat) :
    ∃ name args res err, (executeConcurrent env st i).events =
      st.events ++ [Event.execute ExecMode.concurrent i name args res err] :=
  ⟨_, _, _, _, rfl⟩

theorem foldl_concurrent_events {σ : Type} (env : Env σ) :
    ∀ (l : List Nat) (st : Running σ), ∃ new : List Event,
      (l.foldl (executeConcurrent env) st).events = st.events ++ new ∧
      ∀ e ∈ new, ∃ j ∈ l, ∃ name args res err,
        e = Event.execute ExecMode.concurrent j name args res err := by
  intro l
  induction l with
  | nil => intro st; exact ⟨[], by simp, by simp⟩
  | cons i l ih =>
    intro st
    obtain ⟨new, h1, h2⟩ := ih (executeConcurrent env st i)
    obtain ⟨name, args, res, err, h0⟩ := executeConcurrent_events env st i
    refine ⟨Event.execute ExecMode.concurrent i name args res err :: new, ?_, ?_⟩
    · rw [List.foldl_cons, h1, h0]
      simp
    · intro e he
      rcases List.mem_cons.1 he with rfl | he
      · exact ⟨i, List.mem_cons_self _ _, _, _, _, _, rfl⟩
      · obtain ⟨j, hj, rest⟩ := h2 e he
        exact ⟨j, List.mem_cons_of_mem _ hj, rest⟩

theorem classifyEvents_not_execute {σ : Type} (env : Env σ) (w : σ) :
    ∀ (calls : List ToolCall) (k : Nat), ∀ e ∈ classifyEvents env w k calls,
      ∀ mode i name args res err, e ≠ Event.execute mode i name args res err := by
  intro calls
  induction calls with
  | nil => intro k e he; simp [classifyEvents] at he
  | cons tc rest ih =>
    intro k e he mode i name args res err heq
    rcases List.mem_cons.1 he with h | h
    · subst heq
      unfold classifyEvent at h
      split at h <;> simp at h
    · exact ih (k + 1) e h mode i name args res err heq

theorem fileEvents_not_execute :
    ∀ (results : List toolExecutionResult) (k : Nat), ∀ e ∈ fileEvents k results,
      ∀ mode i name args res err, e ≠ Event.execute mode i name args res err := by
  intro results
  induction results with
  | nil => intro k e he; simp [fileEvents] at he
  | cons r rest ih =>
    intro k e he mode i name args res err heq
    rcases List.mem_append.1 he with h | h
    · subst heq
      unfold fileEvent at h
      split at h <;> simp at h
    · exact ih (k + 1) e h mode i name args res err heq

theorem abe_cons_quiet (S : Nat → Prop) (e : Event) (evs : List Event)
    (he : ∀ mode i name args res err, e ≠ Event.execute mode i name args res err)
    (h : ApprovedBeforeExecuted S evs) : ApprovedBeforeExecuted S (e :: evs) := by
  intro pre post mode i name args res err hsplit hS
  cases pre with
  | nil =>
    simp only [List.nil_append, List.cons.injEq] at hsplit
    exact absurd hsplit.1 (he mode i name args res err)
  | cons p pre' =>
    simp only [List.cons_append, List.cons.injEq] at hsplit
    obtain ⟨x, y, z, a, hx⟩ := h pre' post mode i name args res err hsplit.2 hS
    exact ⟨p :: x, y, z, a, by rw [hx]; simp⟩

/-- With remote approval enabled, one round executes a call that requires approval only
after the approval for it was requested and granted. -/
theorem dispatch_approved_before_executed {σ : Type} (env : Env σ) (calls : List ToolCall)
    (messages : List Message) (w : σ) (ht : env.telegramEnabled = true) :
    ApprovedBeforeExecuted
      (fun i => ∃ tc, calls[i]? = some tc ∧ env.requiresApproval w tc.name = true)
      (dispatch env calls messages w).events := by
  have hcl : classifyLoop env w 0 calls
      { results := List.replicate calls.length toolExecutionResult.zero,
        sensitiveCalls := [], nonSensitiveCalls := [], events := [] } =
      { results := initialSlots env 0 calls, sensitiveCalls := sensitiveFrom env w 0 calls,
        nonSensitiveCalls := nonSensitiveFrom env w 0 calls,
        events := classifyEvents env w 0 calls } := by
    simpa using classifyLoop_eq env w calls [] [] [] []
  have hperm := completionOrder_perm (env.picks w) (nonSensitiveFrom env w 0 calls)
  obtain ⟨newC, hevC, hC⟩ := foldl_concurrent_events env
    (completionOrder (env.picks w) (nonSensitiveFrom env w 0 calls))
    { results := initialSlots env 0 calls, world := w, events := classifyEvents env w 0 calls }
  generalize hpar : (completionOrder (env.picks w) (nonSensitiveFrom env w 0 calls)).foldl
      (executeConcurrent env)
      { results := initialSlots env 0 calls, world := w,
        events := classifyEvents env w 0 calls } = par at hevC
  simp only [] at hevC
  have h1 : ApprovedBeforeExecuted
      (fun i => ∃ tc, calls[i]? = some tc ∧ env.requiresApproval w tc.name = true)
      par.events := by
    rw [hevC]
    apply abe_append_quiet
    · have := abe_append_quiet
        (fun i => ∃ tc, calls[i]? = some tc ∧ env.requiresApproval w tc.name = true)
        (classifyEvents env w 0 calls) [] (abe_nil _) (by
          intro e he mode i name args res err heq
          exact absurd heq (classifyEvents_not_execute env w calls 0 e he mode i name args res err))
      simpa using this
    · intro e he mode i name args res err heq
      obtain ⟨j, hj, n, a, r, er, hje⟩ := hC e he
      rw [hje] at heq
      simp only [Event.execute.injEq] at heq
      obtain ⟨_, rfl, _⟩ := heq
      have hjn := (mem_nonSensitiveFrom env w calls 0 j).1 (hperm.mem_iff.1 hj)
      obtain ⟨_, tc, htc, _, hfalse⟩ := hjn
      rintro ⟨tc2, htc2, htrue⟩
      simp only [Nat.sub_zero] at htc
      rw [htc] at htc2
      simp only [Option.some.injEq] at htc2
      subst htc2
      rw [hfalse] at htrue
      exact absurd htrue (by simp)
  have h2 := foldl_sequential_abe env _ ht (sensitiveFrom env w 0 calls) par h1
  obtain ⟨_, he⟩ := reportLoop_eq env calls
    ((sensitiveFrom env w 0 calls).foldl (executeSequential env) par).results 0
    { messages := messages,
      world := ((sensitiveFrom env w 0 calls).foldl (executeSequential env) par).world,
      events := ((sensitiveFrom env w 0 calls).foldl (executeSequential env) par).events }
  have hevs : (dispatch env calls messages w).events =
      ((sensitiveFrom env w 0 calls).foldl (executeSequential env) par).events ++
        fileEvents 0 ((sensitiveFrom env w 0 calls).foldl (executeSequential env) par).results := by
    simp only [dispatch, hcl, hpar, he]
  rw [hevs]
  apply abe_append_quiet _ _ _ h2
  intro e he mode i name args res err heq
  exact absurd heq (fileEvents_not_execute _ 0 e he mode i name args res err)

/-- C2, amended: with remote approval enabled, whenever one round of `handleToolCalls`
passes a call that requires approval to the executor, the approval for that call was
requested before and, after the request, returned without error. -/
theorem handleToolCalls_executes_sensitive_only_after_approval {σ : Type} (env : Env σ)
    (resp : ChatResponse) (messages : List Message) (depth : Nat) (w : σ)
    (ht : env.telegramEnabled = true)
    (i : Nat) (tc : ToolCall) (hi : (env.getToolCalls resp)[i]? = some tc)
    (hr : env.requiresApproval w tc.name = true)
    (pre post : List Event) (mode : ExecMode) (name : String) (args : Args)
    (res : ToolResult) (err : Option String)
    (hev : (handleToolCallsRound env resp messages depth w).events =
      pre ++ Event.execute mode i name args res err :: post) :
    ∃ (x y z : List Event) (a : String),
      pre = x ++ Event.approvalRequested i name a :: y ++
        Event.approvalReturned i none :: z := by
  have h := dispatch_approved_before_executed env (env.getToolCalls resp)
    (messages ++ [resp.message]) w ht
  have h2 := abe_cons_quiet _ (Event.executingToolCalls (env.getToolCalls resp).length depth) _
    (by intro mode i name args res err; simp) h
  exact h2 pre post mode i name args res err hev ⟨tc, hi, hr⟩

/-- C2, amended, at a batch of a file read and a file write with an approving user:
the request for the write and its granted return precede the execution of the write. -/
theorem handleToolCalls_executes_sensitive_only_after_approval_witness :
    approvingEnv.telegramEnabled = true ∧
    approvingEnv.requiresApproval World.start writeCall.name = true ∧
    ∃ (x y z : List Event) (a : String),
      [Event.executingToolCalls 2 0, Event.requiresApproval 0 "read_file" false,
       Event.requiresApproval 1 "write_file" true,
       Event.execute ExecMode.concurrent 0 "read_file" [("path", JsonValue.str "notes.txt")]
         { success := true, output := "contents of notes", error := "" } none,
       Event.approvalRequested 1 "write_file" "\x7b\"path\":\"notes.txt\"\x7d",
       Event.sendMessageWithButtons "write_file \x7b\"path\":\"notes.txt\"\x7d" none,
       Event.logApprovalDecision "write_file" true,
       Event.approvalReturned 1 none] =
      x ++ Event.approvalRequested 1 "write_file" a :: y ++ Event.approvalReturned 1 none :: z :=
  ⟨rfl, by decide,
    handleToolCalls_executes_sensitive_only_after_approval approvingEnv
      (callsResponse [readCall, writeCall]) [] 0 World.start rfl 1 writeCall (by decide)
      (by decide) _ [Event.addFile 0 "notes.txt" "contents of notes" 1000]
      ExecMode.sequential "write_file" [("path", JsonValue.str "notes.txt")]
      { success := true, output := "written", error := "" } none (by decide)⟩

/-- C2 as stated fails: with remote approval disabled, a call of `write_file`, which
requires approval, is passed to the executor and no approval is requested. -/
theorem sensitive_call_executed_without_approval_when_telegram_disabled :
    unapprovedEnv.requiresApproval World.start writeCall.name = true ∧
    (handleToolCallsRound unapprovedEnv (callsResponse [writeCall]) [] 0 World.start).events =
      [Event.executingToolCalls 1 0, Event.requiresApproval 0 "write_file" true,
       Event.execute ExecMode.sequential 0 "write_file" [("path", JsonValue.str "notes.txt")]
         { success := true, output := "written", error := "" } none] ∧
    ¬ ApprovedBeforeExecuted (fun i => i = 0)
      (handleToolCallsRound unapprovedEnv (callsResponse [writeCall]) [] 0 World.start).events := by
  have hev : (handleToolCallsRound unapprovedEnv (callsResponse [writeCall]) [] 0
      World.start).events =
      [Event.executingToolCalls 1 0, Event.requiresApproval 0 "write_file" true,
       Event.execute ExecMode.sequential 0 "write_file" [("path", JsonValue.str "notes.txt")]
         { success := true, output := "written", error := "" } none] := by decide
  refine ⟨by decide, hev, ?_⟩
  intro h
  obtain ⟨x, y, z, a, hx⟩ := h
    [Event.executingToolCalls 1 0, Event.requiresApproval 0 "write_file" true] []
    ExecMode.sequential 0 "write_file" [("path", JsonValue.str "notes.txt")]
    { success := true, output := "written", error := "" } none (by rw [hev]; rfl) rfl
  have hmem : Event.approvalRequested 0 "write_file" a ∈
      [Event.executingToolCalls 1 0, Event.requiresApproval 0 "write_file" true] := by
    rw [hx]; simp
  simp at hmem

theorem sensitiveTimeline_append (a b : List Event) :
    sensitiveTimeline (a ++ b) = sensitiveTimeline a ++ sensitiveTimeline b := by
  simp [sensitiveTimeline]

theorem sensitiveTimeline_traffic (l : List Event)
    (h : ∀ e ∈ l, e.isApprovalTraffic = true) : sensitiveTimeline l = [] := by
  rw [sensitiveTimeline, List.filterMap_eq_nil_iff]
  intro e he
  have := h e he
  cases e <;> simp [Event.isApprovalTraffic] at this <;> rfl

theorem executeSequential_timeline {σ : Type} (env : Env σ) (st : Running σ) (i : Nat) :
    ∃ block : List Nat,
      sensitiveTimeline (executeSequential env st i).events =
        sensitiveTimeline st.events ++ block ∧
      block.Pairwise (fun a b => a < b) ∧ ∀ k ∈ block, 3 * i ≤ k ∧ k < 3 * (i + 1) := by
  obtain ⟨name, arguments, args, hshape⟩ := executeSequential_shape env st i
  rcases hshape with ⟨_, res, err, hev⟩ | ⟨_, internal, res, err, hint, hev⟩ |
    ⟨_, internal, e, hint, hev⟩
  · refine ⟨[3 * i + 2], ?_, by simp, by simp; omega⟩
    rw [hev, sensitiveTimeline_append]
    rfl
  · refine ⟨[3 * i, 3 * i + 1, 3 * i + 2], ?_, by simp, ?_⟩
    · rw [hev, sensitiveTimeline_append]
      have : Event.approvalRequested i name arguments :: internal ++
          [Event.approvalReturned i none,
           Event.execute ExecMode.sequential i name args res err] =
          [Event.approvalRequested i name arguments] ++ internal ++
          [Event.approvalReturned i none,
           Event.execute ExecMode.sequential i name args res err] := by simp
      rw [this, sensitiveTimeline_append, sensitiveTimeline_append,
        sensitiveTimeline_traffic internal hint]
      rfl
    · intro k hk
      simp at hk
      omega
  · refine ⟨[3 * i, 3 * i + 1], ?_, by simp, ?_⟩
    · rw [hev, sensitiveTimeline_append]
      have : Event.approvalRequested i name arguments :: internal ++
          [Event.approvalReturned i (some e)] =
          [Event.approvalRequested i name arguments] ++ internal ++
          [Event.approvalReturned i (some e)] := by simp
      rw [this, sensitiveTimeline_append, sensitiveTimeline_append,
        sensitiveTimeline_traffic internal hint]
      rfl
    · intro k hk
      simp at hk
      omega

theorem foldl_sequential_timeline {σ : Type} (env : Env σ) :
    ∀ (l : List Nat) (st : Running σ) (b : Nat), l.Pairwise (fun a b => a < b) →
      (∀ i ∈ l, b ≤ i) →
      (sensitiveTimeline st.events).Pairwise (fun a b => a < b) →
      (∀ k ∈ sensitiveTimeline st.events, k < 3 * b) →
      (sensitiveTimeline (l.foldl (executeSequential env) st).events).Pairwise
        (fun a b => a < b) := by
  intro l
  induction l with
  | nil => intro st b _ _ h _; exact h
  | cons i l ih =>
    intro st b hl hb hp hk
    obtain ⟨hil, hl'⟩ := List.pairwise_cons.1 hl
    obtain ⟨block, hblock, hbp, hbk⟩ := executeSequential_timeline env st i
    have hbi : b ≤ i := hb i (List.mem_cons_self _ _)
    rw [List.foldl_cons]
    apply ih (executeSequential env st i) (i + 1) hl'
    · intro j hj
      exact hil j hj
    · rw [hblock, List.pairwise_append]
      refine ⟨hp, hbp, ?_⟩
      intro x hx y hy
      have := hk x hx
      have := (hbk y hy).1
      omega
    · intro k hk'
      rw [hblock, List.mem_append] at hk'
      rcases hk' with h | h
      · have := hk k h
        omega
      · exact (hbk k h).2

theorem dispatch_timeline {σ : Type} (env : Env σ) (calls : List ToolCall)
    (messages : List Message) (w : σ) :
    (sensitiveTimeline (dispatch env calls messages w).events).Pairwise
      (fun a b => a < b) := by
  have hcl : classifyLoop env w 0 calls
      { results := List.replicate calls.length toolExecutionResult.zero,
        sensitiveCalls := [], nonSensitiveCalls := [], events := [] } =
      { results := initialSlots env 0 calls, sensitiveCalls := sensitiveFrom env w 0 calls,
        nonSensitiveCalls := nonSensitiveFrom env w 0 calls,
        events := classifyEvents env w 0 calls } := by
    simpa using classifyLoop_eq env w calls [] [] [] []
  obtain ⟨newC, hevC, hC⟩ := foldl_concurrent_events env
    (completionOrder (env.picks w) (nonSensitiveFrom env w 0 calls))
    { results := initialSlots env 0 calls, world := w, events := classifyEvents env w 0 calls }
  generalize hpar : (completionOrder (env.picks w) (nonSensitiveFrom env w 0 calls)).foldl
      (executeConcurrent env)
      { results := initialSlots env 0 calls, world := w,
        events := classifyEvents env w 0 calls } = par at hevC
  simp only [] at hevC
  have h0 : sensitiveTimeline par.events = [] := by
    rw [hevC, sensitiveTimeline_append, (classifyEvents_read env w calls 0 0).2.2.2]
    rw [List.nil_append, sensitiveTimeline, List.filterMap_eq_nil_iff]
    intro e he
    obtain ⟨j, _, n, a, r, er, hje⟩ := hC e he
    rw [hje]; rfl
  have h2 := foldl_sequential_timeline env (sensitiveFrom env w 0 calls) par 0
    (sensitiveFrom_sorted env w calls 0) (by intro i _; exact Nat.zero_le i)
    (by rw [h0]; exact List.Pairwise.nil) (by rw [h0]; simp)
  obtain ⟨_, he⟩ := reportLoop_eq env calls
    ((sensitiveFrom env w 0 calls).foldl (executeSequential env) par).results 0
    { messages := messages,
      world := ((sensitiveFrom env w 0 calls).foldl (executeSequential env) par).world,
      events := ((sensitiveFrom env w 0 calls).foldl (executeSequential env) par).events }
  have hevs : (dispatch env calls messages w).events =
      ((sensitiveFrom env w 0 calls).foldl (executeSequential env) par).events ++
        fileEvents 0 ((sensitiveFrom env w 0 calls).foldl (executeSequential env) par).results := by
    simp only [dispatch, hcl, hpar, he]
  rw [hevs, sensitiveTimeline_append, (fileEvents_read _ 0 0).2.2.2, List.append_nil]
  exact h2

/-- C6: within one round, the approval requests, their returns and the sequential
executions happen in strictly increasing order of `(index, phase)`, and after the
approval request of call `j` nothing is requested, returned or executed for a sensitive
call `i < j`. -/
theorem handleToolCalls_sensitive_calls_in_request_order {σ : Type} (env : Env σ)
    (resp : ChatResponse) (messages : List Message) (depth : Nat) (w : σ) :
    (sensitiveTimeline (handleToolCallsRound env resp messages depth w).events).Pairwise
      (fun a b => a < b) ∧
    ∀ (pre post : List Event) (j : Nat) (name arguments : String),
      (handleToolCallsRound env resp messages depth w).events =
        pre ++ Event.approvalRequested j name arguments :: post →
      ∀ i, i < j →
        (∀ n a, Event.approvalRequested i n a ∉ post) ∧
        (∀ err, Event.approvalReturned i err ∉ post) ∧
        (∀ n a r err, Event.execute ExecMode.sequential i n a r err ∉ post) := by
  have h1 : (sensitiveTimeline (handleToolCallsRound env resp messages depth w).events).Pairwise
      (fun a b => a < b) := by
    have := dispatch_timeline env (env.getToolCalls resp) (messages ++ [resp.message]) w
    simpa [handleToolCallsRound, sensitiveTimeline, Event.sensitiveKey] using this
  refine ⟨h1, ?_⟩
  intro pre post j name arguments hev i hij
  rw [hev, sensitiveTimeline_append] at h1
  have h2 : sensitiveTimeline (Event.approvalRequested j name arguments :: post) =
      3 * j :: sensitiveTimeline post := by
    simp [sensitiveTimeline, Event.sensitiveKey]
  rw [h2] at h1
  have h3 := (List.pairwise_cons.1 (List.pairwise_append.1 h1).2.1).1
  have key : ∀ e ∈ post, ∀ k, e.sensitiveKey = some k → 3 * j < k := by
    intro e he k hk
    apply h3
    rw [sensitiveTimeline, List.mem_filterMap]
    exact ⟨e, he, hk⟩
  refine ⟨?_, ?_, ?_⟩
  · intro n a hmem
    have := key _ hmem (3 * i) rfl
    omega
  · intro err hmem
    have := key _ hmem (3 * i + 1) rfl
    omega
  · intro n a r err hmem
    have := key _ hmem (3 * i + 2) rfl
    omega

/-- What one round of `handleToolCalls` does for every call of the batch. -/
theorem handleToolCallsRound_spec {σ : Type} (env : Env σ)
    (resp : ChatResponse) (messages : List Message) (depth : Nat) (w : σ) :
    ∃ toolMsgs : List Message,
      (handleToolCallsRound env resp messages depth w).messages =
        messages ++ [resp.message] ++ toolMsgs ∧
      toolMsgs.length = (env.getToolCalls resp).length ∧
      ∀ (i : Nat) (tc : ToolCall), (env.getToolCalls resp)[i]? = some tc →
        ∃ o : Outcome,
          outcomes (handleToolCallsRound env resp messages depth w).events i = [o] ∧
          toolMsgs[i]? = some
            { role := "tool", content := (reportedResult o.result o.err).output,
              toolCalls := [], toolCallID := tc.id } ∧
          (handleToolCallsRound env resp messages depth w).results[i]? = some
            { tc := tc, args := (env.unmarshal tc.arguments).1, result := o.result,
              err := o.err, index := i } ∧
          (match (env.unmarshal tc.arguments).2 with
            | some e =>
              o = ⟨OutcomeSource.parseFailure, parseFailureResult e, some e⟩ ∧
              classifications (handleToolCallsRound env resp messages depth w).events i = []
            | none =>
              classifications (handleToolCallsRound env resp messages depth w).events i =
                [env.requiresApproval w tc.name] ∧
              (if env.requiresApproval w tc.name = true then
                (o.source = OutcomeSource.executor ExecMode.sequential ∨
                  (o.source = OutcomeSource.denial ∧ env.telegramEnabled = true))
              else o.source = OutcomeSource.executor ExecMode.concurrent)) ∧
          filesAdded (handleToolCallsRound env resp messages depth w).events i =
            (addedFile { tc := tc, args := (env.unmarshal tc.arguments).1, result := o.result,
                         err := o.err, index := i }).toList := by
  obtain ⟨hlen, hmsg, hall⟩ :=
    dispatch_spec env (env.getToolCalls resp) (messages ++ [resp.message]) w
  refine ⟨toolMessages (env.getToolCalls resp) 0
    (dispatch env (env.getToolCalls resp) (messages ++ [resp.message]) w).results, ?_, ?_, ?_⟩
  · simpa [handleToolCallsRound] using hmsg
  · rw [toolMessages_length, hlen]
  · intro i tc hi
    obtain ⟨o, ho, hslot, hsrc, hfiles⟩ := hall i tc hi
    have hev : ∀ k, outcomes (handleToolCallsRound env resp messages depth w).events k =
        outcomes (dispatch env (env.getToolCalls resp) (messages ++ [resp.message]) w).events k := by
      intro k; simp only [handleToolCallsRound, outcomes_cons]; rfl
    have hcv : ∀ k, classifications (handleToolCallsRound env resp messages depth w).events k =
        classifications
          (dispatch env (env.getToolCalls resp) (messages ++ [resp.message]) w).events k := by
      intro k; simp only [handleToolCallsRound, classifications_cons]; rfl
    have hfv : ∀ k, filesAdded (handleToolCallsRound env resp messages depth w).events k =
        filesAdded (dispatch env (env.getToolCalls resp) (messages ++ [resp.message]) w).events k := by
      intro k; simp only [handleToolCallsRound, filesAdded_cons]; rfl
    refine ⟨o, ?_, ?_, ?_, ?_, ?_⟩
    · rw [hev, ho]
    · rw [toolMessages_getElem?, hslot]
      simp [toolMessage, List.getD_eq_getElem?_getD, hi]
    · simpa [handleToolCallsRound] using hslot
    · rw [hcv]; exact hsrc
    · rw [hfv]; exact hfiles

theorem addedFile_toList (tc : ToolCall) (args : Args) (result : ToolResult)
    (err : Option String) (i : Nat) :
    (addedFile { tc := tc, args := args, result := result, err := err, index := i }).toList =
      (match args.getString "path" with
        | some path =>
          if result.success = true ∧ (err = none ∨ result.output ≠ "") ∧
              (tc.name = "read_file" ∨ tc.name = "view_file") then
            [(path, result.output, 1000)]
          else []
        | none => []) := by
  unfold addedFile reportedResult
  simp only
  rcases result with ⟨succ, out, errtxt⟩
  rcases err with _ | e
  · cases hp : args.getString "path" with
    | none => cases succ <;> simp
    | some path =>
      cases succ <;> by_cases hn : (tc.name = "read_file" ∨ tc.name = "view_file") <;> simp [hn]
  · cases hp : args.getString "path" with
    | none => by_cases ho : out = "" <;> cases succ <;> simp [ho]
    | some path =>
      by_cases ho : out = "" <;> cases succ <;>
        by_cases hn : (tc.name = "read_file" ∨ tc.name = "view_file") <;> simp [ho, hn]

theorem outcomeFor_denial (i : Nat) (ev : Event) (o : Outcome)
    (h : Event.outcomeFor i ev = some o) (hs : o.source = OutcomeSource.denial) :
    o.result = denialResult := by
  cases ev with
  | unmarshalFailed j n e =>
    simp only [Event.outcomeFor] at h
    split at h
    · simp only [Option.some.injEq] at h
      subst h
      simp at hs
    · simp at h
  | approvalReturned j err =>
    cases err with
    | none => simp [Event.outcomeFor] at h
    | some e =>
      simp only [Event.outcomeFor] at h
      split at h
      · simp only [Option.some.injEq] at h
        subst h
        rfl
      · simp at h
  | execute mode j n a r er =>
    simp only [Event.outcomeFor] at h
    split at h
    · simp only [Option.some.injEq] at h
      subst h
      simp at hs
    · simp at h
  | _ => simp [Event.outcomeFor] at h

/-- C7, amended: for every call `i` of a batch, exactly one outcome `o` is obtained, and
`AddFile` is called for call `i` exactly when its arguments hold a string "path", the
result reports success and, in case the executor also returned an error, has a non-empty
output, and the name is "read_file" or "view_file"; it is then called once, with that
path, the output of the call and relevance 1.0, and the outcome comes from the
executor. -/
theorem handleToolCalls_adds_read_files_to_memory {σ : Type} (env : Env σ)
    (resp : ChatResponse) (messages : List Message) (depth : Nat) (w : σ) :
    ∀ (i : Nat) (tc : ToolCall), (env.getToolCalls resp)[i]? = some tc →
      ∃ o : Outcome,
        outcomes (handleToolCallsRound env resp messages depth w).events i = [o] ∧
        filesAdded (handleToolCallsRound env resp messages depth w).events i =
          (match (env.unmarshal tc.arguments).1.getString "path" with
            | some path =>
              if o.result.success = true ∧ (o.err = none ∨ o.result.output ≠ "") ∧
                  (tc.name = "read_file" ∨ tc.name = "view_file") then
                [(path, o.result.output, 1000)]
              else []
            | none => []) ∧
        (filesAdded (handleToolCallsRound env resp messages depth w).events i ≠ [] →
          ∃ mode, o.source = OutcomeSource.executor mode) := by
  intro i tc hi
  obtain ⟨toolMsgs, hmsg, hlen, hall⟩ := handleToolCallsRound_spec env resp messages depth w
  obtain ⟨o, ho, _, _, hsrc, hfiles⟩ := hall i tc hi
  have hf : filesAdded (handleToolCallsRound env resp messages depth w).events i =
      (match (env.unmarshal tc.arguments).1.getString "path" with
        | some path =>
          if o.result.success = true ∧ (o.err = none ∨ o.result.output ≠ "") ∧
              (tc.name = "read_file" ∨ tc.name = "view_file") then
            [(path, o.result.output, 1000)]
          else []
        | none => []) := by
    rw [hfiles, addedFile_toList]
  refine ⟨o, ho, hf, ?_⟩
  intro hne
  rw [hf] at hne
  have hsucc : o.result.success = true := by
    cases hp : (env.unmarshal tc.arguments).1.getString "path" with
    | none => rw [hp] at hne; exact absurd rfl hne
    | some path =>
      rw [hp] at hne
      simp only at hne
      by_contra hs
      rw [if_neg (fun h => hs h.1)] at hne
      exact hne rfl
  rcases hu : (env.unmarshal tc.arguments).2 with _ | e
  · rw [hu] at hsrc
    by_cases hr : env.requiresApproval w tc.name = true
    · have := hsrc.2
      simp only [hr, if_true] at this
      rcases this with h | h
      · exact ⟨_, h⟩
      · exfalso
        have hmem : o ∈ outcomes (handleToolCallsRound env resp messages depth w).events i := by
          rw [ho]; simp
        rw [outcomes, List.mem_filterMap] at hmem
        obtain ⟨ev, _, hev⟩ := hmem
        have := outcomeFor_denial i ev o hev h.1
        rw [this] at hsucc
        simp [denialResult] at hsucc
    · have := hsrc.2
      simp only [hr] at this
      exact ⟨_, this⟩
  · rw [hu] at hsrc
    obtain ⟨rfl, _⟩ := hsrc
    simp [parseFailureResult] at hsucc

theorem traffic_isToolRound (e : Event) (h : e.isApprovalTraffic = true) :
    e.isToolRound = true := by
  cases e <;> simp [Event.isApprovalTraffic] at h <;> rfl

theorem classifyEvents_isToolRound {σ : Type} (env : Env σ) (w : σ) :
    ∀ (calls : List ToolCall) (k : Nat), ∀ e ∈ classifyEvents env w k calls,
      e.isToolRound = true := by
  intro calls
  induction calls with
  | nil => intro k e he; simp [classifyEvents] at he
  | cons tc rest ih =>
    intro k e he
    rcases List.mem_cons.1 he with h | h
    · subst h
      unfold classifyEvent
      split <;> rfl
    · exact ih (k + 1) e h

theorem fileEvents_isToolRound :
    ∀ (results : List toolExecutionResult) (k : Nat), ∀ e ∈ fileEvents k results,
      e.isToolRound = true := by
  intro results
  induction results with
  | nil => intro k e he; simp [fileEvents] at he
  | cons r rest ih =>
    intro k e he
    rcases List.mem_append.1 he with h | h
    · unfold fileEvent at h
      split at h
      · simp at h; subst h; rfl
      · simp at h
    · exact ih (k + 1) e h

theorem foldl_sequential_events {σ : Type} (env : Env σ) :
    ∀ (l : List Nat) (st : Running σ), ∃ new : List Event,
      (l.foldl (executeSequential env) st).events = st.events ++ new ∧
      ∀ e ∈ new, e.isToolRound = true := by
  intro l
  induction l with
  | nil => intro st; exact ⟨[], by simp, by simp⟩
  | cons i l ih =>
    intro st
    obtain ⟨new, h1, h2⟩ := ih (executeSequential env st i)
    obtain ⟨name, arguments, args, hshape⟩ := executeSequential_shape env st i
    rcases hshape with ⟨_, res, err, hev⟩ | ⟨_, internal, res, err, hint, hev⟩ |
      ⟨_, internal, e, hint, hev⟩
    · refine ⟨[Event.execute ExecMode.sequential i name args res err] ++ new,
        by rw [List.foldl_cons, h1, hev, List.append_assoc], ?_⟩
      intro e he
      rcases List.mem_append.1 he with h | h
      · simp at h; subst h; rfl
      · exact h2 e h
    · refine ⟨(Event.approvalRequested i name arguments :: internal ++
          [Event.approvalReturned i none,
           Event.execute ExecMode.sequential i name args res err]) ++ new,
        by rw [List.foldl_cons, h1, hev, List.append_assoc], ?_⟩
      intro e he
      rcases List.mem_append.1 he with h | h
      · simp only [List.cons_append, List.mem_cons, List.mem_append, List.mem_singleton,
          List.not_mem_nil, or_false] at h
        rcases h with rfl | h | rfl | rfl
        · rfl
        · exact traffic_isToolRound e (hint e h)
        · rfl
        · rfl
      · exact h2 e h
    · refine ⟨(Event.approvalRequested i name arguments :: internal ++
          [Event.approvalReturned i (some e)]) ++ new,
        by rw [List.foldl_cons, h1, hev, List.append_assoc], ?_⟩
      intro e' he
      rcases List.mem_append.1 he with h | h
      · simp only [List.cons_append, List.mem_cons, List.mem_append, List.mem_singleton,
          List.not_mem_nil, or_false] at h
        rcases h with rfl | h | rfl
        · rfl
        · exact traffic_isToolRound e' (hint e' h)
        · rfl
      · exact h2 e' h

theorem dispatch_isToolRound {σ : Type} (env : Env σ) (calls : List ToolCall)
    (messages : List Message) (w : σ) :
    ∀ e ∈ (dispatch env calls messages w).events, e.isToolRound = true := by
  have hcl : classifyLoop env w 0 calls
      { results := List.replicate calls.length toolExecutionResult.zero,
        sensitiveCalls := [], nonSensitiveCalls := [], events := [] } =
      { results := initialSlots env 0 calls, sensitiveCalls := sensitiveFrom env w 0 calls,
        nonSensitiveCalls := nonSensitiveFrom env w 0 calls,
        events := classifyEvents env w 0 calls } := by
    simpa using classifyLoop_eq env w calls [] [] [] []
  obtain ⟨newC, hevC, hC⟩ := foldl_concurrent_events env
    (completionOrder (env.picks w) (nonSensitiveFrom env w 0 calls))
    { results := initialSlots env 0 calls, world := w, events := classifyEvents env w 0 calls }
  generalize hpar : (completionOrder (env.picks w) (nonSensitiveFrom env w 0 calls)).foldl
      (executeConcurrent env)
      { results := initialSlots env 0 calls, world := w,
        events := classifyEvents env w 0 calls } = par at hevC
  simp only [] at hevC
  obtain ⟨newS, hevS, hS⟩ := foldl_sequential_events env (sensitiveFrom env w 0 calls) par
  obtain ⟨_, he⟩ := reportLoop_eq env calls
    ((sensitiveFrom env w 0 calls).foldl (executeSequential env) par).results 0
    { messages := messages,
      world := ((sensitiveFrom env w 0 calls).foldl (executeSequential env) par).world,
      events := ((sensitiveFrom env w 0 calls).foldl (executeSequential env) par).events }
  have hevs : (dispatch env calls messages w).events =
      classifyEvents env w 0 calls ++ newC ++ newS ++
        fileEvents 0 ((sensitiveFrom env w 0 calls).foldl (executeSequential env) par).results := by
    simp only [dispatch, hcl, hpar, he]
    rw [hevS, hevC]
  intro e hmem
  rw [hevs] at hmem
  simp only [List.mem_append] at hmem
  rcases hmem with ((h | h) | h) | h
  · exact classifyEvents_isToolRound env w calls 0 e h
  · obtain ⟨j, _, n, a, r, er, rfl⟩ := hC e h
    rfl
  · exact hS e h
  · exact fileEvents_isToolRound _ 0 e h

theorem filterMap_eq_nil_of_isToolRound {β : Type} (f : Event → Option β) (l : List Event)
    (hf : ∀ e, e.isToolRound = true → f e = none) (h : ∀ e ∈ l, e.isToolRound = true) :
    l.filterMap f = [] := by
  rw [List.filterMap_eq_nil_iff]
  intro e he
  exact hf e (h e he)

theorem modelReply_of_isToolRound (e : Event) (h : e.isToolRound = true) :
    e.modelReply = none := by
  cases e <;> simp [Event.isToolRound] at h <;> rfl

theorem roundDepth_of_isToolRound (e : Event) (h : e.isToolRound = true) :
    e.roundDepth = none := by
  cases e <;> simp [Event.isToolRound] at h <;> rfl

theorem contextMarked_of_isToolRound (e : Event) (h : e.isToolRound = true) :
    e.contextMarked = none := by
  cases e <;> simp [Event.isToolRound] at h <;> rfl

theorem changesHistory_of_isToolRound (e : Event) (h : e.isToolRound = true) :
    e.changesHistory = false := by
  cases e <;> simp [Event.isToolRound] at h <;> rfl

/-- The events of one round: the start of the round, then events of the four phases. -/
theorem handleToolCallsRound_events {σ : Type} (env : Env σ) (resp : ChatResponse)
    (messages : List Message) (depth : Nat) (w : σ) :
    ∃ rest : List Event,
      (handleToolCallsRound env resp messages depth w).events =
        Event.executingToolCalls (env.getToolCalls resp).length depth :: rest ∧
      (∀ e ∈ rest, e.isToolRound = true) ∧
      modelReplies (handleToolCallsRound env resp messages depth w).events = [] ∧
      roundDepths (handleToolCallsRound env resp messages depth w).events = [depth] ∧
      contextMarks (handleToolCallsRound env resp messages depth w).events = [] ∧
      (handleToolCallsRound env resp messages depth w).events.filter Event.changesHistory = [] := by
  have h := dispatch_isToolRound env (env.getToolCalls resp) (messages ++ [resp.message]) w
  refine ⟨_, rfl, h, ?_, ?_, ?_, ?_⟩
  · simp only [handleToolCallsRound, modelReplies, List.filterMap_cons, Event.modelReply]
    exact filterMap_eq_nil_of_isToolRound _ _ modelReply_of_isToolRound h
  · simp only [handleToolCallsRound, roundDepths, List.filterMap_cons, Event.roundDepth]
    rw [filterMap_eq_nil_of_isToolRound _ _ roundDepth_of_isToolRound h]
  · simp only [handleToolCallsRound, contextMarks, List.filterMap_cons, Event.contextMarked]
    exact filterMap_eq_nil_of_isToolRound _ _ contextMarked_of_isToolRound h
  · simp only [handleToolCallsRound, List.filter_cons, Event.changesHistory]
    simp only [Bool.false_eq_true, if_false]
    rw [List.filter_eq_nil_iff]
    intro e he
    rw [changesHistory_of_isToolRound e (h e he)]
    simp

/-- The four ways `handleToolCalls` ends: over the depth limit, on a failed follow-up
call, with a plain answer, or through the nested call for the next round. -/
theorem handleToolCalls_cases {σ : Type} (env : Env σ) (resp : ChatResponse)
    (messages : List Message) (depth : Nat) (st : AgentState σ) :
    (depth > 10 ∧ handleToolCalls env resp messages depth st =
      { reply := "", err := some depthError, state := st, events := [] }) ∨
    (depth ≤ 10 ∧ ∃ (reply : LLMReply) (w2 : σ),
      env.chatWithTools (handleToolCallsRound env resp messages depth st.world).world
        (handleToolCallsRound env resp messages depth st.world).messages = (reply, w2) ∧
      ((∃ e, reply = LLMReply.failed e ∧
          handleToolCalls env resp messages depth st =
            { reply := "", err := some e, state := { st with world := w2 },
              events := (handleToolCallsRound env resp messages depth st.world).events ++
                [Event.chatWithTools
                  (handleToolCallsRound env resp messages depth st.world).messages
                  (LLMReply.failed e)] }) ∨
       (∃ next, reply = LLMReply.ok next ∧ env.hasToolCalls next = false ∧
          handleToolCalls env resp messages depth st =
            { reply := env.getContent next, err := none,
              state := { st with
                world := env.addMessage w2 "assistant" (env.getContent next) },
              events := (handleToolCallsRound env resp messages depth st.world).events ++
                [Event.chatWithTools
                  (handleToolCallsRound env resp messages depth st.world).messages
                  (LLMReply.ok next),
                 Event.addMessage "assistant" (env.getContent next)] }) ∨
       (∃ next, reply = LLMReply.ok next ∧ env.hasToolCalls next = true ∧
          handleToolCalls env resp messages depth st =
            { handleToolCalls env next
                (handleToolCallsRound env resp messages depth st.world).messages (depth + 1)
                { st with world := w2 } with
              events := (handleToolCallsRound env resp messages depth st.world).events ++
                [Event.chatWithTools
                  (handleToolCallsRound env resp messages depth st.world).messages
                  (LLMReply.ok next)] ++
                (handleToolCalls env next
                  (handleToolCallsRound env resp messages depth st.world).messages (depth + 1)
                  { st with world := w2 }).events }))) := by
  by_cases h : depth > 10
  · left
    refine ⟨h, ?_⟩
    rw [handleToolCalls_eq, if_pos h]
  · right
    refine ⟨by omega, ?_⟩
    rw [handleToolCalls_eq, if_neg h]
    simp only
    generalize handleToolCallsRound env resp messages depth st.world = round
    rcases hsent : env.chatWithTools round.world round.messages with ⟨reply, w2⟩
    refine ⟨reply, w2, rfl, ?_⟩
    cases reply with
    | failed e => exact Or.inl ⟨e, rfl, rfl⟩
    | ok next =>
      by_cases hc : env.hasToolCalls next = true
      · refine Or.inr (Or.inr ⟨next, rfl, hc, ?_⟩)
        simp only [hc, if_true]
      · refine Or.inr (Or.inl ⟨next, rfl, by simpa using hc, ?_⟩)
        simp only [hc]
        rfl

theorem compressContext_isTurnTail {σ : Type} (env : Env σ) (items : List MemoryItem) (w : σ) :
    ∀ e ∈ (compressContext env items w).2, e.isTurnTail = true := by
  intro e he
  unfold compressContext at he
  simp only at he
  split at he
  · simp at he; subst he; rfl
  · simp at he; rcases he with rfl | rfl <;> rfl

theorem compressionCheck_isTurnTail {σ : Type} (env : Env σ) (w : σ) :
    ∀ e ∈ (compressionCheck env w).2, e.isTurnTail = true := by
  intro e he
  unfold compressionCheck at he
  split at he
  · simp only [List.mem_append, List.mem_cons, List.mem_singleton, List.not_mem_nil,
      or_false] at he
    rcases he with ((rfl | rfl) | he) | rfl
    · rfl
    · rfl
    · split at he
      · exact compressContext_isTurnTail env _ w e he
      · simp at he
    · rfl
  · simp at he; subst he; rfl

theorem insightCheck_isTurnTail {σ : Type} (env : Env σ) (w : σ) :
    ∀ e ∈ insightCheck env w, e.isTurnTail = true := by
  intro e he
  unfold insightCheck at he
  rcases List.mem_cons.1 he with rfl | he
  · rfl
  · split at he
    · simp at he; subst he; rfl
    · simp at he

theorem syncProjectTasks_isTurnTail {σ : Type} (env : Env σ) (w : σ) :
    ∀ e ∈ (syncProjectTasks env w).2, e.isTurnTail = true := by
  intro e he
  unfold syncProjectTasks at he
  split at he
  · simp at he; subst he; rfl
  · simp at he

theorem afterReply_isTurnTail {σ : Type} (env : Env σ) (insights : Bool) (w : σ) :
    ∀ e ∈ (afterReply env insights w).2, e.isTurnTail = true := by
  intro e he
  unfold afterReply at he
  simp only [List.mem_append] at he
  rcases he with (he | he) | he
  · exact compressionCheck_isTurnTail env w e he
  · split at he
    · exact insightCheck_isTurnTail env _ e he
    · simp at he
  · exact syncProjectTasks_isTurnTail env _ e he

theorem modelReplies_append (a b : List Event) :
    modelReplies (a ++ b) = modelReplies a ++ modelReplies b := by
  simp [modelReplies]

theorem roundDepths_append (a b : List Event) :
    roundDepths (a ++ b) = roundDepths a ++ roundDepths b := by
  simp [roundDepths]

theorem contextMarks_append (a b : List Event) :
    contextMarks (a ++ b) = contextMarks a ++ contextMarks b := by
  simp [contextMarks]

theorem handleToolCalls_summary {σ : Type} (env : Env σ) :
    ∀ (n depth : Nat), 11 - depth ≤ n →
      ∀ (resp : ChatResponse) (messages : List Message) (st : AgentState σ),
        contextMarks (handleToolCalls env resp messages depth st).events = [] ∧
        (∀ e, (handleToolCalls env resp messages depth st).err = some e →
          (handleToolCalls env resp messages depth st).reply = "" ∧
          (handleToolCalls env resp messages depth st).events.filter Event.changesHistory = []) ∧
        ((handleToolCalls env resp messages depth st).err = none →
          (∀ x ∈ modelReplies (handleToolCalls env resp messages depth st).events,
            ∃ r, x = LLMReply.ok r) ∧
          (handleToolCalls env resp messages depth st).events.filter Event.changesHistory =
            [Event.addMessage "assistant" (handleToolCalls env resp messages depth st).reply]) := by
  intro n
  induction n with
  | zero =>
    intro depth hd resp messages st
    rcases handleToolCalls_cases env resp messages depth st with ⟨_, h⟩ | ⟨h, _⟩
    · rw [h]
      exact ⟨rfl, fun e _ => ⟨rfl, rfl⟩, fun h => by simp at h⟩
    · omega
  | succ n ih =>
    intro depth hd resp messages st
    rcases handleToolCalls_cases env resp messages depth st with ⟨_, h⟩ | ⟨hle, reply, w2, _, h⟩
    · rw [h]
      exact ⟨rfl, fun e _ => ⟨rfl, rfl⟩, fun h => by simp at h⟩
    · obtain ⟨rest, _, _, hmr, _, hcm, hch⟩ :=
        handleToolCallsRound_events env resp messages depth st.world
      rcases h with ⟨e, _, h⟩ | ⟨next, _, _, h⟩ | ⟨next, _, _, h⟩
      · rw [h]
        refine ⟨?_, fun e' _ => ⟨rfl, ?_⟩, fun h => by simp at h⟩
        · simp only [contextMarks_append, hcm]; rfl
        · simp only [List.filter_append, hch]; rfl
      · rw [h]
        refine ⟨?_, fun e' h => by simp at h, fun _ => ⟨?_, ?_⟩⟩
        · simp only [contextMarks_append, hcm]; rfl
        · simp only [modelReplies_append, hmr]
          intro x hx
          simp [modelReplies, Event.modelReply] at hx
          exact ⟨next, hx⟩
        · simp only [List.filter_append, hch]; rfl
      · obtain ⟨i1, i2, i3⟩ := ih (depth + 1) (by omega) next
          (handleToolCallsRound env resp messages depth st.world).messages
          { st with world := w2 }
        rw [h]
        refine ⟨?_, ?_, ?_⟩
        · simp only [contextMarks_append, hcm, i1]; rfl
        · intro e he
          obtain ⟨j1, j2⟩ := i2 e he
          refine ⟨j1, ?_⟩
          simp only [List.filter_append, hch, j2]; rfl
        · intro he
          obtain ⟨j1, j2⟩ := i3 he
          refine ⟨?_, ?_⟩
          · simp only [modelReplies_append, hmr]
            intro x hx
            simp only [List.nil_append, List.mem_append] at hx
            rcases hx with hx | hx
            · simp [modelReplies, Event.modelReply] at hx
              exact ⟨next, hx⟩
            · exact j1 x hx
          · simp only [List.filter_append, hch, j2]; rfl

theorem handleToolCalls_depth_chain {σ : Type} (env : Env σ) :
    ∀ (n depth : Nat), depth + n = 11 →
      ∀ (resp : ChatResponse) (messages : List Message) (st : AgentState σ),
        (∀ x ∈ (modelReplies (handleToolCalls env resp messages depth st).events).take n,
          requestsTools env x) →
        (handleToolCalls env resp messages depth st).reply = "" ∧
        (handleToolCalls env resp messages depth st).err = some depthError ∧
        (modelReplies (handleToolCalls env resp messages depth st).events).length = n ∧
        roundDepths (handleToolCalls env resp messages depth st).events = List.range' depth n ∧
        (n > 0 → ∃ pre msgs next,
          (handleToolCalls env resp messages depth st).events =
            pre ++ [Event.chatWithTools msgs (LLMReply.ok next)]) := by
  intro n
  induction n with
  | zero =>
    intro depth hd resp messages st _
    rcases handleToolCalls_cases env resp messages depth st with ⟨_, h⟩ | ⟨h, _⟩
    · rw [h]
      exact ⟨rfl, rfl, rfl, rfl, fun h => by omega⟩
    · omega
  | succ n ih =>
    intro depth hd resp messages st hreq
    rcases handleToolCalls_cases env resp messages depth st with ⟨h, _⟩ | ⟨hle, reply, w2, _, h⟩
    · omega
    · obtain ⟨rest, _, _, hmr, hrd, _, _⟩ :=
        handleToolCallsRound_events env resp messages depth st.world
      rcases h with ⟨e, _, h⟩ | ⟨next, _, hno, h⟩ | ⟨next, _, _, h⟩
      · exfalso
        rw [h] at hreq
        simp only [modelReplies_append, hmr] at hreq
        obtain ⟨r, hr, _⟩ := hreq (LLMReply.failed e) (by simp [modelReplies, Event.modelReply])
        simp at hr
      · exfalso
        rw [h] at hreq
        simp only [modelReplies_append, hmr] at hreq
        obtain ⟨r, hr, hr2⟩ := hreq (LLMReply.ok next) (by simp [modelReplies, Event.modelReply])
        simp only [LLMReply.ok.injEq] at hr
        subst hr
        rw [hno] at hr2
        simp at hr2
      · rw [h] at hreq ⊢
        simp only [modelReplies_append, hmr, roundDepths_append, hrd] at hreq ⊢
        have hm1 : modelReplies [Event.chatWithTools
            (handleToolCallsRound env resp messages depth st.world).messages
            (LLMReply.ok next)] = [LLMReply.ok next] := rfl
        have hd1 : roundDepths [Event.chatWithTools
            (handleToolCallsRound env resp messages depth st.world).messages
            (LLMReply.ok next)] = [] := rfl
        rw [hm1] at hreq ⊢
        rw [hd1]
        simp only [List.nil_append, List.singleton_append, List.take_succ_cons,
          List.append_nil] at hreq ⊢
        obtain ⟨i1, i2, i3, i4, i5⟩ := ih (depth + 1) (by omega) next
          (handleToolCallsRound env resp messages depth st.world).messages
          { st with world := w2 } (fun x hx => hreq x (List.mem_cons_of_mem _ hx))
        refine ⟨i1, i2, by simp [i3], ?_, ?_⟩
        · rw [i4, List.range'_succ]
        · intro _
          rcases Nat.eq_zero_or_pos n with hn | hn
          · subst hn
            have hnil : (handleToolCalls env next
                (handleToolCallsRound env resp messages depth st.world).messages (depth + 1)
                { st with world := w2 }).events = [] := by
              rcases handleToolCalls_cases env next
                (handleToolCallsRound env resp messages depth st.world).messages (depth + 1)
                { st with world := w2 } with ⟨_, h2⟩ | ⟨h2, _⟩
              · rw [h2]
              · omega
            exact ⟨_, _, next, by rw [hnil, List.append_nil]⟩
          · obtain ⟨pre, msgs, nx, hpre⟩ := i5 hn
            exact ⟨_, msgs, nx, by rw [hpre, ← List.append_assoc]⟩

/-- How `finishTurn` ends. -/
theorem finishTurn_cases {σ : Type} (env : Env σ) (insights : Bool) (resp : ChatResponse)
    (messages : List Message) (st : AgentState σ) (before : List Event) :
    (env.hasToolCalls resp = false ∧
      finishTurn env insights resp messages st before =
        { reply := env.getContent resp, err := none,
          state := { st with
            world := (afterReply env insights
              (env.addMessage st.world "assistant" (env.getContent resp))).1 },
          events := before ++ [Event.addMessage "assistant" (env.getContent resp)] ++
            (afterReply env insights
              (env.addMessage st.world "assistant" (env.getContent resp))).2 }) ∨
    (env.hasToolCalls resp = true ∧
      ∃ e, (handleToolCalls env resp messages 0 st).err = some e ∧
        finishTurn env insights resp messages st before =
          { reply := "", err := some e, state := (handleToolCalls env resp messages 0 st).state,
            events := before ++ (handleToolCalls env resp messages 0 st).events }) ∨
    (env.hasToolCalls resp = true ∧
      (handleToolCalls env resp messages 0 st).err = none ∧
        finishTurn env insights resp messages st before =
          { reply := (handleToolCalls env resp messages 0 st).reply, err := none,
            state := { (handleToolCalls env resp messages 0 st).state with
              world := (afterReply env insights
                (handleToolCalls env resp messages 0 st).state.world).1 },
            events := before ++ (handleToolCalls env resp messages 0 st).events ++
              (afterReply env insights
                (handleToolCalls env resp messages 0 st).state.world).2 }) := by
  by_cases hc : env.hasToolCalls resp = true
  · right
    rcases herr : (handleToolCalls env resp messages 0 st).err with _ | e
    · right
      refine ⟨hc, rfl, ?_⟩
      simp only [finishTurn, hc, if_true, herr]
    · left
      refine ⟨hc, e, rfl, ?_⟩
      simp only [finishTurn, hc, if_true, herr]
  · left
    refine ⟨by simpa using hc, ?_⟩
    simp only [finishTurn, hc]
    rfl

theorem prepareChat_events {σ : Type} (env : Env σ) (userMessage : String) (w : σ) :
    modelReplies (prepareChat env userMessage w).events = [] ∧
    roundDepths (prepareChat env userMessage w).events = [] ∧
    (prepareChat env userMessage w).events.filter Event.changesHistory =
      [Event.addMessage "user" userMessage] ∧
    contextMarks (prepareChat env userMessage w).events =
      (if (prepareChat env userMessage w).needsContext then
        [((prepareChat env userMessage w).systemPrompt,
          (prepareChat env userMessage w).rulesContent,
          (prepareChat env userMessage w).projectInfo)]
      else []) := by
  unfold prepareChat
  simp only
  split <;> exact ⟨rfl, rfl, rfl, rfl⟩

theorem isTurnTail_quiet (l : List Event) (h : ∀ e ∈ l, e.isTurnTail = true) :
    modelReplies l = [] ∧ roundDepths l = [] ∧ contextMarks l = [] ∧
    ∀ c, Event.addMessage "assistant" c ∉ l := by
  refine ⟨?_, ?_, ?_, ?_⟩
  · rw [modelReplies, List.filterMap_eq_nil_iff]
    intro e he
    have := h e he
    cases e <;> simp [Event.isTurnTail] at this <;> rfl
  · rw [roundDepths, List.filterMap_eq_nil_iff]
    intro e he
    have := h e he
    cases e <;> simp [Event.isTurnTail] at this <;> rfl
  · rw [contextMarks, List.filterMap_eq_nil_iff]
    intro e he
    have := h e he
    cases e <;> simp [Event.isTurnTail] at this <;> rfl
  · intro c hc
    have := h _ hc
    simp [Event.isTurnTail] at this

theorem mem_take_append_left {α : Type} (a b : List α) (n : Nat) (x : α)
    (h : x ∈ a.take n) : x ∈ (a ++ b).take n := by
  rw [List.take_append_eq_append_take]
  exact List.mem_append_left _ h

/-- C3, amended: when every one of the first 12 model responses of a `Chat` turn (the
first response and the next 11 follow-up responses) carries tool calls, the turn returns
the empty reply with the error "maximum tool execution depth exceeded"; the model was
called exactly 12 times, the rounds of tool calls that ran are those of depths 0 to 10,
the 12th response is the last event of the turn (its tool calls are not executed), and
the only write to the history is the user message. -/
theorem Chat_depth_limit_after_twelve_rounds {σ : Type} (env : Env σ) (userMessage : String)
    (st : AgentState σ)
    (h : ∀ x ∈ (modelReplies (Chat env userMessage st).events).take 12, requestsTools env x) :
    (Chat env userMessage st).reply = "" ∧
    (Chat env userMessage st).err = some depthError ∧
    (modelReplies (Chat env userMessage st).events).length = 12 ∧
    roundDepths (Chat env userMessage st).events = List.range' 0 11 ∧
    (∃ pre msgs next, (Chat env userMessage st).events =
      pre ++ [Event.chatWithTools msgs (LLMReply.ok next)]) ∧
    (Chat env userMessage st).events.filter Event.changesHistory =
      [Event.addMessage "user" userMessage] := by
  obtain ⟨hp1, hp2, hp3, _⟩ := prepareChat_events env userMessage st.world
  unfold Chat at h ⊢
  simp only at h ⊢
  generalize prepareChat env userMessage st.world = p at *
  rcases hsent : env.chatWithTools p.world p.messages with ⟨reply, w2⟩
  rw [hsent] at h
  cases reply with
  | failed e =>
    exfalso
    simp only [modelReplies_append, hp1] at h
    obtain ⟨r, hr, _⟩ := h (LLMReply.failed e) (by simp [modelReplies, Event.modelReply])
    simp at hr
  | ok resp =>
    simp only at h ⊢
    generalize recordUsage env st resp w2 = st4 at h ⊢
    have hb : modelReplies (p.events ++ [Event.chatWithTools p.messages (LLMReply.ok resp),
        Event.updateTokenUsage resp.usage.promptTokens]) = [LLMReply.ok resp] := by
      rw [modelReplies_append, hp1]; rfl
    have hbd : roundDepths (p.events ++ [Event.chatWithTools p.messages (LLMReply.ok resp),
        Event.updateTokenUsage resp.usage.promptTokens]) = [] := by
      rw [roundDepths_append, hp2]; rfl
    have hbh : (p.events ++ [Event.chatWithTools p.messages (LLMReply.ok resp),
        Event.updateTokenUsage resp.usage.promptTokens]).filter Event.changesHistory =
        [Event.addMessage "user" userMessage] := by
      rw [List.filter_append, hp3]; rfl
    have hchain := handleToolCalls_depth_chain env 11 0 rfl resp p.messages st4
    have hsum := handleToolCalls_summary env 11 0 (by omega) resp p.messages st4
    rcases finishTurn_cases env true resp p.messages st4
      (p.events ++ [Event.chatWithTools p.messages (LLMReply.ok resp),
        Event.updateTokenUsage resp.usage.promptTokens]) with
      ⟨hno, hf⟩ | ⟨_, e, herr, hf⟩ | ⟨_, herr, hf⟩
    · exfalso
      rw [hf] at h
      simp only [modelReplies_append, hb] at h
      obtain ⟨r, hr, hr2⟩ := h (LLMReply.ok resp) (by simp)
      simp only [LLMReply.ok.injEq] at hr
      subst hr
      rw [hno] at hr2
      simp at hr2
    · rw [hf] at h ⊢
      simp only [modelReplies_append, hb, roundDepths_append, hbd, List.filter_append, hbh,
        List.singleton_append, List.take_succ_cons, List.nil_append] at h ⊢
      obtain ⟨c1, c2, c3, c4, c5⟩ := hchain (fun x hx => h x (List.mem_cons_of_mem _ hx))
      obtain ⟨pre, msgs, next, hpre⟩ := c5 (by omega)
      rw [c2] at herr
      simp only [Option.some.injEq] at herr
      subst herr
      refine ⟨trivial, rfl, by simp [c3], c4,
        ⟨_, msgs, next, by rw [hpre, ← List.append_assoc]⟩, ?_⟩
      rw [(hsum.2.1 _ c2).2]
    · exfalso
      rw [hf] at h
      have hm : modelReplies (p.events ++ [Event.chatWithTools p.messages (LLMReply.ok resp),
            Event.updateTokenUsage resp.usage.promptTokens] ++
          (handleToolCalls env resp p.messages 0 st4).events ++
          (afterReply env true (handleToolCalls env resp p.messages 0 st4).state.world).2) =
          LLMReply.ok resp ::
            (modelReplies (handleToolCalls env resp p.messages 0 st4).events ++
              modelReplies
                (afterReply env true (handleToolCalls env resp p.messages 0 st4).state.world).2) := by
        rw [modelReplies_append, modelReplies_append, hb]
        rfl
      simp only [hm, List.take_succ_cons] at h
      obtain ⟨_, c2, _⟩ := hchain (fun x hx =>
        h x (List.mem_cons_of_mem _ (mem_take_append_left _ _ _ _ hx)))
      rw [c2] at herr
      simp at herr

/-- C3, amended, at a model that requests a tool call in every response. -/
theorem Chat_depth_limit_after_twelve_rounds_witness :
    (Chat loopingEnv "go" freshAgent).reply = "" ∧
    (Chat loopingEnv "go" freshAgent).err = some depthError ∧
    (modelReplies (Chat loopingEnv "go" freshAgent).events).length = 12 ∧
    roundDepths (Chat loopingEnv "go" freshAgent).events = List.range' 0 11 ∧
    (∃ pre msgs next, (Chat loopingEnv "go" freshAgent).events =
      pre ++ [Event.chatWithTools msgs (LLMReply.ok next)]) ∧
    (Chat loopingEnv "go" freshAgent).events.filter Event.changesHistory =
      [Event.addMessage "user" "go"] := by
  have h : (modelReplies (Chat loopingEnv "go" freshAgent).events).take 12 =
      List.replicate 12 (LLMReply.ok (callsResponse [listCall])) := by decide
  exact Chat_depth_limit_after_twelve_rounds loopingEnv "go" freshAgent (by
    intro x hx
    rw [h] at hx
    rw [List.eq_of_mem_replicate hx]
    exact ⟨_, rfl, by decide⟩)

/-- C3 as stated fails: when the first response and each of the next 10 follow-up
responses carry a tool call and the 12th response is a plain answer, `Chat` returns that
answer without error, and the tool calls of all 11 rounds, the 11th at depth 10
included, are executed. -/
theorem eleven_rounds_end_without_depth_error :
    (modelReplies (Chat elevenRoundsEnv "go" freshAgent).events).take 11 =
      List.replicate 11 (LLMReply.ok (callsResponse [listCall])) ∧
    elevenRoundsEnv.hasToolCalls (callsResponse [listCall]) = true ∧
    (Chat elevenRoundsEnv "go" freshAgent).reply = "final" ∧
    (Chat elevenRoundsEnv "go" freshAgent).err = none ∧
    roundDepths (Chat elevenRoundsEnv "go" freshAgent).events = [0, 1, 2, 3, 4, 5, 6, 7, 8, 9, 10] ∧
    ((Chat elevenRoundsEnv "go" freshAgent).events.filter Event.isExecute).length = 11 := by
  decide

/-- C8: when a model call of a `Chat` turn fails, the first one or a follow-up one,
`Chat` returns the empty reply and an error, and the only call of the turn that writes
to or removes from the history is `AddMessage("user", userMessage)`: the user message is
kept and no assistant message is added. -/
theorem Chat_model_failure_keeps_user_message {σ : Type} (env : Env σ) (userMessage : String)
    (st : AgentState σ)
    (h : ∃ x ∈ modelReplies (Chat env userMessage st).events, ∃ e, x = LLMReply.failed e) :
    (Chat env userMessage st).reply = "" ∧
    (∃ e, (Chat env userMessage st).err = some e) ∧
    (Chat env userMessage st).events.filter Event.changesHistory =
      [Event.addMessage "user" userMessage] := by
  obtain ⟨hp1, hp2, hp3, _⟩ := prepareChat_events env userMessage st.world
  unfold Chat at h ⊢
  simp only at h ⊢
  generalize prepareChat env userMessage st.world = p at *
  rcases hsent : env.chatWithTools p.world p.messages with ⟨reply, w2⟩
  rw [hsent] at h
  cases reply with
  | failed e =>
    refine ⟨rfl, ⟨_, rfl⟩, ?_⟩
    simp only [List.filter_append, hp3]
    rfl
  | ok resp =>
    simp only at h ⊢
    generalize recordUsage env st resp w2 = st4 at h ⊢
    have hb : modelReplies (p.events ++ [Event.chatWithTools p.messages (LLMReply.ok resp),
        Event.updateTokenUsage resp.usage.promptTokens]) = [LLMReply.ok resp] := by
      rw [modelReplies_append, hp1]; rfl
    have hbh : (p.events ++ [Event.chatWithTools p.messages (LLMReply.ok resp),
        Event.updateTokenUsage resp.usage.promptTokens]).filter Event.changesHistory =
        [Event.addMessage "user" userMessage] := by
      rw [List.filter_append, hp3]; rfl
    have hsum := handleToolCalls_summary env 11 0 (by omega) resp p.messages st4
    rcases finishTurn_cases env true resp p.messages st4
      (p.events ++ [Event.chatWithTools p.messages (LLMReply.ok resp),
        Event.updateTokenUsage resp.usage.promptTokens]) with
      ⟨hno, hf⟩ | ⟨_, e, herr, hf⟩ | ⟨_, herr, hf⟩
    · exfalso
      rw [hf] at h
      obtain ⟨x, hx, e, hxe⟩ := h
      have ht := (isTurnTail_quiet _ (afterReply_isTurnTail env true
        (env.addMessage st4.world "assistant" (env.getContent resp)))).1
      simp only [modelReplies_append, hb, ht, List.append_nil] at hx
      simp [modelReplies, Event.modelReply] at hx
      rw [hx] at hxe
      simp at hxe
    · rw [hf]
      refine ⟨rfl, ⟨e, rfl⟩, ?_⟩
      simp only [List.filter_append, hbh, (hsum.2.1 e herr).2]
      rfl
    · exfalso
      rw [hf] at h
      obtain ⟨x, hx, e, hxe⟩ := h
      have ht := (isTurnTail_quiet _ (afterReply_isTurnTail env true
        (handleToolCalls env resp p.messages 0 st4).state.world)).1
      simp only [modelReplies_append, hb, ht, List.append_nil, List.mem_append,
        List.mem_singleton] at hx
      rcases hx with hx | hx
      · rw [hx] at hxe
        simp at hxe
      · obtain ⟨r, hr⟩ := (hsum.2.2 herr).1 x hx
        rw [hr] at hxe
        simp at hxe

/-- C8 at a model whose follow-up call after a file read fails. -/
theorem Chat_model_failure_keeps_user_message_witness :
    (Chat followUpFailingEnv "go" freshAgent).reply = "" ∧
    (∃ e, (Chat followUpFailingEnv "go" freshAgent).err = some e) ∧
    (Chat followUpFailingEnv "go" freshAgent).events.filter Event.changesHistory =
      [Event.addMessage "user" "go"] :=
  Chat_model_failure_keeps_user_message followUpFailingEnv "go" freshAgent
    ⟨LLMReply.failed "connection reset", by decide, "connection reset", rfl⟩

/-- C9: `Chat` first ages the working memory and records the user message, asks
`NeedsContextRefresh` with the built context block, the rules and the project summary,
and sends to the model the system message with the context block followed by the history
returned by `GetMessages`, role and content unchanged and in order, when the answer is
true, and the history alone when it is false; over the whole turn `MarkContextSent` is
called once, with the same three inputs, when the block was included, and not at all
otherwise. -/
theorem Chat_message_list {σ : Type} (env : Env σ) (userMessage : String) (st : AgentState σ) :
    ∃ (systemPrompt rules projectInfo : String) (needs : Bool)
      (history : List HistoryMessage) (reply : LLMReply) (rest : List Event),
      rules = env.formattedRules
        (env.addMessage (env.ageWorkingMemory st.world 50) "user" userMessage) ∧
      projectInfo = env.projectSummary
        (env.addMessage (env.ageWorkingMemory st.world 50) "user" userMessage) ∧
      systemPrompt = env.buildSystemPrompt userMessage
        (env.toolsSummary (env.addMessage (env.ageWorkingMemory st.world 50) "user" userMessage))
        projectInfo
        (env.getContext (env.addMessage (env.ageWorkingMemory st.world 50) "user" userMessage))
        rules ∧
      needs = env.needsContextRefresh
        (env.addMessage (env.ageWorkingMemory st.world 50) "user" userMessage)
        systemPrompt rules projectInfo ∧
      history = env.getMessages
        (if needs then
          env.markContextSent
            (env.addMessage (env.ageWorkingMemory st.world 50) "user" userMessage)
            systemPrompt rules projectInfo
        else env.addMessage (env.ageWorkingMemory st.world 50) "user" userMessage) ∧
      (Chat env userMessage st).events =
        [Event.ageWorkingMemory 50, Event.addMessage "user" userMessage,
         Event.needsContextRefresh systemPrompt rules projectInfo needs] ++
        (if needs then [Event.markContextSent systemPrompt rules projectInfo] else []) ++
        [Event.getMessages history,
         Event.chatWithTools
          ((if needs then
              [{ role := "system", content := systemPrompt, toolCalls := [], toolCallID := "" }]
            else []) ++
            history.map (fun msg =>
              { role := msg.role, content := msg.content, toolCalls := [], toolCallID := "" }))
          reply] ++ rest ∧
      contextMarks (Chat env userMessage st).events =
        (if needs then [(systemPrompt, rules, projectInfo)] else []) := by
  have hprep : ∀ (reply : LLMReply),
      (prepareChat env userMessage st.world).events ++
        [Event.chatWithTools (prepareChat env userMessage st.world).messages reply] =
      [Event.ageWorkingMemory 50, Event.addMessage "user" userMessage,
         Event.needsContextRefresh (prepareChat env userMessage st.world).systemPrompt
          (prepareChat env userMessage st.world).rulesContent
          (prepareChat env userMessage st.world).projectInfo
          (prepareChat env userMessage st.world).needsContext] ++
        (if (prepareChat env userMessage st.world).needsContext then
          [Event.markContextSent (prepareChat env userMessage st.world).systemPrompt
            (prepareChat env userMessage st.world).rulesContent
            (prepareChat env userMessage st.world).projectInfo] else []) ++
        [Event.getMessages (prepareChat env userMessage st.world).history,
         Event.chatWithTools
          ((if (prepareChat env userMessage st.world).needsContext then
              [{ role := "system",
                 content := (prepareChat env userMessage st.world).systemPrompt,
                 toolCalls := [], toolCallID := "" }]
            else []) ++
            (prepareChat env userMessage st.world).history.map (fun msg =>
              { role := msg.role, content := msg.content, toolCalls := [], toolCallID := "" }))
          reply] := by
    intro reply
    simp [prepareChat, systemMessage, historyMessages]
  obtain ⟨hp1, hp2, hp3, hp4⟩ := prepareChat_events env userMessage st.world
  have hmarks : ∀ (reply : LLMReply) (rest : List Event), contextMarks rest = [] →
      contextMarks ((prepareChat env userMessage st.world).events ++
        [Event.chatWithTools (prepareChat env userMessage st.world).messages reply] ++ rest) =
      (if (prepareChat env userMessage st.world).needsContext then
        [((prepareChat env userMessage st.world).systemPrompt,
          (prepareChat env userMessage st.world).rulesContent,
          (prepareChat env userMessage st.world).projectInfo)] else []) := by
    intro reply rest hrest
    rw [contextMarks_append, contextMarks_append, hp4, hrest]
    simp [contextMarks, Event.contextMarked]
  have key : ∃ (reply : LLMReply) (rest : List Event),
      (Chat env userMessage st).events =
        (prepareChat env userMessage st.world).events ++
          [Event.chatWithTools (prepareChat env userMessage st.world).messages reply] ++ rest ∧
      contextMarks rest = [] := by
    unfold Chat
    simp only
    generalize prepareChat env userMessage st.world = p
    rcases hsent : env.chatWithTools p.world p.messages with ⟨reply, w2⟩
    cases reply with
    | failed e => exact ⟨LLMReply.failed e, [], by simp, rfl⟩
    | ok resp =>
      simp only
      generalize recordUsage env st resp w2 = st4
      have hsum := handleToolCalls_summary env 11 0 (by omega) resp p.messages st4
      rcases finishTurn_cases env true resp p.messages st4
        (p.events ++ [Event.chatWithTools p.messages (LLMReply.ok resp),
          Event.updateTokenUsage resp.usage.promptTokens]) with
        ⟨hno, hf⟩ | ⟨_, e, herr, hf⟩ | ⟨_, herr, hf⟩
      · refine ⟨LLMReply.ok resp, _, by rw [hf]; simp only [List.append_assoc,
          List.singleton_append, List.cons_append, List.nil_append]; rfl, ?_⟩
        have ht := (isTurnTail_quiet _ (afterReply_isTurnTail env true
          (env.addMessage st4.world "assistant" (env.getContent resp)))).2.2.1
        simp only [contextMarks, List.filterMap_cons, Event.contextMarked,
          List.filterMap_append] at ht ⊢
        rw [ht]
      · refine ⟨LLMReply.ok resp, _, by rw [hf]; simp only [List.append_assoc,
          List.singleton_append, List.cons_append, List.nil_append]; rfl, ?_⟩
        have := hsum.1
        simp only [contextMarks, List.filterMap_cons, Event.contextMarked] at this ⊢
        exact this
      · refine ⟨LLMReply.ok resp, _, by rw [hf]; simp only [List.append_assoc,
          List.singleton_append, List.cons_append, List.nil_append]; rfl, ?_⟩
        have ht := (isTurnTail_quiet _ (afterReply_isTurnTail env true
          (handleToolCalls env resp p.messages 0 st4).state.world)).2.2.1
        have := hsum.1
        simp only [contextMarks, List.filterMap_cons, Event.contextMarked,
          List.filterMap_append] at ht this ⊢
        rw [ht, this]
        rfl
  obtain ⟨reply, rest, hev, hrest⟩ := key
  refine ⟨(prepareChat env userMessage st.world).systemPrompt,
    (prepareChat env userMessage st.world).rulesContent,
    (prepareChat env userMessage st.world).projectInfo,
    (prepareChat env userMessage st.world).needsContext,
    (prepareChat env userMessage st.world).history, reply, rest, rfl, rfl, rfl, rfl, rfl, ?_, ?_⟩
  · rw [hev, hprep]
  · rw [hev]
    exact hmarks reply rest hrest

/-- `ChatWithStreaming` always sends the context block. -/
theorem ChatWithStreaming_message_list {σ : Type} (env : Env σ) (userMessage : String)
    (st : AgentState σ) :
    ∃ (systemPrompt : String) (history : List HistoryMessage) (reply : LLMReply)
      (rest : List Event),
      (ChatWithStreaming env userMessage st).events =
        [Event.ageWorkingMemory 50, Event.addMessage "user" userMessage,
         Event.getMessages history,
         Event.chatWithStreaming
          ({ role := "system", content := systemPrompt, toolCalls := [], toolCallID := "" } ::
            history.map (fun msg =>
              { role := msg.role, content := msg.content, toolCalls := [], toolCallID := "" }))
          reply] ++ rest := by
  have hprep : ∀ (reply : LLMReply),
      (prepareStreaming env userMessage st.world).events ++
        [Event.chatWithStreaming (prepareStreaming env userMessage st.world).messages reply] =
      [Event.ageWorkingMemory 50, Event.addMessage "user" userMessage,
       Event.getMessages (prepareStreaming env userMessage st.world).history,
       Event.chatWithStreaming
        ({ role := "system", content := (prepareStreaming env userMessage st.world).systemPrompt,
           toolCalls := [], toolCallID := "" } ::
          (prepareStreaming env userMessage st.world).history.map (fun msg =>
            { role := msg.role, content := msg.content, toolCalls := [], toolCallID := "" }))
        reply] := by
    intro reply
    simp [prepareStreaming, systemMessage, historyMessages]
  have key : ∃ (reply : LLMReply) (rest : List Event),
      (ChatWithStreaming env userMessage st).events =
        (prepareStreaming env userMessage st.world).events ++
          [Event.chatWithStreaming (prepareStreaming env userMessage st.world).messages reply] ++
          rest := by
    unfold ChatWithStreaming
    simp only
    generalize prepareStreaming env userMessage st.world = p
    rcases hsent : env.chatWithStreaming p.world p.messages with ⟨reply, w2⟩
    cases reply with
    | failed e => exact ⟨LLMReply.failed e, [], by simp⟩
    | ok resp =>
      simp only
      rcases finishTurn_cases env false resp p.messages { st with world := w2 }
        (p.events ++ [Event.chatWithStreaming p.messages (LLMReply.ok resp)]) with
        ⟨hno, hf⟩ | ⟨_, e, herr, hf⟩ | ⟨_, herr, hf⟩
      · exact ⟨LLMReply.ok resp, [Event.addMessage "assistant" (env.getContent resp)] ++
          (afterReply env false (env.addMessage w2 "assistant" (env.getContent resp))).2,
          by rw [hf]; simp only [List.append_assoc]⟩
      · exact ⟨LLMReply.ok resp, _, by rw [hf]⟩
      · exact ⟨LLMReply.ok resp,
          (handleToolCalls env resp p.messages 0 { st with world := w2 }).events ++
          (afterReply env false
            (handleToolCalls env resp p.messages 0 { st with world := w2 }).state.world).2,
          by rw [hf]; simp only [List.append_assoc]⟩
  obtain ⟨reply, rest, hev⟩ := key
  exact ⟨(prepareStreaming env userMessage st.world).systemPrompt,
    (prepareStreaming env userMessage st.world).history, reply, rest, by rw [hev, hprep]⟩

/-- C10 fails on the code: in a session whose context block was sent and marked, so
that `NeedsContextRefresh` answers false, `Chat` sends the history alone, while
`ChatWithStreaming` sends the system message with the context block again. -/
theorem ChatWithStreaming_resends_unchanged_context :
    plainEnv.needsContextRefresh
      (plainEnv.addMessage (plainEnv.ageWorkingMemory informedAgent.world 50) "user" "hi")
      "toolsprojectrules" "rules" "project" = false ∧
    messageLists (Chat plainEnv "hi" informedAgent).events =
      [[{ role := "user", content := "hi", toolCalls := [], toolCallID := "" }]] ∧
    messageLists (ChatWithStreaming plainEnv "hi" informedAgent).events =
      [[{ role := "system", content := "toolsprojectrules", toolCalls := [], toolCallID := "" },
        { role := "user", content := "hi", toolCalls := [], toolCallID := "" }]] := by
  decide

theorem executeConcurrent_stepBy {σ : Type} (env : Env σ) :
    StepBy (concurrentOutcome env) (executeConcurrent env) := by
  intro st i
  exact ⟨rfl, rfl⟩

theorem executeSequential_stepBy {σ : Type} (env : Env σ) :
    StepBy (sequentialOutcome env) (executeSequential env) := by
  intro st i
  generalize hslot : st.results.getD i toolExecutionResult.zero = slot
  by_cases ht : env.telegramEnabled = true
  · rcases hr : (requestTelegramApproval env slot.tc.name slot.tc.arguments st.world).1 with _ | e
    · simp only [executeSequential, sequentialOutcome, ht, if_true, hslot, hr]
      constructor <;> first | rfl | trivial
    · simp only [executeSequential, sequentialOutcome, ht, if_true, hslot, hr, denialResult]
      constructor <;> first | rfl | trivial
  · simp only [executeSequential, sequentialOutcome, ht, hslot]
    constructor <;> first | rfl | trivial

theorem skipIndex_ne (d j : Nat) : skipIndex d j ≠ d := by
  unfold skipIndex; split <;> omega

theorem skipIndex_inj (d j k : Nat) (h : skipIndex d j = skipIndex d k) : j = k := by
  unfold skipIndex at h; split at h <;> split at h <;> omega

theorem skipIndex_lt (d j n : Nat) (hd : d ≤ n) (h : j < n) : skipIndex d j < n + 1 := by
  unfold skipIndex; split <;> omega

theorem sim_step {σ : Type} {g : ToolCall → Args → σ → (ToolResult × Option String) × σ}
    {f : Running σ → Nat → Running σ} (hf : StepBy g f) (d : Nat) (c : ToolCall)
    (A B : Running σ) (j : Nat) (hrel : SameExceptAt d c A.results B.results)
    (hw : A.world = B.world) (hj : j < B.results.length) (hd : d ≤ B.results.length) :
    SameExceptAt d c (f A (skipIndex d j)).results (f B j).results ∧
    (f A (skipIndex d j)).world = (f B j).world ∧
    (f A (skipIndex d j)).results[d]? = A.results[d]? := by
  obtain ⟨hlen, hc, hpt⟩ := hrel
  obtain ⟨hA1, hA2⟩ := hf A (skipIndex d j)
  obtain ⟨hB1, hB2⟩ := hf B j
  have htj : skipIndex d j < A.results.length := by
    rw [hlen]; exact skipIndex_lt d j _ hd hj
  have hslots : slotContent (B.results.getD j toolExecutionResult.zero) =
      slotContent (A.results.getD (skipIndex d j) toolExecutionResult.zero) := by
    have := hpt j
    rw [List.getD_eq_getElem?_getD, List.getD_eq_getElem?_getD,
      List.getElem?_eq_getElem hj, List.getElem?_eq_getElem htj]
    rw [List.getElem?_eq_getElem hj, List.getElem?_eq_getElem htj] at this
    simpa using this
  generalize A.results.getD (skipIndex d j) toolExecutionResult.zero = sa at *
  generalize B.results.getD j toolExecutionResult.zero = sb at *
  have htc : sb.tc = sa.tc := congrArg (fun x => x.1) hslots
  have hargs : sb.args = sa.args := congrArg (fun x => x.2.1) hslots
  rw [htc, hargs, ← hw] at hB1 hB2
  refine ⟨⟨?_, ?_, ?_⟩, ?_, ?_⟩
  · rw [hA1, hB1]; simp [hlen]
  · rw [hA1, List.getElem?_set_ne (skipIndex_ne d j)]; exact hc
  · intro k
    rw [hA1, hB1, List.getElem?_set, List.getElem?_set]
    by_cases hk : j = k
    · subst hk
      simp only [if_true, hj, htj]
      simp [slotContent, htc, hargs]
    · have hk2 : skipIndex d j ≠ skipIndex d k := fun h => hk (skipIndex_inj d j k h)
      simp only [hk, hk2, if_false]
      exact hpt k
  · rw [hA2, hB2]
  · rw [hA1, List.getElem?_set_ne (skipIndex_ne d j)]

theorem stepBy_length {σ : Type} {g : ToolCall → Args → σ → (ToolResult × Option String) × σ}
    {f : Running σ → Nat → Running σ} (hf : StepBy g f) (st : Running σ) (i : Nat) :
    (f st i).results.length = st.results.length := by
  rw [(hf st i).1]; simp

theorem sim_fold {σ : Type} {g : ToolCall → Args → σ → (ToolResult × Option String) × σ}
    {f : Running σ → Nat → Running σ} (hf : StepBy g f) (d : Nat) (c : ToolCall) :
    ∀ (lB : List Nat) (A B : Running σ), SameExceptAt d c A.results B.results →
      A.world = B.world → (∀ j ∈ lB, j < B.results.length) → d ≤ B.results.length →
      SameExceptAt d c ((lB.map (skipIndex d)).foldl f A).results (lB.foldl f B).results ∧
      ((lB.map (skipIndex d)).foldl f A).world = (lB.foldl f B).world ∧
      ((lB.map (skipIndex d)).foldl f A).results[d]? = A.results[d]? ∧
      (lB.foldl f B).results.length = B.results.length := by
  intro lB
  induction lB with
  | nil => intro A B hrel hw _ _; exact ⟨hrel, hw, rfl, rfl⟩
  | cons j lB ih =>
    intro A B hrel hw hlt hd
    obtain ⟨h1, h2, h3⟩ := sim_step hf d c A B j hrel hw (hlt j (List.mem_cons_self _ _)) hd
    have hlenB := stepBy_length hf B j
    obtain ⟨i1, i2, i3, i4⟩ := ih (f A (skipIndex d j)) (f B j) h1 h2
      (fun k hk => by rw [hlenB]; exact hlt k (List.mem_cons_of_mem _ hk)) (by rw [hlenB]; exact hd)
    simp only [List.map_cons, List.foldl_cons]
    exact ⟨i1, i2, by rw [i3, h3], by rw [i4, hlenB]⟩

theorem sensitiveFrom_append {σ : Type} (env : Env σ) (w : σ) :
    ∀ (l1 l2 : List ToolCall) (k : Nat),
      sensitiveFrom env w k (l1 ++ l2) =
        sensitiveFrom env w k l1 ++ sensitiveFrom env w (k + l1.length) l2 := by
  intro l1
  induction l1 with
  | nil => intro l2 k; simp [sensitiveFrom]
  | cons tc rest ih =>
    intro l2 k
    have h : k + (tc :: rest).length = k + 1 + rest.length := by simp; omega
    simp only [List.cons_append, sensitiveFrom, h]
    split <;> simp [ih]

theorem nonSensitiveFrom_append {σ : Type} (env : Env σ) (w : σ) :
    ∀ (l1 l2 : List ToolCall) (k : Nat),
      nonSensitiveFrom env w k (l1 ++ l2) =
        nonSensitiveFrom env w k l1 ++ nonSensitiveFrom env w (k + l1.length) l2 := by
  intro l1
  induction l1 with
  | nil => intro l2 k; simp [nonSensitiveFrom]
  | cons tc rest ih =>
    intro l2 k
    have h : k + (tc :: rest).length = k + 1 + rest.length := by simp; omega
    simp only [List.cons_append, nonSensitiveFrom, h]
    split <;> simp [ih]

theorem sensitiveFrom_succ {σ : Type} (env : Env σ) (w : σ) :
    ∀ (l : List ToolCall) (k : Nat),
      sensitiveFrom env w (k + 1) l = (sensitiveFrom env w k l).map (fun i => i + 1) := by
  intro l
  induction l with
  | nil => intro k; rfl
  | cons tc rest ih =>
    intro k
    simp only [sensitiveFrom, ih]
    split <;> simp

theorem nonSensitiveFrom_succ {σ : Type} (env : Env σ) (w : σ) :
    ∀ (l : List ToolCall) (k : Nat),
      nonSensitiveFrom env w (k + 1) l = (nonSensitiveFrom env w k l).map (fun i => i + 1) := by
  intro l
  induction l with
  | nil => intro k; rfl
  | cons tc rest ih =>
    intro k
    simp only [nonSensitiveFrom, ih]
    split <;> simp

theorem map_skipIndex_of_lt (d : Nat) (l : List Nat) (h : ∀ i ∈ l, i < d) :
    l.map (skipIndex d) = l := by
  conv_rhs => rw [← List.map_id l]
  apply List.map_congr_left
  intro i hi
  simp [skipIndex, h i hi]

theorem map_skipIndex_of_ge (d : Nat) (l : List Nat) (h : ∀ i ∈ l, d ≤ i) :
    l.map (skipIndex d) = l.map (fun i => i + 1) := by
  apply List.map_congr_left
  intro i hi
  have := h i hi
  simp [skipIndex]
  omega

theorem eraseIdx_map {α β : Type} (f : α → β) :
    ∀ (l : List α) (k : Nat), (l.map f).eraseIdx k = (l.eraseIdx k).map f := by
  intro l
  induction l with
  | nil => intro k; rfl
  | cons a l ih =>
    intro k
    cases k with
    | zero => rfl
    | succ k => simp [ih]

theorem completionOrder_map (f : Nat → Nat) :
    ∀ (ps l : List Nat), completionOrder ps (l.map f) = (completionOrder ps l).map f := by
  intro ps
  induction ps with
  | nil => intro l; cases l <;> simp [completionOrder]
  | cons p ps ih =>
    intro l
    cases l with
    | nil => simp [completionOrder]
    | cons x xs =>
      simp only [List.map_cons, completionOrder, List.length_cons, List.length_map]
      rw [← List.map_cons, eraseIdx_map, ih, List.getD_map]

theorem getElem?_skipIndex {α : Type} (pre post : List α) (c : α) (j : Nat) :
    (pre ++ c :: post)[skipIndex pre.length j]? = (pre ++ post)[j]? := by
  unfold skipIndex
  split
  · rename_i h
    rw [List.getElem?_append_left h, List.getElem?_append_left h]
  · rename_i h
    rw [List.getElem?_append_right (by omega), List.getElem?_append_right (by omega)]
    have : j + 1 - pre.length = (j - pre.length) + 1 := by omega
    rw [this, List.getElem?_cons_succ]

theorem slotContent_initialSlot {σ : Type} (env : Env σ) (i j : Nat) (tc : ToolCall) :
    slotContent (initialSlot env i tc) = slotContent (initialSlot env j tc) := by
  rw [initialSlot_eq, initialSlot_eq]
  rfl

theorem initialSlots_sameExceptAt {σ : Type} (env : Env σ) (pre post : List ToolCall)
    (c : ToolCall) :
    SameExceptAt pre.length c (initialSlots env 0 (pre ++ c :: post))
      (initialSlots env 0 (pre ++ post)) := by
  refine ⟨?_, ?_, ?_⟩
  · simp [initialSlots_length]; omega
  · rw [initialSlots_getElem?]
    have : (pre ++ c :: post)[pre.length]? = some c := by
      rw [List.getElem?_append_right (le_refl _)]; simp
    rw [this]
    simp [initialSlot_eq]
  · intro j
    rw [initialSlots_getElem?, initialSlots_getElem?, getElem?_skipIndex]
    cases (pre ++ post)[j]? with
    | none => rfl
    | some tc =>
      simp only [Option.map_some', Option.some.injEq]
      exact slotContent_initialSlot env _ _ tc

theorem denied_step {σ : Type} (env : Env σ) (A : Running σ) (d : Nat) (c : ToolCall)
    (ht : env.telegramEnabled = true)
    (hc : (A.results[d]?).map (fun s => s.tc) = some c)
    (hdeny : ∀ w, (requestTelegramApproval env c.name c.arguments w).1 ≠ none ∧
      (requestTelegramApproval env c.name c.arguments w).2.1 = w) :
    ∃ (e : String) (slot : toolExecutionResult), A.results[d]? = some slot ∧
      (executeSequential env A d).results =
        A.results.set d { slot with result := denialResult, err := some e } ∧
      (executeSequential env A d).world = A.world := by
  obtain ⟨h1, h2⟩ := executeSequential_stepBy env A d
  cases hs : A.results[d]? with
  | none => rw [hs] at hc; simp at hc
  | some slot =>
    rw [hs] at hc
    simp only [Option.map_some', Option.some.injEq] at hc
    have hget : A.results.getD d toolExecutionResult.zero = slot := by
      rw [List.getD_eq_getElem?_getD, hs]; rfl
    rw [hget] at h1 h2
    obtain ⟨hd1, hd2⟩ := hdeny A.world
    cases hr : (requestTelegramApproval env c.name c.arguments A.world).1 with
    | none => exact absurd hr hd1
    | some e =>
      have hout : sequentialOutcome env slot.tc slot.args A.world =
          ((denialResult, some e), A.world) := by
        simp only [sequentialOutcome, ht, if_true, hc, hr, hd2]
      rw [hout] at h1 h2
      exact ⟨e, slot, rfl, h1, h2⟩

theorem sameExceptAt_set {d : Nat} {c : ToolCall} {A B : List toolExecutionResult}
    (h : SameExceptAt d c A B) (x : toolExecutionResult) (hx : x.tc = c) :
    SameExceptAt d c (A.set d x) B := by
  obtain ⟨hlen, hc, hpt⟩ := h
  refine ⟨by simp [hlen], ?_, ?_⟩
  · rw [List.getElem?_set]
    cases hA : A[d]? with
    | none => rw [hA] at hc; simp at hc
    | some s =>
      have hd : d < A.length := (List.getElem?_eq_some_iff.1 hA).1
      simp [hd, hx]
  · intro j
    rw [List.getElem?_set_ne (Ne.symm (skipIndex_ne d j))]
    exact hpt j

theorem reportLoop_world {σ : Type} (env : Env σ) (toolCalls : List ToolCall) :
    ∀ (results : List toolExecutionResult) (k : Nat) (acc : Reporting σ),
      (reportLoop env toolCalls k results acc).world = worldAfterFiles env acc.world results := by
  intro results
  induction results with
  | nil => intro k acc; rfl
  | cons res rest ih =>
    intro k acc
    rw [reportLoop, ih]
    have hw : (reportResult env toolCalls acc k res).world =
        (match addedFile res with
          | some f => env.addFile acc.world f.1 f.2.1 f.2.2
          | none => acc.world) := by
      unfold reportResult addedFile
      simp only
      split
      · split
        · split <;> rfl
        · rfl
      · rfl
    rw [hw]
    rfl

theorem addedFile_congr (r1 r2 : toolExecutionResult) (h : slotContent r1 = slotContent r2) :
    addedFile r1 = addedFile r2 := by
  have htc : r1.tc = r2.tc := congrArg (fun x => x.1) h
  have hargs : r1.args = r2.args := congrArg (fun x => x.2.1) h
  have hres : r1.result = r2.result := congrArg (fun x => x.2.2.1) h
  have herr : r1.err = r2.err := congrArg (fun x => x.2.2.2) h
  unfold addedFile
  rw [htc, hargs, hres, herr]

theorem worldAfterFiles_congr {σ : Type} (env : Env σ) :
    ∀ (l1 l2 : List toolExecutionResult), l1.map slotContent = l2.map slotContent →
      ∀ w, worldAfterFiles env w l1 = worldAfterFiles env w l2 := by
  intro l1
  induction l1 with
  | nil =>
    intro l2 h w
    cases l2 with
    | nil => rfl
    | cons b l2 => simp at h
  | cons a l1 ih =>
    intro l2 h w
    cases l2 with
    | nil => simp at h
    | cons b l2 =>
      simp only [List.map_cons, List.cons.injEq] at h
      simp only [worldAfterFiles, List.foldl_cons]
      rw [addedFile_congr a b h.1]
      exact ih l2 h.2 _

theorem worldAfterFiles_append {σ : Type} (env : Env σ) (l1 l2 : List toolExecutionResult)
    (w : σ) :
    worldAfterFiles env w (l1 ++ l2) = worldAfterFiles env (worldAfterFiles env w l1) l2 := by
  simp [worldAfterFiles, List.foldl_append]

theorem toolMessages_eq_zipWith :
    ∀ (results : List toolExecutionResult) (done calls : List ToolCall),
      results.length ≤ calls.length →
      toolMessages (done ++ calls) done.length results =
        List.zipWith (fun tc res => contentMessage tc (slotContent res)) calls results := by
  intro results
  induction results with
  | nil => intro done calls _; simp [toolMessages]
  | cons res rest ih =>
    intro done calls hlen
    cases calls with
    | nil => simp at hlen
    | cons tc calls =>
      simp only [toolMessages, List.zipWith_cons_cons]
      have h1 : toolMessage (done ++ tc :: calls) done.length res =
          contentMessage tc (slotContent res) := by
        have hg : (done ++ tc :: calls).getD done.length ToolCall.zero = tc := by
          rw [List.getD_append_right _ _ _ _ (le_refl _)]; simp
        unfold toolMessage contentMessage slotContent
        rw [hg]
      have h2 := ih (done ++ [tc]) calls (by simpa using hlen)
      simp only [List.append_assoc, List.singleton_append, List.length_append,
        List.length_singleton] at h2
      rw [h1, h2]

theorem mem_nonSensitiveFrom_lt {σ : Type} (env : Env σ) (w : σ) (calls : List ToolCall)
    (k j : Nat) (h : j ∈ nonSensitiveFrom env w k calls) : k ≤ j ∧ j < k + calls.length := by
  obtain ⟨h1, tc, h2, _⟩ := (mem_nonSensitiveFrom env w calls k j).1 h
  have := (List.getElem?_eq_some_iff.1 h2).1
  omega

theorem mem_sensitiveFrom_lt {σ : Type} (env : Env σ) (w : σ) (calls : List ToolCall)
    (k j : Nat) (h : j ∈ sensitiveFrom env w k calls) : k ≤ j ∧ j < k + calls.length := by
  obtain ⟨h1, tc, h2, _⟩ := (mem_sensitiveFrom env w calls k j).1 h
  have := (List.getElem?_eq_some_iff.1 h2).1
  omega

theorem nonSensitive_skip {σ : Type} (env : Env σ) (w : σ) (pre post : List ToolCall)
    (c : ToolCall) (hsens : env.requiresApproval w c.name = true) :
    nonSensitiveFrom env w 0 (pre ++ c :: post) =
      (nonSensitiveFrom env w 0 (pre ++ post)).map (skipIndex pre.length) := by
  rw [nonSensitiveFrom_append, nonSensitiveFrom_append, List.map_append]
  simp only [Nat.zero_add]
  have h1 : nonSensitiveFrom env w pre.length (c :: post) =
      nonSensitiveFrom env w (pre.length + 1) post := by
    simp [nonSensitiveFrom, hsens]
  rw [h1, map_skipIndex_of_lt _ _ (fun i hi => by
      have := mem_nonSensitiveFrom_lt env w pre 0 i hi; omega),
    map_skipIndex_of_ge _ _ (fun i hi => (mem_nonSensitiveFrom_lt env w post _ i hi).1),
    nonSensitiveFrom_succ]

theorem sensitive_skip {σ : Type} (env : Env σ) (w : σ) (pre post : List ToolCall)
    (c : ToolCall) (hparse : (env.unmarshal c.arguments).2 = none)
    (hsens : env.requiresApproval w c.name = true) :
    sensitiveFrom env w 0 (pre ++ c :: post) =
      (sensitiveFrom env w 0 pre).map (skipIndex pre.length) ++
        pre.length :: (sensitiveFrom env w pre.length post).map (skipIndex pre.length) ∧
    sensitiveFrom env w 0 (pre ++ post) =
      sensitiveFrom env w 0 pre ++ sensitiveFrom env w pre.length post := by
  constructor
  · rw [sensitiveFrom_append]
    simp only [Nat.zero_add]
    have h1 : sensitiveFrom env w pre.length (c :: post) =
        pre.length :: sensitiveFrom env w (pre.length + 1) post := by
      simp [sensitiveFrom, hsens, hparse]
    rw [h1, map_skipIndex_of_lt _ _ (fun i hi => by
        have := mem_sensitiveFrom_lt env w pre 0 i hi; omega),
      map_skipIndex_of_ge _ _ (fun i hi => (mem_sensitiveFrom_lt env w post _ i hi).1),
      sensitiveFrom_succ]
  · rw [sensitiveFrom_append]
    simp only [Nat.zero_add]

theorem sameExceptAt_erase {d : Nat} {c : ToolCall} {A B : List toolExecutionResult}
    (h : SameExceptAt d c A B) : B.map slotContent = (A.eraseIdx d).map slotContent := by
  apply List.ext_getElem?
  intro j
  rw [List.getElem?_map, List.getElem?_map, List.getElem?_eraseIdx, h.2.2 j]
  unfold skipIndex
  split <;> rfl

theorem split_at {α : Type} (l : List α) (d : Nat) (x : α) (h : l[d]? = some x) :
    l = l.take d ++ x :: l.drop (d + 1) ∧ l.eraseIdx d = l.take d ++ l.drop (d + 1) ∧
      (l.take d).length = d := by
  obtain ⟨hd, hx⟩ := List.getElem?_eq_some_iff.1 h
  refine ⟨?_, List.eraseIdx_eq_take_drop_succ l d, ?_⟩
  · conv_lhs => rw [← List.take_append_drop d l]
    rw [List.drop_eq_getElem_cons hd, hx]
  · rw [List.length_take]; omega

theorem dispatch_eq {σ : Type} (env : Env σ) (calls : List ToolCall)
    (messages : List Message) (w : σ) :
    (dispatch env calls messages w).messages = messages ++
      toolMessages calls 0
        ((sensitiveFrom env w 0 calls).foldl (executeSequential env)
          ((completionOrder (env.picks w) (nonSensitiveFrom env w 0 calls)).foldl
            (executeConcurrent env)
            { results := initialSlots env 0 calls, world := w,
              events := classifyEvents env w 0 calls })).results ∧
    (dispatch env calls messages w).world =
      worldAfterFiles env
        ((sensitiveFrom env w 0 calls).foldl (executeSequential env)
          ((completionOrder (env.picks w) (nonSensitiveFrom env w 0 calls)).foldl
            (executeConcurrent env)
            { results := initialSlots env 0 calls, world := w,
              events := classifyEvents env w 0 calls })).world
        ((sensitiveFrom env w 0 calls).foldl (executeSequential env)
          ((completionOrder (env.picks w) (nonSensitiveFrom env w 0 calls)).foldl
            (executeConcurrent env)
            { results := initialSlots env 0 calls, world := w,
              events := classifyEvents env w 0 calls })).results ∧
    (dispatch env calls messages w).results =
        ((sensitiveFrom env w 0 calls).foldl (executeSequential env)
          ((completionOrder (env.picks w) (nonSensitiveFrom env w 0 calls)).foldl
            (executeConcurrent env)
            { results := initialSlots env 0 calls, world := w,
              events := classifyEvents env w 0 calls })).results := by
  have hcl : classifyLoop env w 0 calls
      { results := List.replicate calls.length toolExecutionResult.zero,
        sensitiveCalls := [], nonSensitiveCalls := [], events := [] } =
      { results := initialSlots env 0 calls, sensitiveCalls := sensitiveFrom env w 0 calls,
        nonSensitiveCalls := nonSensitiveFrom env w 0 calls,
        events := classifyEvents env w 0 calls } := by
    simpa using classifyLoop_eq env w calls [] [] [] []
  refine ⟨?_, ?_, ?_⟩
  · simp only [dispatch, hcl]
    rw [(reportLoop_eq env calls _ 0 _).1]
  · simp only [dispatch, hcl]
    rw [reportLoop_world]
  · simp only [dispatch, hcl]

/-- The round on a batch with a sensitive call whose approval request fails without
effect on the world, against the round on the batch without that call. -/
theorem dispatch_without_denied_call {σ : Type} (env : Env σ) (pre post : List ToolCall)
    (c : ToolCall) (messages : List Message) (w : σ)
    (ht : env.telegramEnabled = true)
    (hparse : (env.unmarshal c.arguments).2 = none)
    (hsens : env.requiresApproval w c.name = true)
    (hdeny : ∀ w', (requestTelegramApproval env c.name c.arguments w').1 ≠ none ∧
      (requestTelegramApproval env c.name c.arguments w').2.1 = w') :
    ∃ toolMsgs : List Message,
      (dispatch env (pre ++ post) messages w).messages = messages ++ toolMsgs ∧
      (dispatch env (pre ++ c :: post) messages w).messages =
        messages ++ (toolMsgs.take pre.length ++
          { role := "tool", content := "Error: Operation denied by user via Telegram.",
            toolCalls := [], toolCallID := c.id } :: toolMsgs.drop pre.length) ∧
      (dispatch env (pre ++ c :: post) messages w).world =
        (dispatch env (pre ++ post) messages w).world := by
  obtain ⟨hmA, hwA, _⟩ := dispatch_eq env (pre ++ c :: post) messages w
  obtain ⟨hmB, hwB, _⟩ := dispatch_eq env (pre ++ post) messages w
  obtain ⟨hsA, hsB⟩ := sensitive_skip env w pre post c hparse hsens
  have hnA := nonSensitive_skip env w pre post c hsens
  rw [hnA, completionOrder_map, hsA] at hmA hwA
  rw [hsB] at hmB hwB
  rw [List.foldl_append, List.foldl_cons] at hmA hwA
  rw [List.foldl_append] at hmB hwB
  -- the concurrent calls
  have hrel0 := initialSlots_sameExceptAt env pre post c
  have hlenB0 : (initialSlots env 0 (pre ++ post)).length = (pre ++ post).length :=
    initialSlots_length env _ 0
  have hd0 : pre.length ≤ (pre ++ post).length := by simp
  obtain ⟨r1, w1, k1, l1⟩ := sim_fold (executeConcurrent_stepBy env) pre.length c
    (completionOrder (env.picks w) (nonSensitiveFrom env w 0 (pre ++ post)))
    { results := initialSlots env 0 (pre ++ c :: post), world := w,
      events := classifyEvents env w 0 (pre ++ c :: post) }
    { results := initialSlots env 0 (pre ++ post), world := w,
      events := classifyEvents env w 0 (pre ++ post) } hrel0 rfl
    (by
      intro j hj
      have := mem_nonSensitiveFrom_lt env w (pre ++ post) 0 j
        ((completionOrder_perm _ _).mem_iff.1 hj)
      simp only [hlenB0]
      omega)
    (by simp only [hlenB0]; exact hd0)
  generalize (List.map (skipIndex pre.length)
      (completionOrder (env.picks w) (nonSensitiveFrom env w 0 (pre ++ post)))).foldl
      (executeConcurrent env)
      { results := initialSlots env 0 (pre ++ c :: post), world := w,
        events := classifyEvents env w 0 (pre ++ c :: post) } = parA at *
  generalize (completionOrder (env.picks w) (nonSensitiveFrom env w 0 (pre ++ post))).foldl
      (executeConcurrent env)
      { results := initialSlots env 0 (pre ++ post), world := w,
        events := classifyEvents env w 0 (pre ++ post) } = parB at *
  simp only [] at l1
  -- the sensitive calls before the denied one
  obtain ⟨r2, w2, k2, l2⟩ := sim_fold (executeSequential_stepBy env) pre.length c
    (sensitiveFrom env w 0 pre) parA parB r1 w1
    (by
      intro j hj
      have := mem_sensitiveFrom_lt env w pre 0 j hj
      rw [l1, hlenB0]
      simp only [List.length_append]
      omega)
    (by rw [l1, hlenB0]; exact hd0)
  generalize (List.map (skipIndex pre.length) (sensitiveFrom env w 0 pre)).foldl
      (executeSequential env) parA = seqA1 at *
  generalize (sensitiveFrom env w 0 pre).foldl (executeSequential env) parB = seqB1 at *
  -- the denied call
  obtain ⟨e, slot, hslot, hres3, hw3⟩ := denied_step env seqA1 pre.length c ht r2.2.1 hdeny
  have hslotc : slot.tc = c := by
    have := r2.2.1
    rw [hslot] at this
    simpa using this
  have r3 : SameExceptAt pre.length c (executeSequential env seqA1 pre.length).results
      seqB1.results := by
    rw [hres3]
    exact sameExceptAt_set r2 _ hslotc
  have hd3 : (executeSequential env seqA1 pre.length).results[pre.length]? =
      some { slot with result := denialResult, err := some e } := by
    rw [hres3, List.getElem?_set]
    simp [(List.getElem?_eq_some_iff.1 hslot).1]
  generalize executeSequential env seqA1 pre.length = seqA2 at *
  -- the sensitive calls after the denied one
  obtain ⟨r4, w4, k4, l4⟩ := sim_fold (executeSequential_stepBy env) pre.length c
    (sensitiveFrom env w pre.length post) seqA2 seqB1 r3 (by rw [hw3, w2])
    (by
      intro j hj
      have := mem_sensitiveFrom_lt env w post pre.length j hj
      rw [l2, l1, hlenB0]
      simp only [List.length_append]
      omega)
    (by rw [l2, l1, hlenB0]; exact hd0)
  generalize (List.map (skipIndex pre.length) (sensitiveFrom env w pre.length post)).foldl
      (executeSequential env) seqA2 = seqA3 at *
  generalize (sensitiveFrom env w pre.length post).foldl (executeSequential env) seqB1 =
      seqB2 at *
  -- the slots at the end
  have hsd : seqA3.results[pre.length]? =
      some { slot with result := denialResult, err := some e } := by rw [k4, hd3]
  obtain ⟨hsplit, herase, htake⟩ := split_at seqA3.results pre.length _ hsd
  have hcontent := sameExceptAt_erase r4
  rw [herase] at hcontent
  have hlenA : seqA3.results.length = (pre ++ post).length + 1 := by
    rw [r4.1, l4, l2, l1, hlenB0]
  have hlenB : seqB2.results.length = (pre ++ post).length := by
    rw [l4, l2, l1, hlenB0]
  have hdrop : (seqA3.results.drop (pre.length + 1)).length = post.length := by
    rw [List.length_drop, hlenA]; simp
  -- the messages
  have hzA := toolMessages_eq_zipWith seqA3.results [] (pre ++ c :: post)
    (by rw [hlenA]; simp; omega)
  have hzB := toolMessages_eq_zipWith seqB2.results [] (pre ++ post) (by rw [hlenB])
  simp only [List.nil_append, List.length_nil] at hzA hzB
  have hB2 : List.zipWith (fun tc res => contentMessage tc (slotContent res)) (pre ++ post)
      seqB2.results =
      List.zipWith (fun tc res => contentMessage tc (slotContent res)) pre
        (seqA3.results.take pre.length) ++
      List.zipWith (fun tc res => contentMessage tc (slotContent res)) post
        (seqA3.results.drop (pre.length + 1)) := by
    rw [← List.zipWith_map_right _ _ slotContent (fun tc x => contentMessage tc x), hcontent,
      List.zipWith_map_right, List.zipWith_append _ _ _ _ _ htake.symm]
  have hA2 : List.zipWith (fun tc res => contentMessage tc (slotContent res))
      (pre ++ c :: post) seqA3.results =
      List.zipWith (fun tc res => contentMessage tc (slotContent res)) pre
        (seqA3.results.take pre.length) ++
      { role := "tool", content := "Error: Operation denied by user via Telegram.",
        toolCalls := [], toolCallID := c.id } ::
      List.zipWith (fun tc res => contentMessage tc (slotContent res)) post
        (seqA3.results.drop (pre.length + 1)) := by
    conv_lhs => rw [hsplit]
    rw [List.zipWith_append _ _ _ _ _ htake.symm, List.zipWith_cons_cons]
    rfl
  have hztake : (List.zipWith (fun tc res => contentMessage tc (slotContent res)) pre
      (seqA3.results.take pre.length)).length = pre.length := by
    rw [List.length_zipWith, htake]; simp
  refine ⟨_, hmB, ?_, ?_⟩
  · rw [hmA, hzA, hzB, hA2, hB2, List.take_left' hztake, List.drop_left' hztake]
  · rw [hwA, hwB, w4]
    rw [worldAfterFiles_congr env seqB2.results _ hcontent]
    conv_lhs => rw [hsplit]
    rw [worldAfterFiles_append, worldAfterFiles_append]
    have hnone : addedFile
        { slot with result := denialResult, err := some e } = none := by
      simp [addedFile, reportedResult, denialResult]
    conv_lhs => rw [worldAfterFiles, List.foldl_cons, hnone]
    rfl

/-- C7, amended, at the file read of a batch. -/
theorem handleToolCalls_adds_read_files_to_memory_witness :
    (approvingEnv.getToolCalls (callsResponse [readCall, writeCall]))[0]? = some readCall ∧
    ∃ o : Outcome,
      outcomes (handleToolCallsRound approvingEnv (callsResponse [readCall, writeCall]) [] 0
        World.start).events 0 = [o] ∧
      filesAdded (handleToolCallsRound approvingEnv (callsResponse [readCall, writeCall]) [] 0
        World.start).events 0 =
        (match (approvingEnv.unmarshal readCall.arguments).1.getString "path" with
          | some path =>
            if o.result.success = true ∧ (o.err = none ∨ o.result.output ≠ "") ∧
                (readCall.name = "read_file" ∨ readCall.name = "view_file") then
              [(path, o.result.output, 1000)]
            else []
          | none => []) ∧
      (filesAdded (handleToolCallsRound approvingEnv (callsResponse [readCall, writeCall]) [] 0
          World.start).events 0 ≠ [] →
        ∃ mode, o.source = OutcomeSource.executor mode) :=
  ⟨by decide, handleToolCalls_adds_read_files_to_memory approvingEnv
    (callsResponse [readCall, writeCall]) [] 0 World.start 0 readCall (by decide)⟩

/-- C7 as stated fails: a `view_file` call whose handler returns a successful result
with output together with an error is stored with `AddFile`, although it was not
executed without error. -/
theorem file_added_for_call_executed_with_error :
    outcomes (handleToolCallsRound plainEnv (callsResponse [viewCall]) [] 0
      World.start).events 0 =
      [⟨OutcomeSource.executor ExecMode.concurrent,
        { success := true, output := "first lines", error := "" }, some "read interrupted"⟩] ∧
    filesAdded (handleToolCallsRound plainEnv (callsResponse [viewCall]) [] 0
      World.start).events 0 = [("notes.txt", "first lines", 1000)] := by
  decide

theorem isCompression_of_isToolRound (e : Event) (h : e.isToolRound = true) :
    e.isCompression = false := by
  cases e <;> simp [Event.isToolRound] at h <;> rfl

/-- The calls of `handleToolCalls` hold no call of `compressContext`, and when it
returns without error its reply is the content of the last response of the model. -/
theorem handleToolCalls_reply {σ : Type} (env : Env σ) :
    ∀ (n depth : Nat), 11 - depth ≤ n →
      ∀ (resp : ChatResponse) (messages : List Message) (st : AgentState σ),
        (∀ ev ∈ (handleToolCalls env resp messages depth st).events,
          ev.isCompression = false) ∧
        ((handleToolCalls env resp messages depth st).err = none →
          ∃ next, (modelReplies (handleToolCalls env resp messages depth st).events).getLast? =
              some (LLMReply.ok next) ∧
            (handleToolCalls env resp messages depth st).reply = env.getContent next) := by
  intro n
  induction n with
  | zero =>
    intro depth hd resp messages st
    rcases handleToolCalls_cases env resp messages depth st with ⟨_, h⟩ | ⟨h, _⟩
    · rw [h]
      exact ⟨fun ev hev => by simp at hev, fun h => by simp at h⟩
    · omega
  | succ n ih =>
    intro depth hd resp messages st
    rcases handleToolCalls_cases env resp messages depth st with ⟨_, h⟩ | ⟨hle, reply, w2, _, h⟩
    · rw [h]
      exact ⟨fun ev hev => by simp at hev, fun h => by simp at h⟩
    · obtain ⟨rest, hre, hrest, hmr, _, _, _⟩ :=
        handleToolCallsRound_events env resp messages depth st.world
      have hround : ∀ ev ∈ (handleToolCallsRound env resp messages depth st.world).events,
          ev.isCompression = false := by
        intro ev hev
        rw [hre] at hev
        rcases List.mem_cons.1 hev with rfl | hev
        · rfl
        · exact isCompression_of_isToolRound ev (hrest ev hev)
      rcases h with ⟨e, _, h⟩ | ⟨next, _, _, h⟩ | ⟨next, _, _, h⟩
      · rw [h]
        refine ⟨?_, fun h => by simp at h⟩
        intro ev hev
        simp only [List.mem_append, List.mem_singleton] at hev
        rcases hev with hev | rfl
        · exact hround ev hev
        · rfl
      · rw [h]
        refine ⟨?_, fun _ => ⟨next, ?_, rfl⟩⟩
        · intro ev hev
          simp only [List.mem_append, List.mem_cons, List.mem_singleton, List.not_mem_nil,
            or_false] at hev
          rcases hev with hev | rfl | rfl
          · exact hround ev hev
          · rfl
          · rfl
        · simp only [modelReplies_append, hmr]
          rfl
      · obtain ⟨i1, i2⟩ := ih (depth + 1) (by omega) next
          (handleToolCallsRound env resp messages depth st.world).messages
          { st with world := w2 }
        rw [h]
        refine ⟨?_, ?_⟩
        · intro ev hev
          simp only [List.mem_append, List.mem_singleton] at hev
          rcases hev with (hev | rfl) | hev
          · exact hround ev hev
          · rfl
          · exact i1 ev hev
        · intro he
          obtain ⟨last, j1, j2⟩ := i2 he
          refine ⟨last, ?_, j2⟩
          simp only [modelReplies_append, hmr, List.nil_append]
          rw [List.getLast?_append, j1]
          rfl

/-- The tail of a turn in which the summarization query fails: the compression check
made the query and reset the session, and `CompressItems` was not called. -/
theorem afterReply_failed_summary {σ : Type} (env : Env σ) (insights : Bool) (w : σ)
    (prompt e : String)
    (h : Event.simpleQuery prompt (QueryReply.failed e) ∈ (afterReply env insights w).2) :
    env.shouldCompress w env.compressionTrigger = true ∧
    (env.getItemsToCompress w).length > 0 ∧
    prompt = compressionPrompt (env.getItemsToCompress w) ∧
    (env.simpleQuery w prompt).1 = QueryReply.failed e ∧
    (compressionCheck env w).2 =
      [Event.shouldCompress env.compressionTrigger true,
       Event.getItemsToCompress (env.getItemsToCompress w),
       Event.simpleQuery prompt (QueryReply.failed e),
       Event.resetSession] ∧
    (afterReply env insights w).2.filter Event.changesHistory = [] := by
  have hins : ∀ w1, ∀ ev ∈ insightCheck env w1, ev.isCompression = false := by
    intro w1 ev hev
    unfold insightCheck at hev
    rcases List.mem_cons.1 hev with rfl | hev
    · rfl
    · split at hev
      · simp at hev; subst hev; rfl
      · simp at hev
  have hsync : ∀ w1, ∀ ev ∈ (syncProjectTasks env w1).2, ev.isCompression = false := by
    intro w1 ev hev
    unfold syncProjectTasks at hev
    split at hev
    · simp at hev; subst hev; rfl
    · simp at hev
  have hinsH : ∀ w1, (insightCheck env w1).filter Event.changesHistory = [] := by
    intro w1
    unfold insightCheck
    split <;> rfl
  have hsyncH : ∀ w1, (syncProjectTasks env w1).2.filter Event.changesHistory = [] := by
    intro w1
    unfold syncProjectTasks
    split <;> rfl
  unfold afterReply at h ⊢
  simp only [List.mem_append] at h
  have hc : Event.simpleQuery prompt (QueryReply.failed e) ∈ (compressionCheck env w).2 := by
    rcases h with (h | h) | h
    · exact h
    · split at h
      · have := hins _ _ h
        simp [Event.isCompression] at this
      · simp at h
    · have := hsync _ _ h
      simp [Event.isCompression] at this
  have hcc : env.shouldCompress w env.compressionTrigger = true ∧
      (env.getItemsToCompress w).length > 0 ∧
      prompt = compressionPrompt (env.getItemsToCompress w) ∧
      (env.simpleQuery w prompt).1 = QueryReply.failed e ∧
      (compressionCheck env w).2 =
        [Event.shouldCompress env.compressionTrigger true,
         Event.getItemsToCompress (env.getItemsToCompress w),
         Event.simpleQuery prompt (QueryReply.failed e),
         Event.resetSession] := by
    unfold compressionCheck at hc ⊢
    by_cases hs : env.shouldCompress w env.compressionTrigger = true
    · simp only [hs, if_true] at hc ⊢
      by_cases hl : (env.getItemsToCompress w).length > 0
      · simp only [hl, if_true] at hc ⊢
        unfold compressContext at hc ⊢
        simp only at hc ⊢
        rcases hq : (env.simpleQuery w (compressionPrompt (env.getItemsToCompress w))).1 with
          summary | e2
        · rw [hq] at hc
          simp at hc
        · rw [hq] at hc
          simp at hc
          obtain ⟨rfl, rfl⟩ := hc
          refine ⟨trivial, trivial, rfl, hq, ?_⟩
          rfl
      · simp only [hl, if_false] at hc
        simp at hc
    · simp only [hs] at hc
      simp at hc
  obtain ⟨c1, c2, c3, c4, c5⟩ := hcc
  refine ⟨c1, c2, c3, c4, c5, ?_⟩
  simp only [List.filter_append, c5, hsyncH]
  cases insights
  · rfl
  · simp only [if_true, hinsH]
    rfl

/-- C11: when the summarization query of a `Chat` turn fails, `ShouldCompress` held at
the end of the turn, `Chat` still returns without error the content of the last response
of the model as its reply, `CompressItems` is not called (the only calls of the turn that
write to or remove from the history are the two `AddMessage` calls for the user message
and for the reply), and the session is reset all the same. -/
theorem Chat_compression_failure_is_swallowed {σ : Type} (env : Env σ) (userMessage : String)
    (st : AgentState σ) (prompt e : String)
    (h : Event.simpleQuery prompt (QueryReply.failed e) ∈ (Chat env userMessage st).events) :
    (Chat env userMessage st).err = none ∧
    (∃ resp, (modelReplies (Chat env userMessage st).events).getLast? = some (LLMReply.ok resp) ∧
      (Chat env userMessage st).reply = env.getContent resp) ∧
    Event.shouldCompress env.compressionTrigger true ∈ (Chat env userMessage st).events ∧
    (∀ summary, Event.compressItems summary ∉ (Chat env userMessage st).events) ∧
    (Chat env userMessage st).events.filter Event.changesHistory =
      [Event.addMessage "user" userMessage,
       Event.addMessage "assistant" (Chat env userMessage st).reply] ∧
    Event.resetSession ∈ (Chat env userMessage st).events := by
  have key : (Chat env userMessage st).err = none ∧
      (∃ resp, (modelReplies (Chat env userMessage st).events).getLast? =
          some (LLMReply.ok resp) ∧
        (Chat env userMessage st).reply = env.getContent resp) ∧
      Event.shouldCompress env.compressionTrigger true ∈ (Chat env userMessage st).events ∧
      (Chat env userMessage st).events.filter Event.changesHistory =
        [Event.addMessage "user" userMessage,
         Event.addMessage "assistant" (Chat env userMessage st).reply] ∧
      Event.resetSession ∈ (Chat env userMessage st).events := by
    obtain ⟨hp1, _, hp3, _⟩ := prepareChat_events env userMessage st.world
    have hpc : ∀ ev ∈ (prepareChat env userMessage st.world).events,
        ev.isCompression = false := by
      intro ev hev
      unfold prepareChat at hev
      simp only [List.mem_append, List.mem_cons, List.mem_singleton, List.not_mem_nil,
        or_false] at hev
      rcases hev with ((rfl | rfl | rfl) | hev) | rfl
      · rfl
      · rfl
      · rfl
      · split at hev
        · simp at hev; subst hev; rfl
        · simp at hev
      · rfl
    unfold Chat at h ⊢
    simp only at h ⊢
    generalize prepareChat env userMessage st.world = p at *
    rcases hsent : env.chatWithTools p.world p.messages with ⟨reply, w2⟩
    rw [hsent] at h
    cases reply with
    | failed e2 =>
      exfalso
      simp only [List.mem_append, List.mem_singleton] at h
      rcases h with h | h
      · have := hpc _ h
        simp [Event.isCompression] at this
      · simp at h
    | ok resp =>
      simp only at h ⊢
      generalize recordUsage env st resp w2 = st4 at h ⊢
      have hb : modelReplies (p.events ++ [Event.chatWithTools p.messages (LLMReply.ok resp),
          Event.updateTokenUsage resp.usage.promptTokens]) = [LLMReply.ok resp] := by
        rw [modelReplies_append, hp1]; rfl
      have hbh : (p.events ++ [Event.chatWithTools p.messages (LLMReply.ok resp),
          Event.updateTokenUsage resp.usage.promptTokens]).filter Event.changesHistory =
          [Event.addMessage "user" userMessage] := by
        rw [List.filter_append, hp3]; rfl
      have hbc : ∀ ev ∈ p.events ++ [Event.chatWithTools p.messages (LLMReply.ok resp),
          Event.updateTokenUsage resp.usage.promptTokens], ev.isCompression = false := by
        intro ev hev
        simp only [List.mem_append, List.mem_cons, List.mem_singleton, List.not_mem_nil,
          or_false] at hev
        rcases hev with hev | rfl | rfl
        · exact hpc ev hev
        · rfl
        · rfl
      have hsum := handleToolCalls_summary env 11 0 (by omega) resp p.messages st4
      have hrep := handleToolCalls_reply env 11 0 (by omega) resp p.messages st4
      rcases finishTurn_cases env true resp p.messages st4
        (p.events ++ [Event.chatWithTools p.messages (LLMReply.ok resp),
          Event.updateTokenUsage resp.usage.promptTokens]) with
        ⟨hno, hf⟩ | ⟨_, e3, herr, hf⟩ | ⟨_, herr, hf⟩
      · rw [hf] at h ⊢
        simp only [List.mem_append] at h
        have hin : Event.simpleQuery prompt (QueryReply.failed e) ∈
            (afterReply env true
              (env.addMessage st4.world "assistant" (env.getContent resp))).2 := by
          rcases h with (h | h) | h
          · have := hbc _ (List.mem_append.2 h)
            simp [Event.isCompression] at this
          · simp at h
          · exact h
        obtain ⟨_, _, _, _, t5, t6⟩ := afterReply_failed_summary env true _ prompt e hin
        have ht := (isTurnTail_quiet _ (afterReply_isTurnTail env true
          (env.addMessage st4.world "assistant" (env.getContent resp)))).1
        have hmem : ∀ ev ∈ (compressionCheck env
            (env.addMessage st4.world "assistant" (env.getContent resp))).2,
            ev ∈ (afterReply env true
              (env.addMessage st4.world "assistant" (env.getContent resp))).2 := by
          intro ev hev
          unfold afterReply
          simp only [List.mem_append]
          exact Or.inl (Or.inl hev)
        refine ⟨rfl, ⟨resp, ?_, rfl⟩, ?_, ?_, ?_⟩
        · simp only [modelReplies_append, hb, ht, List.append_nil]
          rfl
        · simp only [List.mem_append]
          right
          apply hmem
          rw [t5]
          simp
        · simp only [List.filter_append, hbh, t6, List.append_nil]
          rfl
        · simp only [List.mem_append]
          right
          apply hmem
          rw [t5]
          simp
      · exfalso
        rw [hf] at h
        simp only [List.mem_append] at h
        rcases h with h | h
        · have := hbc _ (List.mem_append.2 h)
          simp [Event.isCompression] at this
        · have := hrep.1 _ h
          simp [Event.isCompression] at this
      · rw [hf] at h ⊢
        simp only [List.mem_append] at h
        have hin : Event.simpleQuery prompt (QueryReply.failed e) ∈
            (afterReply env true (handleToolCalls env resp p.messages 0 st4).state.world).2 := by
          rcases h with (h | h) | h
          · have := hbc _ (List.mem_append.2 h)
            simp [Event.isCompression] at this
          · have := hrep.1 _ h
            simp [Event.isCompression] at this
          · exact h
        obtain ⟨_, _, _, _, t5, t6⟩ := afterReply_failed_summary env true _ prompt e hin
        have ht := (isTurnTail_quiet _ (afterReply_isTurnTail env true
          (handleToolCalls env resp p.messages 0 st4).state.world)).1
        have hmem : ∀ ev ∈ (compressionCheck env
            (handleToolCalls env resp p.messages 0 st4).state.world).2,
            ev ∈ (afterReply env true
              (handleToolCalls env resp p.messages 0 st4).state.world).2 := by
          intro ev hev
          unfold afterReply
          simp only [List.mem_append]
          exact Or.inl (Or.inl hev)
        obtain ⟨last, l1, l2⟩ := hrep.2 herr
        refine ⟨rfl, ⟨last, ?_, l2⟩, ?_, ?_, ?_⟩
        · simp only [modelReplies_append, hb, ht, List.append_nil]
          rw [List.getLast?_append, l1]
          rfl
        · simp only [List.mem_append]
          right
          apply hmem
          rw [t5]
          simp
        · simp only [List.filter_append, hbh, t6, List.append_nil, (hsum.2.2 herr).2]
          rfl
        · simp only [List.mem_append]
          right
          apply hmem
          rw [t5]
          simp
  obtain ⟨k1, k2, k3, k4, k5⟩ := key
  refine ⟨k1, k2, k3, ?_, k4, k5⟩
  intro summary hmem
  have : Event.compressItems summary ∈
      (Chat env userMessage st).events.filter Event.changesHistory := by
    rw [List.mem_filter]
    exact ⟨hmem, rfl⟩
  rw [k4] at this
  simp at this

/-- C11 at a session that is over the compression trigger, with a summarization query
that fails: the reply "done" is returned without error. -/
theorem Chat_compression_failure_is_swallowed_witness :
    (Chat failingSummaryEnv "hi" freshAgent).reply = "done" ∧
    (Chat failingSummaryEnv "hi" freshAgent).err = none ∧
    (∀ summary,
      Event.compressItems summary ∉ (Chat failingSummaryEnv "hi" freshAgent).events) :=
  have h := Chat_compression_failure_is_swallowed failingSummaryEnv "hi" freshAgent
    (compressionPrompt [⟨"user", "old question"⟩]) "summary timeout"
    (by set_option maxRecDepth 100000 in decide)
  ⟨by decide, h.1, h.2.2.2.1⟩

/-- C12: `requestTelegramApproval` returns nil exactly when the request was sent and the
`select` received the value true from the approval channel; a failure to send the
request, a received false, and a finished context (the approval timeout elapsed or the
session context was cancelled) each make it return an error. -/
theorem requestTelegramApproval_nil_iff_approved {σ : Type} (env : Env σ)
    (toolName args : String) (w : σ) :
    ((requestTelegramApproval env toolName args w).1 = none ↔
      (env.sendMessageWithButtons w (env.approvalMessage toolName args)).1 = none ∧
      (env.awaitApproval
        (env.sendMessageWithButtons w (env.approvalMessage toolName args)).2).1 =
        ApprovalSignal.received true) ∧
    (∀ e, (env.sendMessageWithButtons w (env.approvalMessage toolName args)).1 = some e →
      (requestTelegramApproval env toolName args w).1 =
        some ("failed to send approval request: " ++ e)) ∧
    ((env.sendMessageWithButtons w (env.approvalMessage toolName args)).1 = none →
      (env.awaitApproval
        (env.sendMessageWithButtons w (env.approvalMessage toolName args)).2).1 =
        ApprovalSignal.received false →
      (requestTelegramApproval env toolName args w).1 = some "user denied the operation") ∧
    ((env.sendMessageWithButtons w (env.approvalMessage toolName args)).1 = none →
      (env.awaitApproval
        (env.sendMessageWithButtons w (env.approvalMessage toolName args)).2).1 =
        ApprovalSignal.ctxDone →
      (requestTelegramApproval env toolName args w).1 =
        some ("approval request timed out after " ++
          env.approvalTimeoutText
            (env.sendMessageWithButtons w (env.approvalMessage toolName args)).2)) := by
  unfold requestTelegramApproval
  simp only
  rcases hs : env.sendMessageWithButtons w (env.approvalMessage toolName args) with ⟨se, w1⟩
  cases se with
  | some e => simp
  | none =>
    simp only
    rcases ha : env.awaitApproval w1 with ⟨sig, w2⟩
    cases sig with
    | received approved => cases approved <;> simp
    | ctxDone => simp

theorem auditLines_spec (u : UnicodeTables) (a : Auditor) (lines : List String) :
    ∀ k : Nat,
      (auditLines u a k lines = none ↔ ∀ line ∈ lines, AuditCommand u a line = none) ∧
      (∀ err, auditLines u a k lines = some err →
        ∃ (i : Nat) (line e : String), lines[i]? = some line ∧
          AuditCommand u a line = some e ∧
          (∀ j < i, ∀ l, lines[j]? = some l → AuditCommand u a l = none) ∧
          err = "line " ++ toString (k + i + 1) ++ ": " ++ e) := by
  induction lines with
  | nil =>
    intro k
    simp [auditLines]
  | cons line rest ih =>
    intro k
    rcases hl : AuditCommand u a line with _ | e
    · obtain ⟨i1, i2⟩ := ih (k + 1)
      simp only [auditLines, hl]
      refine ⟨?_, ?_⟩
      · rw [i1]
        simp [hl]
      · intro err herr
        obtain ⟨i, line2, e2, h1, h2, h3, h4⟩ := i2 err herr
        refine ⟨i + 1, line2, e2, by simpa using h1, h2, ?_, ?_⟩
        · intro j hj l hjl
          cases j with
          | zero =>
            simp at hjl
            rw [← hjl]
            exact hl
          | succ j =>
            simp at hjl
            exact h3 j (by omega) l hjl
        · rw [h4]
          have : k + 1 + i + 1 = k + (i + 1) + 1 := by omega
          rw [this]
    · simp only [auditLines, hl]
      refine ⟨?_, ?_⟩
      · simp [hl]
      · intro err herr
        refine ⟨0, line, e, by simp, hl, ?_, ?_⟩
        · intro j hj
          omega
        · simp at herr
          rw [← herr]

/-- C15: `AuditScript` accepts a script exactly when `AuditCommand` accepts every one of
its lines (the pieces of the content between the line feeds), and an error it returns is
"line ", the 1-based number of the first line that `AuditCommand` rejects, ": " and the
error of `AuditCommand` for that line. -/
theorem AuditScript_reports_first_rejected_line (u : UnicodeTables) (a : Auditor)
    (content : String) :
    (AuditScript u a content = none ↔
      ∀ line ∈ Split content '\n', AuditCommand u a line = none) ∧
    ((∃ err, AuditScript u a content = some err) ↔
      ∃ line ∈ Split content '\n', ∃ e, AuditCommand u a line = some e) ∧
    (∀ err, AuditScript u a content = some err →
      ∃ (i : Nat) (line e : String), (Split content '\n')[i]? = some line ∧
        AuditCommand u a line = some e ∧
        (∀ j < i, ∀ l, (Split content '\n')[j]? = some l → AuditCommand u a l = none) ∧
        err = "line " ++ toString (i + 1) ++ ": " ++ e) := by
  obtain ⟨h1, h2⟩ := auditLines_spec u a (Split content '\n') 0
  refine ⟨h1, ?_, ?_⟩
  · constructor
    · rintro ⟨err, herr⟩
      obtain ⟨i, line, e, g1, g2, _, _⟩ := h2 err herr
      exact ⟨line, (List.mem_iff_getElem?.2 ⟨i, g1⟩), e, g2⟩
    · rintro ⟨line, hmem, e, he⟩
      rcases hres : AuditScript u a content with _ | err
      · have := (h1.1 hres) line hmem
        rw [this] at he
        cases he
      · exact ⟨err, rfl⟩
  · intro err herr
    obtain ⟨i, line, e, g1, g2, g3, g4⟩ := h2 err herr
    refine ⟨i, line, e, g1, g2, g3, ?_⟩
    rw [g4]
    simp

/-- C13 fails on the code: for the project directory `/home/user/project`, the path
`/home/user/project-evil/secret.txt` is absolute and clean, it is not the project
directory and does not lie beneath it, and `AuditPath` returns nil for it, because the
text of the project directory is a prefix of the text of the path. -/
theorem AuditPath_accepts_sibling_directory :
    Abs ("/", none) "/home/user/project" = ("/home/user/project", none) ∧
    Abs ("/", none) "/home/user/project-evil/secret.txt" =
      ("/home/user/project-evil/secret.txt", none) ∧
    ¬ withinDirectory "/home/user/project" "/home/user/project-evil/secret.txt" ∧
    AuditPath ("/", none) ⟨"/home/user/project", []⟩ "/home/user/project-evil/secret.txt" =
      none := by
  decide

theorem intercalate_cons_of_ne_nil {α : Type} (sep x : List α) (ys : List (List α))
    (h : ys ≠ []) :
    List.intercalate sep (x :: ys) = x ++ sep ++ List.intercalate sep ys := by
  cases ys with
  | nil => exact absurd rfl h
  | cons y ys => simp [List.intercalate, List.intersperse]

theorem fieldsAux_ne_nil (l : List Char) :
    ∀ cur : List Char, (cur ≠ [] ∨ ∃ c ∈ l, isSpaceRune c = false) → fieldsAux cur l ≠ [] := by
  induction l with
  | nil =>
    intro cur h
    rcases h with h | ⟨c, hc, _⟩
    · cases cur with
      | nil => exact absurd rfl h
      | cons a cur => simp [fieldsAux]
    · simp at hc
  | cons c l ih =>
    intro cur h
    by_cases hs : isSpaceRune c = true
    · cases cur with
      | nil =>
        simp only [fieldsAux, hs, if_true, List.isEmpty_nil]
        apply ih
        right
        rcases h with h | ⟨d, hd, hd2⟩
        · exact absurd rfl h
        · rcases List.mem_cons.1 hd with rfl | hd
          · rw [hs] at hd2
            cases hd2
          · exact ⟨d, hd, hd2⟩
      | cons a cur => simp [fieldsAux, hs]
    · simp only [fieldsAux, hs]
      apply ih
      left
      simp

theorem normalizedRunes_nonspace (cur l : List Char) (c : Char) (h : isSpaceRune c = false) :
    normalizedRunes cur (c :: l) = normalizedRunes (c :: cur) l := by
  simp [normalizedRunes, fieldsAux, h]

theorem normalizedRunes_space_nil (l : List Char) (c : Char) (h : isSpaceRune c = true) :
    normalizedRunes [] (c :: l) = normalizedRunes [] l := by
  simp [normalizedRunes, fieldsAux, h]

theorem normalizedRunes_space (cur l : List Char) (c : Char) (h : isSpaceRune c = true)
    (hcur : cur ≠ []) (hl : ∃ d ∈ l, isSpaceRune d = false) :
    normalizedRunes cur (c :: l) = cur.reverse ++ ' ' :: normalizedRunes [] l := by
  have hne := fieldsAux_ne_nil l [] (Or.inr hl)
  cases cur with
  | nil => exact absurd rfl hcur
  | cons a cur =>
    simp only [normalizedRunes, fieldsAux, h, if_true, List.isEmpty_cons, Bool.false_eq_true,
      if_false]
    rw [intercalate_cons_of_ne_nil _ _ _ hne]
    simp

theorem normalizedRunes_starts (l : List Char) :
    ∀ cur : List Char, ∃ Y, normalizedRunes cur l = cur.reverse ++ Y := by
  induction l with
  | nil =>
    intro cur
    refine ⟨[], ?_⟩
    cases cur with
    | nil => simp [normalizedRunes, fieldsAux, List.intercalate]
    | cons a cur => simp [normalizedRunes, fieldsAux, List.intercalate]
  | cons c l ih =>
    intro cur
    by_cases hs : isSpaceRune c = true
    · cases cur with
      | nil => exact ⟨normalizedRunes [] (c :: l), by simp⟩
      | cons a cur =>
        simp only [normalizedRunes, fieldsAux, hs, if_true, List.isEmpty_cons, Bool.false_eq_true,
          if_false]
        by_cases hne : fieldsAux [] l = []
        · rw [hne]
          exact ⟨[], by simp [List.intercalate]⟩
        · rw [intercalate_cons_of_ne_nil _ _ _ hne]
          exact ⟨_, by rw [List.append_assoc]⟩
    · simp only [Bool.not_eq_true] at hs
      rw [normalizedRunes_nonspace _ _ _ hs]
      obtain ⟨Y, hY⟩ := ih (c :: cur)
      exact ⟨c :: Y, by rw [hY]; simp⟩

/-- A pattern kept by the normalization is found again, after the field being read, in
the normalized runes. -/
theorem normalizedRunes_keeps (P : List Char) :
    ∀ (afterField textFollows : Bool) (cur B : List Char),
      keptByNormalization afterField P textFollows = true →
      (afterField = true → cur ≠ []) →
      (textFollows = true → ∃ c ∈ B, isSpaceRune c = false) →
      ∃ Y, normalizedRunes cur (P ++ B) = cur.reverse ++ P ++ Y := by
  induction P with
  | nil =>
    intro afterField textFollows cur B _ _ _
    obtain ⟨Y, hY⟩ := normalizedRunes_starts B cur
    exact ⟨Y, by simpa using hY⟩
  | cons c P ih =>
    intro afterField textFollows cur B hk hcur hB
    by_cases hs : isSpaceRune c = true
    · simp only [keptByNormalization, hs, if_true, Bool.and_eq_true, decide_eq_true_eq] at hk
      obtain ⟨⟨⟨hc, haf⟩, hnext⟩, hrest⟩ := hk
      have hfollow : ∃ d ∈ P ++ B, isSpaceRune d = false := by
        cases P with
        | nil =>
          simp only at hnext
          simpa using hB hnext
        | cons d P =>
          simp only [Bool.not_eq_true'] at hnext
          exact ⟨d, by simp, hnext⟩
      obtain ⟨Y, hY⟩ := ih false textFollows [] B hrest (by simp) hB
      refine ⟨Y, ?_⟩
      rw [List.cons_append, normalizedRunes_space _ _ _ hs (hcur haf) hfollow, hY, hc]
      simp
    · simp only [Bool.not_eq_true] at hs
      simp only [keptByNormalization, hs] at hk
      obtain ⟨Y, hY⟩ := ih true textFollows (c :: cur) B hk (by simp) hB
      refine ⟨Y, ?_⟩
      rw [List.cons_append, normalizedRunes_nonspace _ _ _ hs, hY]
      simp

/-- The runes before a pattern only put runes before it in the normalized runes. -/
theorem normalizedRunes_skips (A : List Char) :
    ∀ (cur l : List Char), (∃ d ∈ l, isSpaceRune d = false) →
      ∃ X cur2, normalizedRunes cur (A ++ l) = X ++ normalizedRunes cur2 l := by
  induction A with
  | nil =>
    intro cur l _
    exact ⟨[], cur, rfl⟩
  | cons c A ih =>
    intro cur l hl
    by_cases hs : isSpaceRune c = true
    · cases cur with
      | nil =>
        obtain ⟨X, cur2, h⟩ := ih [] l hl
        exact ⟨X, cur2, by rw [List.cons_append, normalizedRunes_space_nil _ _ hs, h]⟩
      | cons a cur =>
        obtain ⟨X, cur2, h⟩ := ih [] l hl
        have hfollow : ∃ d ∈ A ++ l, isSpaceRune d = false := by
          obtain ⟨d, hd, hd2⟩ := hl
          exact ⟨d, by simp [hd], hd2⟩
        refine ⟨(a :: cur).reverse ++ ' ' :: X, cur2, ?_⟩
        rw [List.cons_append, normalizedRunes_space _ _ _ hs (by simp) hfollow, h]
        simp
    · simp only [Bool.not_eq_true] at hs
      obtain ⟨X, cur2, h⟩ := ih (c :: cur) l hl
      exact ⟨X, cur2, by rw [List.cons_append, normalizedRunes_nonspace _ _ _ hs, h]⟩

/-- A pattern kept by the normalization that starts with a rune other than white space
is a part of the normalized runes of every text around it. -/
theorem infix_normalizedRunes (A P B : List Char) (textFollows : Bool)
    (hP : ∃ c rest, P = c :: rest ∧ isSpaceRune c = false)
    (hk : keptByNormalization false P textFollows = true)
    (hB : textFollows = true → ∃ c ∈ B, isSpaceRune c = false) :
    P <:+: normalizedRunes [] (A ++ P ++ B) := by
  obtain ⟨c, rest, rfl, hc⟩ := hP
  obtain ⟨X, cur2, h⟩ := normalizedRunes_skips A [] (c :: rest ++ B) ⟨c, by simp, hc⟩
  obtain ⟨Y, hY⟩ := normalizedRunes_keeps (c :: rest) false textFollows cur2 B hk (by simp) hB
  rw [List.append_assoc, h, hY]
  exact ⟨X ++ cur2.reverse, Y, by simp⟩

theorem lower_letter (n : Nat) (h1 : 65 ≤ n) (h2 : n ≤ 90) :
    isSpaceRune (Char.ofNat (n + 32)) = false ∧ (Char.ofNat (n + 32)).toNat < 128 := by
  interval_cases n <;> decide

theorem isSpaceRune_letter (c : Char) (h1 : 65 ≤ c.toNat) (h2 : c.toNat ≤ 90) :
    isSpaceRune c = false := by
  unfold isSpaceRune
  simp
  omega

theorem isSpaceRune_toLowerRune (u : UnicodeTables) (c : Char) :
    isSpaceRune (toLowerRune u c) = isSpaceRune c := by
  unfold toLowerRune
  split
  · unfold Char.toLower
    simp only
    split
    · rename_i h
      rw [(lower_letter c.toNat h.1 h.2).1, isSpaceRune_letter c h.1 h.2]
    · rfl
  · exact u.lower_isSpace c

theorem toNat_lt_of_toLower (c : Char) (h : c.toLower.toNat < 128) : c.toNat < 128 := by
  unfold Char.toLower at h
  simp only at h
  split at h
  · omega
  · exact h

theorem map_toLowerRune_ascii (u : UnicodeTables) (l : List Char)
    (h : ∀ c ∈ l, c.toNat < 128) : l.map (toLowerRune u) = l.map Char.toLower := by
  apply List.map_congr_left
  intro c hc
  simp [toLowerRune, h c hc]

/-- A case variant of a text whose lowered runes are ASCII is lowered by `ToLower` to
the lowered text. -/
theorem map_toLowerRune_variant (u : UnicodeTables) (variant lowered : List Char)
    (hv : variant.map Char.toLower = lowered) (h : ∀ c ∈ lowered, c.toNat < 128) :
    variant.map (toLowerRune u) = lowered := by
  rw [← hv]
  apply map_toLowerRune_ascii
  intro c hc
  apply toNat_lt_of_toLower
  apply h
  rw [← hv]
  exact List.mem_map_of_mem _ hc

theorem firstContained_of_mem (u : UnicodeTables) (normalized : String) (patterns : List String)
    (h : ∃ p ∈ patterns, Contains normalized (ToLower u p) = true) :
    ∃ p ∈ patterns, firstContained u normalized patterns = some p := by
  induction patterns with
  | nil =>
    obtain ⟨p, hp, _⟩ := h
    simp at hp
  | cons q rest ih =>
    by_cases hq : Contains normalized (ToLower u q) = true
    · exact ⟨q, by simp, by simp [firstContained, hq]⟩
    · obtain ⟨p, hp, hc⟩ := h
      rcases List.mem_cons.1 hp with rfl | hp
      · exact absurd hc hq
      · obtain ⟨p2, hp2, h2⟩ := ih ⟨p, hp, hc⟩
        exact ⟨p2, by simp [hp2], by simp [firstContained, hq, h2]⟩

/-- What the patterns of `DangerousPatterns` are made of: ASCII runes, a first rune that
is not white space, and single spaces between other runes, or one last space. -/
theorem DangerousPatterns_shape :
    ∀ p ∈ DangerousPatterns,
      (∀ c ∈ p.data, c.toNat < 128) ∧
      (∀ c ∈ p.data.map Char.toLower, c.toNat < 128) ∧
      startsWithText (p.data.map Char.toLower) = true ∧
      keptByNormalization false (p.data.map Char.toLower) true = true ∧
      (p.data.getLast? ≠ some ' ' →
        keptByNormalization false (p.data.map Char.toLower) false = true) := by
  decide

/-- C14, amended: for every command that holds an entry of `DangerousPatterns` as a
substring in some letter case, where an entry that ends with a space ("format ",
"wget ", "curl ") is followed somewhere in the command by a rune that is not white
space, `AuditCommand` returns a "dangerous pattern detected" error, for an entry of the
list. -/
theorem AuditCommand_detects_dangerous_pattern (u : UnicodeTables) (a : Auditor)
    (command pattern : String) (hp : pattern ∈ DangerousPatterns)
    (ho : occursWithText command pattern) :
    ∃ p ∈ DangerousPatterns,
      AuditCommand u a command = some ("dangerous pattern detected: " ++ p) := by
  obtain ⟨s1, s2, s3, s4, s5⟩ := DangerousPatterns_shape pattern hp
  obtain ⟨before, variant, after, hcmd, hvar, htext⟩ := ho
  have hlow : (ToLower u pattern).data = pattern.data.map Char.toLower := by
    simp only [ToLower]
    exact map_toLowerRune_ascii u _ s1
  have hv := map_toLowerRune_variant u variant _ hvar s2
  have hcontains : Contains (Join (Fields (ToLower u command)) " ") (ToLower u pattern) =
      true := by
    simp only [Contains, decide_eq_true_eq, hlow]
    have hn : (Join (Fields (ToLower u command)) " ").data =
        normalizedRunes []
          (before.map (toLowerRune u) ++ pattern.data.map Char.toLower ++
            after.map (toLowerRune u)) := by
      simp only [Join, Fields, ToLower, normalizedRunes, hcmd, List.map_append, hv,
        List.map_map]
      congr 1
      have hid : (String.data ∘ String.mk) = id := funext fun _ => rfl
      simp [hid]
    rw [hn]
    have hstart : ∃ c rest, pattern.data.map Char.toLower = c :: rest ∧
        isSpaceRune c = false := by
      cases hl : pattern.data.map Char.toLower with
      | nil =>
        rw [hl] at s3
        simp [startsWithText] at s3
      | cons c rest =>
        rw [hl] at s3
        exact ⟨c, rest, rfl, by simpa [startsWithText] using s3⟩
    by_cases hend : pattern.data.getLast? = some ' '
    · apply infix_normalizedRunes _ _ _ true hstart s4
      intro _
      obtain ⟨c, hc, hc2⟩ := htext hend
      exact ⟨toLowerRune u c, List.mem_map_of_mem _ hc, by rw [isSpaceRune_toLowerRune, hc2]⟩
    · exact infix_normalizedRunes _ _ _ false hstart (s5 hend) (fun h => by cases h)
  obtain ⟨p, hp1, hp2⟩ := firstContained_of_mem u _ DangerousPatterns ⟨pattern, hp, hcontains⟩
  exact ⟨p, hp1, by simp only [AuditCommand, hp2]⟩

/-- C14, amended, at the command `CURL   http://x`: it holds "curl " in capital letters,
followed by text. -/
theorem AuditCommand_detects_dangerous_pattern_witness :
    ∃ p ∈ DangerousPatterns,
      AuditCommand asciiTables ⟨"/srv/project", []⟩ "CURL   http://x" =
        some ("dangerous pattern detected: " ++ p) :=
  AuditCommand_detects_dangerous_pattern asciiTables ⟨"/srv/project", []⟩ "CURL   http://x"
    "curl " (by decide)
    ⟨[], "CURL ".data, "  http://x".data, by decide, by decide,
      fun _ => ⟨'h', by decide, by decide⟩⟩

/-- C14 as stated fails: the command "curl " holds the entry "curl " of
`DangerousPatterns` as a substring, and `AuditCommand` returns nil for it, because the
normalization drops the space at the end of the command before the entries are looked
for. -/
theorem AuditCommand_misses_pattern_at_end_of_command :
    "curl " ∈ DangerousPatterns ∧
    "curl ".data <:+: "curl ".data ∧
    Join (Fields (ToLower asciiTables "curl ")) " " = "curl" ∧
    AuditCommand asciiTables ⟨"/srv/project", []⟩ "curl " = none := by
  decide

/-- C16 fails on the code: `IsExpired` of credentials that are not nil compares the
current time with `ExpiresAt` itself; for credentials that expire at 1000000 and the time
800000, which is within 5 minutes (300000 ms) of the expiry, it returns false, while
`NeedsRefresh` returns true.  For nil credentials it returns true. -/
theorem IsExpired_applies_no_buffer :
    (∀ (c : OAuthCredentials) (now : Int),
      IsExpired (some c) now = decide (now ≥ c.expiresAt)) ∧
    (∀ now : Int, IsExpired none now = true) ∧
    (800000 : Int) ≥ 1000000 - 300000 ∧
    IsExpired (some ⟨"anthropic", "access", "refresh", 1000000⟩) 800000 = false ∧
    NeedsRefresh (some ⟨"anthropic", "access", "refresh", 1000000⟩) 800000 = true := by
  refine ⟨fun _ _ => rfl, fun _ => rfl, by decide, by decide, by decide⟩

theorem splitFirst_state (l : List Char) :
    ∀ cur : List Char,
      (if ((splitFirst '#' cur l).map String.mk).length = 2 then
        ((splitFirst '#' cur l).map String.mk).getD 1 "" else "") =
      String.mk ((l.dropWhile (fun c => c ≠ '#')).drop 1) := by
  induction l with
  | nil =>
    intro cur
    simp [splitFirst]
  | cons c rest ih =>
    intro cur
    by_cases hc : c = '#'
    · simp [splitFirst, hc]
    · simp only [splitFirst, hc, if_false]
      rw [ih]
      simp [List.dropWhile, hc]

/-- C17, amended: for every authorization code and every expected state that is not
empty, when the text after the first `#` of the code (the empty text when there is no
`#`) differs from the expected state, `ExchangeCode` returns no credentials and the
"OAuth state mismatch" error, and sends no request to the token endpoint. -/
theorem ExchangeCode_rejects_state_mismatch {σ : Type} (ep : TokenEndpoint σ)
    (authCode verifier expectedState : String) (w : σ)
    (hne : expectedState ≠ "")
    (hs : stateAfterHash authCode ≠ expectedState) :
    (ExchangeCode ep authCode verifier expectedState w).err =
      some "OAuth state mismatch (possible CSRF attack)" ∧
    (ExchangeCode ep authCode verifier expectedState w).credentials = none ∧
    (ExchangeCode ep authCode verifier expectedState w).requests = [] ∧
    (ExchangeCode ep authCode verifier expectedState w).world = w := by
  have hstate := splitFirst_state authCode.data []
  unfold stateAfterHash at hs
  rw [← hstate] at hs
  unfold ExchangeCode
  simp only [SplitN2]
  rw [if_pos ⟨hne, hs⟩]
  exact ⟨rfl, rfl, rfl, rfl⟩

/-- C17, amended, at the code `abc#xyz` and the expected state `other`. -/
theorem ExchangeCode_rejects_state_mismatch_witness :
    (ExchangeCode scenarioEndpoint "abc#xyz" "verifier" "other" 0).err =
      some "OAuth state mismatch (possible CSRF attack)" ∧
    (ExchangeCode scenarioEndpoint "abc#xyz" "verifier" "other" 0).requests = [] :=
  have h := ExchangeCode_rejects_state_mismatch scenarioEndpoint "abc#xyz" "verifier" "other" 0
    (by decide) (by decide)
  ⟨h.1, h.2.2.1⟩

/-- C17 as stated fails: with the empty expected state, the code `abc#xyz`, whose state
`xyz` differs from it, is not rejected: a request is sent to the token endpoint and the
credentials it grants are returned. -/
theorem ExchangeCode_skips_validation_for_empty_expected_state :
    stateAfterHash "abc#xyz" = "xyz" ∧
    (ExchangeCode scenarioEndpoint "abc#xyz" "verifier" "" 0).err = none ∧
    (ExchangeCode scenarioEndpoint "abc#xyz" "verifier" "" 0).credentials =
      some ⟨"anthropic", "access", "refresh", 4600000⟩ ∧
    (ExchangeCode scenarioEndpoint "abc#xyz" "verifier" "" 0).requests.map PostRequest.url =
      [OAuthTokenURL] := by
  decide

theorem mem_dropLast_cons {α : Type} (a x : α) (l : List α) (h : x ∈ (a :: l).dropLast) :
    x = a ∨ x ∈ l.dropLast := by
  cases l with
  | nil => simp at h
  | cons b l =>
    simp only [List.dropLast_cons₂, List.mem_cons] at h
    exact h

theorem retryLoop_spec {σ : Type} (env : RetryEnv σ) (config : RetryConfig) :
    ∀ (fuel : Nat) (i delay : Int) (lastErr : Option String) (w : σ),
      i + fuel = config.maxRetries + 1 →
      (invocations (retryLoop env config fuel i delay lastErr w).calls).length ≤ fuel ∧
      (fuel > 0 → 1 ≤ (invocations (retryLoop env config fuel i delay lastErr w).calls).length) ∧
      (∀ x ∈ (invocations (retryLoop env config fuel i delay lastErr w).calls).dropLast,
        x ≠ none) ∧
      ((retryLoop env config fuel i delay lastErr w).err = none ↔
        none ∈ invocations (retryLoop env config fuel i delay lastErr w).calls) ∧
      (∀ e0, (retryLoop env config fuel i delay lastErr w).err = some e0 →
        (invocations (retryLoop env config fuel i delay lastErr w).calls).length = fuel ∧
        (fuel > 0 → ∃ e,
          (invocations (retryLoop env config fuel i delay lastErr w).calls).getLast? =
            some (some e) ∧
          e0 = retryError config.maxRetries (some e))) := by
  intro fuel
  induction fuel with
  | zero =>
    intro i delay lastErr w _
    simp [retryLoop, invocations]
  | succ fuel ih =>
    intro i delay lastErr w hi
    have hle : i ≤ config.maxRetries := by omega
    simp only [retryLoop, hle, if_true]
    rcases hop : env.operation w with ⟨err, w1⟩
    cases err with
    | none =>
      simp [invocations, RetryCall.invocation]
    | some e =>
      simp only
      by_cases hlast : i = config.maxRetries
      · simp only [hlast, if_true]
        have hf : fuel = 0 := by omega
        simp [invocations, RetryCall.invocation, hf]
      · simp only [hlast, if_false]
        have hpos : fuel > 0 := by omega
        obtain ⟨i1, i2, i3, i4, i5⟩ := ih (i + 1)
          (if wrapInt64 (delay * 2) > config.maxDelay then config.maxDelay
            else wrapInt64 (delay * 2))
          (some e) (env.sleep (env.jittered w1 delay config.jitterFactor).2
            (env.jittered w1 delay config.jitterFactor).1) (by omega)
        generalize retryLoop env config fuel (i + 1) _ (some e) _ = r at i1 i2 i3 i4 i5
        have hinv : invocations (RetryCall.operation (some e) ::
            RetryCall.sleep (env.jittered w1 delay config.jitterFactor).1 :: r.calls) =
            some e :: invocations r.calls := by
          simp [invocations, RetryCall.invocation]
        simp only [hinv]
        refine ⟨by simp; omega, fun _ => by simp, ?_, ?_, ?_⟩
        · intro x hx
          rcases mem_dropLast_cons _ _ _ hx with rfl | hx
          · simp
          · exact i3 x hx
        · rw [i4]
          simp
        · intro e0 he0
          obtain ⟨j1, j2⟩ := i5 e0 he0
          refine ⟨by simp [j1], fun _ => ?_⟩
          obtain ⟨e2, k1, k2⟩ := j2 hpos
          refine ⟨e2, ?_, k2⟩
          have hne : invocations r.calls ≠ [] := by
            intro hnil
            rw [hnil] at k1
            simp at k1
          obtain ⟨b, t, hbt⟩ := List.exists_cons_of_ne_nil hne
          rw [hbt] at k1 ⊢
          rw [List.getLast?_cons_cons]
          exact k1

/-- C18: for every configuration with `MaxRetries = n ≥ 0` and every operation,
`ExecuteWithRetry` invokes the operation at least once and at most `n + 1` times, every
invocation before the last one returned an error, it returns nil exactly when some
invocation returned nil, and otherwise the operation was invoked `n + 1` times and the
error returned is "operation failed after n retries: " followed by the error of the
last invocation. -/
theorem ExecuteWithRetry_retries_until_success {σ : Type} (env : RetryEnv σ)
    (config : RetryConfig) (w : σ) (h : 0 ≤ config.maxRetries) :
    1 ≤ (invocations (ExecuteWithRetry env config w).calls).length ∧
    ((invocations (ExecuteWithRetry env config w).calls).length : Int) ≤
      config.maxRetries + 1 ∧
    (∀ x ∈ (invocations (ExecuteWithRetry env config w).calls).dropLast, x ≠ none) ∧
    ((ExecuteWithRetry env config w).err = none ↔
      none ∈ invocations (ExecuteWithRetry env config w).calls) ∧
    (∀ e0, (ExecuteWithRetry env config w).err = some e0 →
      ((invocations (ExecuteWithRetry env config w).calls).length : Int) =
        config.maxRetries + 1 ∧
      ∃ e, (invocations (ExecuteWithRetry env config w).calls).getLast? = some (some e) ∧
        e0 = "operation failed after " ++ toString config.maxRetries ++ " retries: " ++ e) := by
  have hfuel : (0 : Int) + ((config.maxRetries + 1).toNat : Int) = config.maxRetries + 1 := by
    rw [Int.toNat_of_nonneg (by omega)]
    omega
  obtain ⟨i1, i2, i3, i4, i5⟩ := retryLoop_spec env config (config.maxRetries + 1).toNat 0
    config.initialDelay none w hfuel
  have hpos : (config.maxRetries + 1).toNat > 0 := by omega
  unfold ExecuteWithRetry
  refine ⟨i2 hpos, by omega, i3, i4, ?_⟩
  intro e0 he0
  obtain ⟨j1, j2⟩ := i5 e0 he0
  obtain ⟨e, k1, k2⟩ := j2 hpos
  exact ⟨by omega, e, k1, k2⟩

/-- C18 at an operation that always fails and `MaxRetries = 2`: 3 invocations, and the
error wraps the error of the third. -/
theorem ExecuteWithRetry_retries_until_success_witness :
    invocations (ExecuteWithRetry brokenOperation ⟨2, 1000, 1500, 200⟩ 0).calls =
      [some "failure 0", some "failure 1", some "failure 2"] ∧
    (ExecuteWithRetry brokenOperation ⟨2, 1000, 1500, 200⟩ 0).err =
      some "operation failed after 2 retries: failure 2" ∧
    (∀ x ∈ (invocations (ExecuteWithRetry brokenOperation ⟨2, 1000, 1500, 200⟩ 0).calls).dropLast,
      x ≠ none) :=
  ⟨by decide, by decide,
    (ExecuteWithRetry_retries_until_success brokenOperation ⟨2, 1000, 1500, 200⟩ 0
      (by decide)).2.2.1⟩

/-- The calls of `handleToolCalls` are events of the conversation with the model and its
tools. -/
theorem handleToolCalls_isDialogue {σ : Type} (env : Env σ) :
    ∀ (n depth : Nat), 11 - depth ≤ n →
      ∀ (resp : ChatResponse) (messages : List Message) (st : AgentState σ),
        ∀ ev ∈ (handleToolCalls env resp messages depth st).events, ev.isDialogue = true := by
  intro n
  induction n with
  | zero =>
    intro depth hd resp messages st
    rcases handleToolCalls_cases env resp messages depth st with ⟨_, h⟩ | ⟨h, _⟩
    · rw [h]
      intro ev hev
      simp at hev
    · omega
  | succ n ih =>
    intro depth hd resp messages st
    rcases handleToolCalls_cases env resp messages depth st with ⟨_, h⟩ | ⟨hle, reply, w2, _, h⟩
    · rw [h]
      intro ev hev
      simp at hev
    · obtain ⟨rest, hre, hrest, _, _, _, _⟩ :=
        handleToolCallsRound_events env resp messages depth st.world
      have hround : ∀ ev ∈ (handleToolCallsRound env resp messages depth st.world).events,
          ev.isDialogue = true := by
        intro ev hev
        rw [hre] at hev
        rcases List.mem_cons.1 hev with rfl | hev
        · rfl
        · have := hrest ev hev
          cases ev <;> simp [Event.isToolRound] at this <;> rfl
      rcases h with ⟨e, _, h⟩ | ⟨next, _, _, h⟩ | ⟨next, _, _, h⟩
      · rw [h]
        intro ev hev
        simp only [List.mem_append, List.mem_singleton] at hev
        rcases hev with hev | rfl
        · exact hround ev hev
        · rfl
      · rw [h]
        intro ev hev
        simp only [List.mem_append, List.mem_cons, List.mem_singleton, List.not_mem_nil,
          or_false] at hev
        rcases hev with hev | rfl | rfl
        · exact hround ev hev
        · rfl
        · rfl
      · have i1 := ih (depth + 1) (by omega) next
          (handleToolCallsRound env resp messages depth st.world).messages
          { st with world := w2 }
        rw [h]
        intro ev hev
        simp only [List.mem_append, List.mem_singleton] at hev
        rcases hev with (hev | rfl) | hev
        · exact hround ev hev
        · rfl
        · exact i1 ev hev

theorem rollbackEdits_cons (host : Host) (m : Manager) (edit : EditRecord)
    (rest : List EditRecord) (fs : Files) :
    rollbackEdits host m (edit :: rest) fs =
      if edit.applied then
        match rollbackFileEdit host m fs edit with
        | (some e, fs1) =>
          (some ("failed to rollback edit " ++ edit.id ++ ": " ++ e), edit :: rest, fs1)
        | (none, fs1) =>
          ((rollbackEdits host m rest fs1).1,
            { edit with applied := false } :: (rollbackEdits host m rest fs1).2.1,
            (rollbackEdits host m rest fs1).2.2)
      else
        ((rollbackEdits host m rest fs).1, edit :: (rollbackEdits host m rest fs).2.1,
          (rollbackEdits host m rest fs).2.2) := by
  rfl

theorem rollbackEdits_append (host : Host) (m : Manager) (a b : List EditRecord) :
    ∀ fs : Files,
      rollbackEdits host m (a ++ b) fs =
        match (rollbackEdits host m a fs).1 with
        | some e => (some e, (rollbackEdits host m a fs).2.1 ++ b, (rollbackEdits host m a fs).2.2)
        | none =>
          ((rollbackEdits host m b (rollbackEdits host m a fs).2.2).1,
            (rollbackEdits host m a fs).2.1 ++
              (rollbackEdits host m b (rollbackEdits host m a fs).2.2).2.1,
            (rollbackEdits host m b (rollbackEdits host m a fs).2.2).2.2) := by
  induction a with
  | nil =>
    intro fs
    simp [rollbackEdits]
  | cons e rest ih =>
    intro fs
    rw [List.cons_append]
    simp only [rollbackEdits_cons]
    by_cases ha : e.applied = true
    · simp only [ha, if_true]
      rcases hr : rollbackFileEdit host m fs e with ⟨err, fs1⟩
      cases err with
      | some x => simp
      | none =>
        simp only
        rw [ih fs1]
        rcases h1 : (rollbackEdits host m rest fs1).1 with _ | x <;> simp
    · simp only [ha]
      rw [ih fs]
      rcases h1 : (rollbackEdits host m rest fs).1 with _ | x <;> simp

/-- One edit that fits the files: applying it and rolling it back restores the files. -/
theorem rollbackFileEdit_applyFileEdit (host : Host) (m : Manager) (fs : Files)
    (edit : EditRecord) (hfit : editFits host fs edit)
    (happly : (applyFileEdit host m fs edit).1 = none)
    (hroll : (rollbackFileEdit host m (applyFileEdit host m fs edit).2 edit).1 = none) :
    (rollbackFileEdit host m (applyFileEdit host m fs edit).2 edit).2 = fs := by
  unfold applyFileEdit at happly hroll ⊢
  unfold rollbackFileEdit at hroll ⊢
  rcases hv : validatePath host m edit.filePath with _ | e
  · simp only [hv] at happly hroll ⊢
    rcases hfit with ⟨hop, hfile⟩ | ⟨hop | hop, hfile⟩
    · simp only [hop, if_true] at happly hroll ⊢
      unfold MkdirAll at happly hroll ⊢
      rcases hm : host.refuses fs "MkdirAll" (Dir edit.filePath) with _ | e
      · simp only [hm] at happly hroll ⊢
        unfold WriteFile at happly hroll ⊢
        rcases hw : host.refuses fs "WriteFile" edit.filePath with _ | e
        · simp only [hw] at happly hroll ⊢
          unfold Remove at hroll ⊢
          rcases hr : host.refuses
              (Function.update fs (host.resolve edit.filePath) (some edit.newContent))
              "Remove" edit.filePath with _ | e
          · simp only [hr, Function.update_same] at hroll ⊢
            rw [Function.update_idem, ← hfile, Function.update_eq_self]
          · simp [hr] at hroll
        · simp [hw] at happly
      · simp [hm] at happly
    · have h1 : ¬ ("modify" = "create") := by decide
      simp only [hop, h1, if_true, if_false] at happly hroll ⊢
      unfold WriteFile at happly hroll ⊢
      rcases hw : host.refuses fs "WriteFile" edit.filePath with _ | e
      · simp only [hw] at happly hroll ⊢
        rcases hw2 : host.refuses
            (Function.update fs (host.resolve edit.filePath) (some edit.newContent))
            "WriteFile" edit.filePath with _ | e
        · simp only [hw2] at hroll ⊢
          rw [Function.update_idem, ← hfile, Function.update_eq_self]
        · simp [hw2] at hroll
      · simp [hw] at happly
    · have h1 : ¬ ("delete" = "create") := by decide
      have h2 : ¬ ("delete" = "modify") := by decide
      simp only [hop, h1, h2, if_true, if_false] at happly hroll ⊢
      unfold Remove at happly hroll ⊢
      rcases hr : host.refuses fs "Remove" edit.filePath with _ | e
      · simp only [hr, hfile] at happly hroll ⊢
        unfold MkdirAll at hroll ⊢
        rcases hm : host.refuses (Function.update fs (host.resolve edit.filePath) none)
            "MkdirAll" (Dir edit.filePath) with _ | e
        · simp only [hm] at hroll ⊢
          unfold WriteFile at hroll ⊢
          rcases hw : host.refuses (Function.update fs (host.resolve edit.filePath) none)
              "WriteFile" edit.filePath with _ | e
          · simp only [hw] at hroll ⊢
            rw [Function.update_idem, ← hfile, Function.update_eq_self]
          · simp [hw] at hroll
        · simp [hm] at hroll
      · simp [hr] at happly
  · simp [hv] at happly

theorem rollbackFileEdit_applied (host : Host) (m : Manager) (fs : Files) (edit : EditRecord)
    (b : Bool) :
    rollbackFileEdit host m fs { edit with applied := b } = rollbackFileEdit host m fs edit := by
  rfl

/-- The loops of `ApplyAll` and `RollbackAll` on pending edits that fit the files: when
both succeed, the files are restored, every edit was applied in between, and the edits
are pending again. -/
theorem rollbackEdits_applyEdits (host : Host) (m : Manager) (edits : List EditRecord) :
    ∀ fs : Files,
      (∀ e ∈ edits, e.applied = false) →
      editsFit host m edits fs →
      (applyEdits host m edits fs).1 = none →
      (rollbackEdits host m (applyEdits host m edits fs).2.1.reverse
        (applyEdits host m edits fs).2.2).1 = none →
      (rollbackEdits host m (applyEdits host m edits fs).2.1.reverse
        (applyEdits host m edits fs).2.2).2.2 = fs ∧
      (rollbackEdits host m (applyEdits host m edits fs).2.1.reverse
        (applyEdits host m edits fs).2.2).2.1.reverse = edits ∧
      (applyEdits host m edits fs).2.1 = edits.map (fun e => { e with applied := true }) := by
  induction edits with
  | nil =>
    intro fs _ _ _ _
    simp [applyEdits, rollbackEdits]
  | cons e rest ih =>
    intro fs hpend hfit happly hroll
    have he : e.applied = false := hpend e (by simp)
    have hrest : ∀ x ∈ rest, x.applied = false := fun x hx => hpend x (by simp [hx])
    obtain ⟨hfit1, hfit2⟩ := hfit
    simp only [applyEdits, he, Bool.not_false, if_true] at happly hroll ⊢
    rcases ha : applyFileEdit host m fs e with ⟨err, fs1⟩
    rw [ha] at hfit2
    have ha1 : (applyFileEdit host m fs e).1 = err := by rw [ha]
    have ha2 : (applyFileEdit host m fs e).2 = fs1 := by rw [ha]
    cases err with
    | some x => simp [ha] at happly
    | none =>
      simp only [ha] at happly hroll ⊢
      simp only [List.reverse_cons] at hroll ⊢
      rw [rollbackEdits_append] at hroll ⊢
      rcases h1 : (rollbackEdits host m (applyEdits host m rest fs1).2.1.reverse
          (applyEdits host m rest fs1).2.2).1 with _ | x
      · obtain ⟨i1, i2, i3⟩ := ih fs1 hrest hfit2 happly h1
        simp only [h1, i1] at hroll ⊢
        simp only [rollbackEdits, if_true, rollbackFileEdit_applied] at hroll ⊢
        have hback := rollbackFileEdit_applyFileEdit host m fs e hfit1 ha1
        rw [ha2] at hback
        rcases hr : rollbackFileEdit host m fs1 e with ⟨err2, fs2⟩
        rw [hr] at hback
        cases err2 with
        | some y => simp [hr] at hroll
        | none =>
          simp only [hr] at hroll ⊢
          refine ⟨hback rfl, ?_, ?_⟩
          · simp only [List.reverse_append, List.reverse_cons, List.reverse_nil,
              List.nil_append, List.singleton_append, i2]
            congr 1
            cases e
            simp only at he
            simp [he]
          · rw [i3]
            simp
      · simp [h1] at hroll

/-- C19, amended: over an explicit state of the files, for every session whose edits are
all pending when `ApplyAll` starts and fit the files at the moment they are applied (a
"create" edit is of a file that does not exist, the `OldContent` of a "modify" or
"delete" edit is the content of the file), a successful `ApplyAll` marks every edit as
applied, and a successful `RollbackAll` after it restores every file to its state
before `ApplyAll`, leaves every edit with `Applied = false` and sets the status of the
session to rolled_back. -/
theorem RollbackAll_after_ApplyAll_restores_files (host : Host) (m : Manager) (fs : Files)
    (s : Session)
    (hcur : m.current = some s)
    (hpending : ∀ e ∈ s.edits, e.applied = false)
    (hfit : editsFit host m s.edits fs)
    (happly : (ApplyAll host m fs).1 = none)
    (hroll : (RollbackAll host (ApplyAll host m fs).2.1 (ApplyAll host m fs).2.2).1 = none) :
    (RollbackAll host (ApplyAll host m fs).2.1 (ApplyAll host m fs).2.2).2.2 = fs ∧
    (RollbackAll host (ApplyAll host m fs).2.1 (ApplyAll host m fs).2.2).2.1 =
      { m with current := some { s with status := SessionStatus.rolledBack } } ∧
    (ApplyAll host m fs).2.1 =
      { m with
        current := some { s with edits := s.edits.map (fun e => { e with applied := true }) } } := by
  have hval : ∀ (c : Option Session) (fs1 : Files) (edit : EditRecord),
      rollbackFileEdit host { m with current := c } fs1 edit =
        rollbackFileEdit host m fs1 edit := fun _ _ _ => rfl
  have hloop : ∀ (c : Option Session) (edits : List EditRecord) (fs1 : Files),
      rollbackEdits host { m with current := c } edits fs1 = rollbackEdits host m edits fs1 := by
    intro c edits
    induction edits with
    | nil => intro fs1; rfl
    | cons e rest ih =>
      intro fs1
      simp only [rollbackEdits, hval, ih]
  unfold ApplyAll at happly hroll ⊢
  simp only [hcur] at happly hroll ⊢
  unfold RollbackAll at hroll ⊢
  simp only [hloop] at hroll ⊢
  rcases hr : (rollbackEdits host m (applyEdits host m s.edits fs).2.1.reverse
      (applyEdits host m s.edits fs).2.2).1 with _ | x
  · obtain ⟨i1, i2, i3⟩ := rollbackEdits_applyEdits host m s.edits fs hpending hfit happly hr
    simp only [hr]
    refine ⟨i1, ?_, ?_⟩
    · rw [i2]
    · rw [i3]
  · simp [hr] at hroll

/-- C19, amended, at a session that modifies `a.txt`, deletes `b.txt`, and creates and
then modifies `sub/c.txt`: after `ApplyAll` and `RollbackAll` the files are the files
before, so `sub/c.txt` does not exist and `b.txt` has its old content. -/
theorem RollbackAll_after_ApplyAll_restores_files_witness :
    (ApplyAll scenarioHost scenarioManager scenarioFiles).2.2 "/work/sub/c.txt" =
      some "newer c" ∧
    (ApplyAll scenarioHost scenarioManager scenarioFiles).2.2 "/work/b.txt" = none ∧
    (RollbackAll scenarioHost (ApplyAll scenarioHost scenarioManager scenarioFiles).2.1
      (ApplyAll scenarioHost scenarioManager scenarioFiles).2.2).2.2 = scenarioFiles :=
  ⟨by decide, by decide,
    (RollbackAll_after_ApplyAll_restores_files scenarioHost scenarioManager scenarioFiles
      _ rfl (by decide)
      ⟨Or.inr ⟨Or.inl rfl, by decide⟩, Or.inr ⟨Or.inr rfl, by decide⟩,
        Or.inl ⟨rfl, by decide⟩, Or.inr ⟨Or.inl rfl, by decide⟩, trivial⟩
      (by decide) (by decide)).1⟩

/-- C19 as stated fails: the edit of `a.txt`, whose `OldContent` is the content of the
file at the moment it is applied, is applied with `ApplyEdit`; `ApplyAll` then succeeds
and `a.txt` holds "new a" before and after it; the successful `RollbackAll` leaves "old a"
in `a.txt`, not the state before `ApplyAll`. -/
theorem RollbackAll_undoes_edits_applied_before_ApplyAll :
    editsFit scenarioHost oneEditManager
      [⟨"edit_1", "a.txt", "modify", "old a", "new a", false, "rewrite a"⟩] scenarioFiles ∧
    (ApplyEdit scenarioHost oneEditManager scenarioFiles "edit_1").1 = none ∧
    (ApplyEdit scenarioHost oneEditManager scenarioFiles "edit_1").2.2 "/work/a.txt" =
      some "new a" ∧
    (ApplyAll scenarioHost (ApplyEdit scenarioHost oneEditManager scenarioFiles "edit_1").2.1
      (ApplyEdit scenarioHost oneEditManager scenarioFiles "edit_1").2.2).1 = none ∧
    (ApplyAll scenarioHost (ApplyEdit scenarioHost oneEditManager scenarioFiles "edit_1").2.1
      (ApplyEdit scenarioHost oneEditManager scenarioFiles "edit_1").2.2).2.2 "/work/a.txt" =
      some "new a" ∧
    (RollbackAll scenarioHost
      (ApplyAll scenarioHost (ApplyEdit scenarioHost oneEditManager scenarioFiles "edit_1").2.1
        (ApplyEdit scenarioHost oneEditManager scenarioFiles "edit_1").2.2).2.1
      (ApplyAll scenarioHost (ApplyEdit scenarioHost oneEditManager scenarioFiles "edit_1").2.1
        (ApplyEdit scenarioHost oneEditManager scenarioFiles "edit_1").2.2).2.2).1 = none ∧
    (RollbackAll scenarioHost
      (ApplyAll scenarioHost (ApplyEdit scenarioHost oneEditManager scenarioFiles "edit_1").2.1
        (ApplyEdit scenarioHost oneEditManager scenarioFiles "edit_1").2.2).2.1
      (ApplyAll scenarioHost (ApplyEdit scenarioHost oneEditManager scenarioFiles "edit_1").2.1
        (ApplyEdit scenarioHost oneEditManager scenarioFiles "edit_1").2.2).2.2).2.2
      "/work/a.txt" = some "old a" := by
  refine ⟨⟨Or.inr ⟨Or.inl rfl, by decide⟩, trivial⟩, by decide, by decide, by decide, by decide,
    by decide, by decide⟩

/-- The nested calls of `handleToolCalls` never run out of the counter of the model:
any counter of at least `12 - depth` gives the result of `handleToolCalls`. -/
theorem handleToolCallsAux_fuel {σ : Type} (env : Env σ) :
    ∀ (fuel : Nat) (resp : ChatResponse) (messages : List Message) (depth : Nat)
      (st : AgentState σ), 12 - depth ≤ fuel →
      handleToolCallsAux env fuel resp messages depth st =
        handleToolCalls env resp messages depth st := by
  intro fuel
  induction fuel with
  | zero =>
    intro resp messages depth st h
    have h0 : 12 - depth = 0 := by omega
    unfold handleToolCalls
    rw [h0]
  | succ n ih =>
    intro resp messages depth st h
    rw [handleToolCalls_eq]
    by_cases hd : depth > 10
    · simp only [handleToolCallsAux, hd, if_true]
    · simp only [handleToolCallsAux, hd, if_false]
      have hn : ∀ (next : ChatResponse) (ms : List Message) (s : AgentState σ),
          handleToolCallsAux env n next ms (depth + 1) s =
            handleToolCalls env next ms (depth + 1) s :=
        fun next ms s => ih next ms (depth + 1) s (by omega)
      simp only [hn]

/-- The rounds and the follow-up model calls of `handleToolCalls` entered at `depth`:
as many of the one as of the other, at most `11 - depth`, at consecutive depths. -/
theorem handleToolCalls_rounds {σ : Type} (env : Env σ) :
    ∀ (n depth : Nat), depth + n = 11 →
      ∀ (resp : ChatResponse) (messages : List Message) (st : AgentState σ),
        ∃ k, k ≤ n ∧
          roundDepths (handleToolCalls env resp messages depth st).events =
            List.range' depth k ∧
          (modelReplies (handleToolCalls env resp messages depth st).events).length = k := by
  intro n
  induction n with
  | zero =>
    intro depth hd resp messages st
    rcases handleToolCalls_cases env resp messages depth st with ⟨_, h⟩ | ⟨h, _⟩
    · rw [h]
      exact ⟨0, le_refl _, rfl, rfl⟩
    · omega
  | succ n ih =>
    intro depth hd resp messages st
    rcases handleToolCalls_cases env resp messages depth st with ⟨h, _⟩ | ⟨hle, reply, w2, _, h⟩
    · omega
    · obtain ⟨rest, _, _, hmr, hrd, _, _⟩ :=
        handleToolCallsRound_events env resp messages depth st.world
      rcases h with ⟨e, _, h⟩ | ⟨next, _, _, h⟩ | ⟨next, _, _, h⟩
      · rw [h]
        refine ⟨1, by omega, ?_, ?_⟩
        · simp only [roundDepths_append, hrd]; rfl
        · simp only [modelReplies_append, hmr]; rfl
      · rw [h]
        refine ⟨1, by omega, ?_, ?_⟩
        · simp only [roundDepths_append, hrd]; rfl
        · simp only [modelReplies_append, hmr]; rfl
      · obtain ⟨k, hk, i1, i2⟩ := ih (depth + 1) (by omega) next
          (handleToolCallsRound env resp messages depth st.world).messages
          { st with world := w2 }
        rw [h]
        refine ⟨k + 1, by omega, ?_, ?_⟩
        · simp only [roundDepths_append, hrd, i1]
          rw [List.range'_succ]
          rfl
        · simp only [modelReplies_append, hmr, i2, List.length_append]
          simp [modelReplies, Event.modelReply]
          omega

/-- C23: `handleToolCalls` is total, and the counter of the model never cuts it short
(every counter of at least 12 gives the same result at depth 0).  Started at depth 0 it
runs `k` rounds of tool calls, at the depths 0 to `k - 1`, and makes `k` follow-up model
calls, for some `k` of at most 11, whatever the model and the tools do.  Entered with a
depth greater than 10 it returns the empty reply and the depth-limit error, with the
agent unchanged and no call made: no tool call, no model call, nothing added to memory. -/
theorem handleToolCalls_at_most_eleven_rounds {σ : Type} (env : Env σ) (resp : ChatResponse)
    (messages : List Message) (st : AgentState σ) :
    (∀ fuel, 12 ≤ fuel →
      handleToolCallsAux env fuel resp messages 0 st = handleToolCalls env resp messages 0 st) ∧
    (∃ k, k ≤ 11 ∧
      roundDepths (handleToolCalls env resp messages 0 st).events = List.range k ∧
      (modelReplies (handleToolCalls env resp messages 0 st).events).length = k) ∧
    (∀ depth, depth > 10 →
      handleToolCalls env resp messages depth st =
        { reply := "", err := some depthError, state := st, events := [] }) := by
  refine ⟨fun fuel h => handleToolCallsAux_fuel env fuel resp messages 0 st (by omega), ?_, ?_⟩
  · obtain ⟨k, hk, h1, h2⟩ := handleToolCalls_rounds env 11 0 rfl resp messages st
    refine ⟨k, hk, ?_, h2⟩
    rw [h1, List.range_eq_range']
  · intro depth hd
    rw [handleToolCalls_eq, if_pos hd]

theorem messagesAdded_append (a b : List Event) :
    messagesAdded (a ++ b) = messagesAdded a ++ messagesAdded b := by
  simp [messagesAdded]

theorem messagesAdded_filter (l : List Event) :
    messagesAdded (l.filter Event.changesHistory) = messagesAdded l := by
  induction l with
  | nil => rfl
  | cons e t ih =>
    cases e <;>
      simp only [List.filter_cons, Event.changesHistory, if_true, Bool.false_eq_true, if_false,
        messagesAdded, List.filterMap_cons, Event.messageAdded] <;>
      simp only [messagesAdded] at ih <;> simp only [ih]

theorem messagesAdded_isTurnTail (l : List Event) (h : ∀ e ∈ l, e.isTurnTail = true) :
    messagesAdded l = [] := by
  rw [messagesAdded, List.filterMap_eq_nil_iff]
  intro e he
  have := h e he
  cases e <;> simp [Event.isTurnTail] at this <;> rfl

/-- C25: in every `Chat` turn that returns without error, the `AddMessage` calls on the
history are exactly two, in this order: `("user", userMessage)` and then
`("assistant", text)` with `text` the string `Chat` returns.  This holds with and
without tool calls and for any number of rounds; no message of the per-turn list (the
assistant's tool-call messages, the tool results) is added to the history. -/
theorem Chat_adds_user_and_assistant_message {σ : Type} (env : Env σ) (userMessage : String)
    (st : AgentState σ) (hok : (Chat env userMessage st).err = none) :
    messagesAdded (Chat env userMessage st).events =
      [("user", userMessage), ("assistant", (Chat env userMessage st).reply)] := by
  have hprep : messagesAdded (prepareChat env userMessage st.world).events =
      [("user", userMessage)] := by
    rw [← messagesAdded_filter, (prepareChat_events env userMessage st.world).2.2.1]
    rfl
  unfold Chat at hok ⊢
  simp only at hok ⊢
  generalize hp : prepareChat env userMessage st.world = p at hok hprep ⊢
  rcases hsent : env.chatWithTools p.world p.messages with ⟨reply, w2⟩
  rw [hsent] at hok
  simp only at hok ⊢
  cases reply with
  | failed e => simp at hok
  | ok resp =>
    simp only at hok ⊢
    have hbefore : messagesAdded (p.events ++ [Event.chatWithTools p.messages (LLMReply.ok resp),
        Event.updateTokenUsage resp.usage.promptTokens]) = [("user", userMessage)] := by
      rw [messagesAdded_append, hprep]
      rfl
    rcases finishTurn_cases env true resp p.messages (recordUsage env st resp w2)
        (p.events ++ [Event.chatWithTools p.messages (LLMReply.ok resp),
          Event.updateTokenUsage resp.usage.promptTokens]) with
      ⟨_, hf⟩ | ⟨_, e, _, hf⟩ | ⟨_, herr, hf⟩
    · rw [hf]
      simp only
      rw [messagesAdded_append, messagesAdded_append, hbefore,
        messagesAdded_isTurnTail _ (afterReply_isTurnTail env true _)]
      rfl
    · rw [hf] at hok
      simp at hok
    · rw [hf]
      simp only
      rw [messagesAdded_append, messagesAdded_append, hbefore,
        messagesAdded_isTurnTail _ (afterReply_isTurnTail env true _),
        ← messagesAdded_filter (handleToolCalls env resp p.messages 0 _).events,
        ((handleToolCalls_summary env 11 0 (by omega) resp p.messages _).2.2 herr).2]
      rfl

/-- A turn with one round of tool calls: the model requests a tool call, the result is
sent back, the model answers "done"; the history receives the user message and the
answer and neither the tool-call message nor the tool result. -/
theorem Chat_adds_user_and_assistant_message_witness :
    (Chat oneRoundEnv "hi" freshAgent).err = none ∧
    (Chat oneRoundEnv "hi" freshAgent).reply = "done" ∧
    roundDepths (Chat oneRoundEnv "hi" freshAgent).events = [0] ∧
    messagesAdded (Chat oneRoundEnv "hi" freshAgent).events =
      [("user", "hi"), ("assistant", (Chat oneRoundEnv "hi" freshAgent).reply)] :=
  ⟨by decide, by decide, by decide,
    Chat_adds_user_and_assistant_message oneRoundEnv "hi" freshAgent (by decide)⟩

/-- What `handleToolCalls` does about usage: it makes no `UpdateTokenUsage` call and
leaves the totals and the rate limits of the agent as they are. -/
theorem handleToolCalls_usage {σ : Type} (env : Env σ) :
    ∀ (n depth : Nat), 11 - depth ≤ n →
      ∀ (resp : ChatResponse) (messages : List Message) (st : AgentState σ),
        (handleToolCalls env resp messages depth st).state.totalUsage = st.totalUsage ∧
        (handleToolCalls env resp messages depth st).state.lastRateLimits = st.lastRateLimits := by
  intro n
  induction n with
  | zero =>
    intro depth hd resp messages st
    rcases handleToolCalls_cases env resp messages depth st with ⟨_, h⟩ | ⟨h, _⟩
    · rw [h]
      exact ⟨rfl, rfl⟩
    · omega
  | succ n ih =>
    intro depth hd resp messages st
    rcases handleToolCalls_cases env resp messages depth st with ⟨_, h⟩ | ⟨hle, reply, w2, _, h⟩
    · rw [h]
      exact ⟨rfl, rfl⟩
    · rcases h with ⟨e, _, h⟩ | ⟨next, _, _, h⟩ | ⟨next, _, _, h⟩
      · rw [h]
        exact ⟨rfl, rfl⟩
      · rw [h]
        exact ⟨rfl, rfl⟩
      · rw [h]
        exact ih (depth + 1) (by omega) next _ { st with world := w2 }

theorem tokenUpdates_isDialogue (l : List Event) (h : ∀ e ∈ l, e.isDialogue = true) :
    tokenUpdates l = [] := by
  rw [tokenUpdates, List.filterMap_eq_nil_iff]
  intro e he
  have := h e he
  cases e <;> simp [Event.isDialogue, Event.isToolRound] at this <;> rfl

/-- C24 fails on the code.  `handleToolCalls`, which receives every follow-up response,
makes no `UpdateTokenUsage` call and leaves the totals of the agent unchanged, whatever
the responses report.  In the turn of `oneRoundEnv` the model answers twice, each
response reporting 10 prompt, 5 completion and 15 total tokens: the session receives the
single call `UpdateTokenUsage(10)` and counts 10 tokens, and `GetUsageStats` reports
10, 5 and 15 where the claim requires 20, 10 and 30. -/
theorem Chat_counts_usage_of_first_response_only :
    (∀ {σ : Type} (env : Env σ) (resp : ChatResponse) (messages : List Message) (depth : Nat)
        (st : AgentState σ),
      tokenUpdates (handleToolCalls env resp messages depth st).events = [] ∧
      GetUsageStats (handleToolCalls env resp messages depth st).state = GetUsageStats st) ∧
    (modelReplies (Chat oneRoundEnv "hi" freshAgent).events).map LLMReply.reportedUsage =
      [some ⟨10, 5, 15⟩, some ⟨10, 5, 15⟩] ∧
    (Chat oneRoundEnv "hi" freshAgent).err = none ∧
    tokenUpdates (Chat oneRoundEnv "hi" freshAgent).events = [10] ∧
    (Chat oneRoundEnv "hi" freshAgent).state.world.tokens = 10 ∧
    (GetUsageStats (Chat oneRoundEnv "hi" freshAgent).state).1 = ⟨10, 5, 15⟩ := by
  refine ⟨?_, by decide, by decide, by decide, by decide, by decide⟩
  intro σ env resp messages depth st
  refine ⟨tokenUpdates_isDialogue _
    (handleToolCalls_isDialogue env (11 - depth) depth (le_refl _) resp messages st), ?_⟩
  obtain ⟨h1, h2⟩ := handleToolCalls_usage env (11 - depth) depth (le_refl _) resp messages st
  simp only [GetUsageStats, h1, h2]

theorem lastNewlineFrom_bounds :
    ∀ (s : Bytes) (i : Nat) (found : Int), -1 ≤ found → found < (i : Int) →
      -1 ≤ lastNewlineFrom i s found ∧ lastNewlineFrom i s found < (i : Int) + s.length := by
  intro s
  induction s with
  | nil =>
    intro i found h1 h2
    simp only [lastNewlineFrom, List.length_nil]
    omega
  | cons b rest ih =>
    intro i found h1 h2
    simp only [lastNewlineFrom, List.length_cons]
    by_cases hb : b = 10
    · simp only [hb, if_true]
      obtain ⟨j1, j2⟩ := ih (i + 1) (i : Int) (by omega) (by push_cast; omega)
      push_cast at j2 ⊢
      exact ⟨j1, by omega⟩
    · simp only [hb, if_false]
      obtain ⟨j1, j2⟩ := ih (i + 1) found h1 (by push_cast; omega)
      push_cast at j2 ⊢
      exact ⟨j1, by omega⟩

theorem LastIndexNewline_lt (s : Bytes) :
    -1 ≤ LastIndexNewline s ∧ LastIndexNewline s < (s.length : Int) := by
  have h := lastNewlineFrom_bounds s 0 (-1) (le_refl _) (by decide)
  simpa [LastIndexNewline] using h

/-- The loop of `splitMessage` for `maxLen >= 1`, on any counter above the length of the
message: it returns, adding to `parts` chunks whose concatenation is the message, each
of them non-empty and of at most `maxLen` bytes. -/
theorem splitLoop_spec (maxLen : Int) (hmax : 1 ≤ maxLen) :
    ∀ (fuel : Nat) (message : Bytes) (parts : List Bytes), message.length < fuel →
      ∃ chunks : List Bytes,
        splitLoop maxLen fuel message parts = some (parts ++ chunks) ∧
        chunks.flatten = message ∧
        ∀ c ∈ chunks, 1 ≤ c.length ∧ (c.length : Int) ≤ maxLen := by
  intro fuel
  induction fuel with
  | zero =>
    intro message parts h
    omega
  | succ n ih =>
    intro message parts h
    rw [splitLoop]
    by_cases h0 : (message.length : Int) > 0
    · rw [if_pos h0]
      by_cases h1 : (message.length : Int) ≤ maxLen
      · rw [if_pos h1]
        refine ⟨[message], rfl, by simp, ?_⟩
        intro c hc
        rw [List.mem_singleton] at hc
        subst hc
        exact ⟨by omega, h1⟩
      · rw [if_neg h1]
        have hs : sliceTo message maxLen = some (message.take maxLen.toNat) := by
          rw [sliceTo, if_pos ⟨by omega, by omega⟩]
        rw [hs]
        simp only
        obtain ⟨b1, b2⟩ := LastIndexNewline_lt (message.take maxLen.toNat)
        have hlen : ((message.take maxLen.toNat).length : Int) = maxLen := by
          rw [List.length_take]
          omega
        rw [hlen] at b2
        have hdiv : 0 ≤ maxLen.tdiv 2 := Int.tdiv_nonneg (by omega) (by decide)
        generalize hsp : (if LastIndexNewline (message.take maxLen.toNat) > maxLen.tdiv 2 then
          LastIndexNewline (message.take maxLen.toNat) + 1 else maxLen) = splitPos
        have hpos : 1 ≤ splitPos ∧ splitPos ≤ maxLen := by
          rw [← hsp]
          split
          · omega
          · omega
        have hs1 : sliceTo message splitPos = some (message.take splitPos.toNat) := by
          rw [sliceTo, if_pos ⟨by omega, by omega⟩]
        have hs2 : sliceFrom message splitPos = some (message.drop splitPos.toNat) := by
          rw [sliceFrom, if_pos ⟨by omega, by omega⟩]
        rw [hs1, hs2]
        simp only
        have hdl : (message.drop splitPos.toNat).length < n := by
          rw [List.length_drop]
          omega
        obtain ⟨chunks, c1, c2, c3⟩ := ih (message.drop splitPos.toNat)
          (parts ++ [message.take splitPos.toNat]) hdl
        refine ⟨message.take splitPos.toNat :: chunks, ?_, ?_, ?_⟩
        · rw [c1, List.append_assoc]
          rfl
        · rw [List.flatten_cons, c2, List.take_append_drop]
        · intro c hc
          rcases List.mem_cons.1 hc with rfl | hc
          · rw [List.length_take]
            constructor <;> omega
          · exact c3 c hc
    · rw [if_neg h0]
      refine ⟨[], by simp, ?_, by simp⟩
      have : message.length = 0 := by omega
      rw [List.length_eq_zero] at this
      rw [this]
      rfl

theorem splitLoop_mono (maxLen : Int) :
    ∀ (fuel : Nat) (message : Bytes) (parts r : List Bytes),
      splitLoop maxLen fuel message parts = some r →
      splitLoop maxLen (fuel + 1) message parts = some r := by
  intro fuel
  induction fuel with
  | zero =>
    intro message parts r h
    simp [splitLoop] at h
  | succ n ih =>
    intro message parts r h
    rw [splitLoop] at h ⊢
    by_cases h0 : (message.length : Int) > 0
    · rw [if_pos h0] at h ⊢
      by_cases h1 : (message.length : Int) ≤ maxLen
      · rw [if_pos h1] at h ⊢
        exact h
      · rw [if_neg h1] at h ⊢
        cases hs : sliceTo message maxLen with
        | none => simp [hs] at h
        | some head =>
          simp only [hs] at h ⊢
          generalize (if LastIndexNewline head > maxLen.tdiv 2 then
            LastIndexNewline head + 1 else maxLen) = splitPos at h ⊢
          cases hs1 : sliceTo message splitPos with
          | none => simp [hs1] at h
          | some part =>
            cases hs2 : sliceFrom message splitPos with
            | none => simp [hs1, hs2] at h
            | some rest =>
              simp only [hs1, hs2] at h ⊢
              exact ih rest _ r h
    · rw [if_neg h0] at h ⊢
      exact h

theorem splitLoop_mono_add (maxLen : Int) (fuel k : Nat) (message : Bytes)
    (parts r : List Bytes) (h : splitLoop maxLen fuel message parts = some r) :
    splitLoop maxLen (fuel + k) message parts = some r := by
  induction k with
  | zero => exact h
  | succ k ih => exact splitLoop_mono maxLen (fuel + k) message parts r ih

/-- C26: for every message and every `maxLen >= 1`, `splitMessage` returns (no panic, and
the loop ends: any counter above the length of the message gives the same chunks), the
concatenation of the chunks in order is the message, and a message of at most `maxLen`
bytes is returned as the single chunk.  When the message is longer than `maxLen`, every
chunk is non-empty and has at most `maxLen` bytes. -/
theorem splitMessage_lossless (message : Bytes) (maxLen : Int) (hmax : 1 ≤ maxLen) :
    ∃ parts : List Bytes,
      splitMessage message maxLen = some parts ∧
      parts.flatten = message ∧
      ((message.length : Int) ≤ maxLen → parts = [message]) ∧
      (maxLen < (message.length : Int) →
        (∀ fuel, message.length < fuel → splitLoop maxLen fuel message [] = some parts) ∧
        ∀ c ∈ parts, 1 ≤ c.length ∧ (c.length : Int) ≤ maxLen) := by
  by_cases h : (message.length : Int) ≤ maxLen
  · refine ⟨[message], ?_, by simp, fun _ => rfl, fun h2 => by omega⟩
    rw [splitMessage, if_pos h]
  · obtain ⟨chunks, c1, c2, c3⟩ :=
      splitLoop_spec maxLen hmax (message.length + 1) message [] (by omega)
    refine ⟨chunks, ?_, c2, fun h2 => (h h2).elim, fun _ => ⟨?_, c3⟩⟩
    · rw [splitMessage, if_neg h, c1, List.nil_append]
    · intro fuel hf
      obtain ⟨chunks2, d1, _, _⟩ := splitLoop_spec maxLen hmax fuel message [] hf
      have e1 := splitLoop_mono_add maxLen (message.length + 1) fuel message [] _ c1
      have e2 := splitLoop_mono_add maxLen fuel (message.length + 1) message [] _ d1
      rw [Nat.add_comm] at e2
      rw [e2] at e1
      rw [d1, e1, List.nil_append]

/-- A message of 7 bytes split with `maxLen = 4`: the newline at index 3 is in the second
half of the first 4 bytes, so the first chunk ends after it. -/
theorem splitMessage_lossless_witness :
    (1 : Int) ≤ 4 ∧
    splitMessage [97, 98, 99, 10, 100, 101, 102] 4 = some [[97, 98, 99, 10], [100, 101, 102]] ∧
    ∃ parts : List Bytes,
      splitMessage [97, 98, 99, 10, 100, 101, 102] 4 = some parts ∧
      parts.flatten = [97, 98, 99, 10, 100, 101, 102] ∧
      ((([97, 98, 99, 10, 100, 101, 102] : Bytes).length : Int) ≤ 4 →
        parts = [[97, 98, 99, 10, 100, 101, 102]]) ∧
      ((4 : Int) < (([97, 98, 99, 10, 100, 101, 102] : Bytes).length : Int) →
        (∀ fuel, ([97, 98, 99, 10, 100, 101, 102] : Bytes).length < fuel →
          splitLoop 4 fuel [97, 98, 99, 10, 100, 101, 102] [] = some parts) ∧
        ∀ c ∈ parts, 1 ≤ c.length ∧ (c.length : Int) ≤ 4) :=
  ⟨by decide, by decide, splitMessage_lossless [97, 98, 99, 10, 100, 101, 102] 4 (by decide)⟩

theorem foldl_append_eq_join (l : List String) :
    ∀ acc : String, l.foldl (fun r s => r ++ s) acc = acc ++ String.join l := by
  induction l with
  | nil =>
    intro acc
    simp [String.join]
  | cons a t ih =>
    intro acc
    simp only [List.foldl_cons, String.join]
    rw [ih, ih ("" ++ a), String.empty_append, String.append_assoc]

theorem join_cons (a : String) (l : List String) : String.join (a :: l) = a ++ String.join l := by
  simp only [String.join, List.foldl_cons]
  rw [foldl_append_eq_join, String.empty_append]
  rfl

/-- The test for "[DONE]" of the loop, on a line with the prefix "data: ". -/
theorem trimPrefix_eq_done (line : String) (h : HasPrefix line "data: " = true) :
    TrimPrefix line "data: " = "[DONE]" ↔ line = "data: [DONE]" := by
  have hp : "data: ".data <+: line.data := by simpa [HasPrefix] using h
  obtain ⟨t, ht⟩ := hp
  have hd : line.data.drop 6 = t := by
    rw [← ht]
    rfl
  constructor
  · intro heq
    rw [TrimPrefix, if_pos h] at heq
    have h6 : "data: ".data.length = 6 := rfl
    rw [h6, hd] at heq
    have ht2 : t = "[DONE]".data := by
      have := congrArg String.data heq
      simpa using this
    apply String.ext
    rw [← ht, ht2]
    rfl
  · intro heq
    subst heq
    decide

theorem not_done_of_no_prefix (line : String) (h : ¬ HasPrefix line "data: " = true) :
    line ≠ "data: [DONE]" := by
  intro heq
  subst heq
  exact h (by decide)

theorem trimPrefix_data (line : String) (h : HasPrefix line "data: " = true) :
    TrimPrefix line "data: " = String.mk (line.data.drop 6) := by
  rw [TrimPrefix, if_pos h]
  rfl

/-- The loop of `parseSSEStream` from the events of the lines. -/
theorem streamLoop_spec (decode : String → Option StreamingResponse) (callback : Bool) :
    ∀ (lines : List String) (st : StreamState),
      streamLoop decode callback lines st =
        ({ fullContent := st.fullContent ++
             String.join ((eventsBeforeDone decode lines).map contentDelta),
           toolCalls := ((eventsBeforeDone decode lines).map toolCallDeltas).flatten.foldl
             mergeToolCall st.toolCalls,
           lastResponse := ((eventsBeforeDone decode lines).getLast?).getD st.lastResponse,
           callbacks := st.callbacks ++
             (if callback then
               (((eventsBeforeDone decode lines).map contentDelta).filter
                   (fun d => decide (d ≠ ""))).map (fun d => (d, false)) ++
                 (if lines.any isDoneLine then [("", true)] else [])
              else []) },
         lines.any isDoneLine) := by
  intro lines
  induction lines with
  | nil =>
    intro st
    cases callback <;> simp [streamLoop, eventsBeforeDone, String.join]
  | cons raw rest ih =>
    intro st
    rw [streamLoop]
    simp only
    by_cases hp : HasPrefix (TrimSpace raw) "data: " = true
    · have h1 : ¬ (TrimSpace raw = "" ∨ HasPrefix (TrimSpace raw) ":" = true) := by
        have hpre : "data: ".data <+: (TrimSpace raw).data := by simpa [HasPrefix] using hp
        obtain ⟨t, ht⟩ := hpre
        rintro (h | h)
        · rw [h] at ht
          simp at ht
        · have hpre2 : ":".data <+: (TrimSpace raw).data := by simpa [HasPrefix] using h
          obtain ⟨t2, ht2⟩ := hpre2
          rw [← ht] at ht2
          simp at ht2
      rw [if_neg h1, if_neg (by simpa using hp)]
      by_cases hdone : TrimPrefix (TrimSpace raw) "data: " = "[DONE]"
      · rw [if_pos hdone]
        have hd : isDoneLine raw = true := by
          simp only [isDoneLine, decide_eq_true_eq]
          exact (trimPrefix_eq_done _ hp).1 hdone
        simp only [eventsBeforeDone, List.takeWhile_cons, hd, Bool.not_true, Bool.false_eq_true,
          if_false, List.filterMap_nil, List.map_nil, String.join, List.foldl_nil,
          List.flatten_nil, List.getLast?_nil, Option.getD_none, List.filter_nil, List.any_cons,
          Bool.true_or, if_true, List.nil_append]
        cases callback
        · simp [String.append_empty]
        · simp [String.append_empty]
      · rw [if_neg hdone]
        have hd : isDoneLine raw = false := by
          simp only [isDoneLine, decide_eq_false_iff_not]
          exact fun h => hdone ((trimPrefix_eq_done _ hp).2 h)
        have hev : eventOf decode raw = decode (TrimPrefix (TrimSpace raw) "data: ") := by
          rw [eventOf, if_pos hp, trimPrefix_data _ hp]
        have hany : (raw :: rest).any isDoneLine = rest.any isDoneLine := by
          simp [hd]
        cases hdec : decode (TrimPrefix (TrimSpace raw) "data: ") with
        | none =>
          simp only
          rw [ih, hany]
          have : eventsBeforeDone decode (raw :: rest) = eventsBeforeDone decode rest := by
            simp [eventsBeforeDone, List.takeWhile_cons, hd, hev, hdec]
          rw [this]
        | some streamResp =>
          simp only
          have hcons : eventsBeforeDone decode (raw :: rest) =
              streamResp :: eventsBeforeDone decode rest := by
            simp [eventsBeforeDone, List.takeWhile_cons, hd, hev, hdec]
          rw [hcons, hany]
          have hlast : ((streamResp :: eventsBeforeDone decode rest).getLast?).getD
              st.lastResponse = ((eventsBeforeDone decode rest).getLast?).getD streamResp := by
            cases hr : eventsBeforeDone decode rest with
            | nil => rfl
            | cons b t => rw [List.getLast?_cons_cons]; rfl
          cases hch : streamResp.choices with
          | nil =>
            simp only
            rw [ih]
            have c1 : contentDelta streamResp = "" := by simp [contentDelta, hch]
            have c2 : toolCallDeltas streamResp = [] := by simp [toolCallDeltas, hch]
            simp only [List.map_cons, c1, c2, join_cons, String.empty_append, List.flatten_cons,
              List.nil_append, hlast, List.filter_cons, ne_eq, not_true_eq_false, decide_False,
              Bool.false_eq_true, if_false]
          | cons choice more =>
            simp only
            have c1 : contentDelta streamResp = choice.delta.content := by
              simp [contentDelta, hch]
            have c2 : toolCallDeltas streamResp = choice.delta.toolCalls := by
              simp [toolCallDeltas, hch]
            rw [ih]
            simp only [List.map_cons, c1, c2, join_cons, List.flatten_cons, List.foldl_append,
              hlast, List.filter_cons]
            by_cases hc : choice.delta.content = ""
            · simp [hc, String.append_empty]
            · cases callback
              · simp [hc, String.append_assoc]
              · simp [hc, String.append_assoc]
    · have hd : isDoneLine raw = false := by
        simp only [isDoneLine, decide_eq_false_iff_not]
        exact not_done_of_no_prefix _ hp
      have hev : eventOf decode raw = none := by
        rw [eventOf, if_neg hp]
      have hany : (raw :: rest).any isDoneLine = rest.any isDoneLine := by
        simp [hd]
      have hsame : eventsBeforeDone decode (raw :: rest) = eventsBeforeDone decode rest := by
        simp [eventsBeforeDone, List.takeWhile_cons, hd, hev]
      rw [hsame, hany]
      by_cases h1 : TrimSpace raw = "" ∨ HasPrefix (TrimSpace raw) ":" = true
      · rw [if_pos h1, ih]
      · rw [if_neg h1, if_pos (by simpa using hp), ih]

/-- The lines read are the text up to its last newline, cut after every newline. -/
theorem completeLines_flatten :
    ∀ (text cur : List Char), '\n' ∉ cur →
      ∃ tail : List Char, '\n' ∉ tail ∧
        ((completeLines cur text).map String.data).flatten ++ tail = cur.reverse ++ text := by
  intro text
  induction text with
  | nil =>
    intro cur hcur
    exact ⟨cur.reverse, by simpa using hcur, by simp [completeLines]⟩
  | cons c rest ih =>
    intro cur hcur
    by_cases hc : c = '\n'
    · obtain ⟨tail, h1, h2⟩ := ih [] (by simp)
      refine ⟨tail, h1, ?_⟩
      simp only [completeLines, hc, if_true, List.map_cons, List.flatten_cons,
        List.reverse_cons, List.append_assoc, h2]
      simp
    · obtain ⟨tail, h1, h2⟩ := ih (c :: cur) (by
        intro hm
        rcases List.mem_cons.1 hm with h | h
        · exact hc h.symm
        · exact hcur h)
      refine ⟨tail, h1, ?_⟩
      simp only [completeLines, hc, if_false, h2, List.reverse_cons, List.append_assoc]
      simp

/-- A stream with a comment line, an empty line, a malformed event, an event with an
empty delta and a line after "[DONE]": the content is "Hello", the callback receives
"Hel", "lo" and the end signal. -/
theorem parseSSEStream_scenario :
    parseSSEStream scenarioDecode
        { text := ": hi\n\ndata: A\r\ndata: \x7bbad\n  data: B\ndata: E\ndata: [DONE]\ndata: A\n",
          readError := none } true =
      ((some { id := "r1", object := "chat.completion", created := 7, model := "m",
               choices := [{ index := 0,
                             message := { role := "assistant", content := "Hello",
                                          toolCalls := [], toolCallID := "" },
                             finishReason := "stop" }] }, none),
        [("Hel", false), ("lo", false), ("", true)]) := by
  decide

theorem splitAux_ne_nil (sep : Char) :
    ∀ (text cur : List Char), splitAux sep cur text ≠ [] := by
  intro text
  induction text with
  | nil => intro cur; simp [splitAux]
  | cons c rest ih =>
    intro cur
    simp only [splitAux]
    split
    · simp
    · exact ih _

/-- The lines `ReadString` returns without an error are the pieces of the text between
its newlines but the last, each with its newline. -/
theorem completeLines_eq_split :
    ∀ (text cur : List Char),
      completeLines cur text =
        ((splitAux '\n' cur text).dropLast).map (fun l => String.mk (l ++ ['\n'])) := by
  intro text
  induction text with
  | nil => intro cur; simp [completeLines, splitAux]
  | cons c rest ih =>
    intro cur
    by_cases hc : c = '\n'
    · simp only [completeLines, splitAux, hc, if_true]
      rw [List.dropLast_cons_of_ne_nil (splitAux_ne_nil _ _ _), List.map_cons, ih]
      simp
    · simp only [completeLines, splitAux, hc, if_false]
      exact ih _

theorem dropWhile_reverse_append_newline :
    ∀ l : List Char,
      (((l ++ ['\n']).dropWhile isSpaceRune).reverse.dropWhile isSpaceRune) =
        ((l.dropWhile isSpaceRune).reverse.dropWhile isSpaceRune) := by
  have hn : isSpaceRune '\n' = true := by decide
  intro l
  induction l with
  | nil => simp [List.dropWhile, hn]
  | cons x t ih =>
    by_cases hx : isSpaceRune x = true
    · simp only [List.cons_append, List.dropWhile_cons, hx, if_true]
      exact ih
    · simp only [List.cons_append, List.dropWhile_cons, hx]
      simp only [Bool.false_eq_true, if_false, List.reverse_cons, List.reverse_append,
        List.reverse_nil, List.nil_append, List.singleton_append, List.cons_append,
        List.dropWhile_cons, hn, if_true]

/-- The newline that ends a line does not count: `TrimSpace` removes it. -/
theorem TrimSpace_append_newline (s : String) :
    TrimSpace (String.mk (s.data ++ ['\n'])) = TrimSpace s := by
  simp only [TrimSpace]
  rw [dropWhile_reverse_append_newline]

theorem eventsBeforeDone_map (decode : String → Option StreamingResponse)
    (f : String → String) (hf : ∀ s, TrimSpace (f s) = TrimSpace s) :
    ∀ lines : List String,
      eventsBeforeDone decode (lines.map f) = eventsBeforeDone decode lines ∧
      (lines.map f).any isDoneLine = lines.any isDoneLine := by
  have hd : ∀ s, isDoneLine (f s) = isDoneLine s := fun s => by simp only [isDoneLine, hf]
  have he : ∀ s, eventOf decode (f s) = eventOf decode s := fun s => by
    simp only [eventOf, hf]
  intro lines
  induction lines with
  | nil => exact ⟨rfl, rfl⟩
  | cons x t ih =>
    constructor
    · simp only [eventsBeforeDone, List.map_cons, List.takeWhile_cons, hd]
      split
      · simp only [List.filterMap_cons, he]
        have := ih.1
        simp only [eventsBeforeDone] at this
        rw [this]
      · rfl
    · simp only [List.map_cons, List.any_cons, hd, ih.2]

/-- The lines the loop of `parseSSEStream` reads carry the events of the lines of the
stream that end with a newline. -/
theorem completeLines_events (decode : String → Option StreamingResponse) (text : String) :
    eventsBeforeDone decode (completeLines [] text.data) =
      eventsBeforeDone decode (terminatedLines text) ∧
    (completeLines [] text.data).any isDoneLine = (terminatedLines text).any isDoneLine := by
  have h : completeLines [] text.data =
      (terminatedLines text).map (fun s => String.mk (s.data ++ ['\n'])) := by
    rw [completeLines_eq_split, terminatedLines, streamLines, Split, ← List.map_dropLast,
      List.map_map]
    rfl
  rw [h]
  exact eventsBeforeDone_map decode _ TrimSpace_append_newline _

/-- C22, amended: with `events` the well-formed "data: " events of the lines of the
stream that end with a newline and precede "[DONE]", or of all such lines when there is
no "[DONE]": when the stream has a "[DONE]" or is read to its end without another error,
`parseSSEStream` returns without error a response whose only choice is the assistant
message with, as content, the content deltas of `events` concatenated in order (and the
tool calls merged from their deltas); the callback, if there is one, receives the
non-empty content deltas of `events`, each once and in that order, and then the end
signal if there is a "[DONE]".  The result depends on the stream through `events` only:
malformed events, comment lines, empty lines and what follows the last newline
contribute nothing, and the events after a line that contributes nothing are read.  A
reading that ends with another error before any "[DONE]" returns that error. -/
theorem parseSSEStream_concatenates_content_deltas
    (decode : String → Option StreamingResponse) (body : Body) (callback : Bool) :
    ((parseSSEStream decode body callback).2 =
      if callback then
        (((eventsBeforeDone decode (terminatedLines body.text)).map contentDelta).filter
            (fun d => decide (d ≠ ""))).map (fun d => (d, false)) ++
          (if (terminatedLines body.text).any isDoneLine then [("", true)] else [])
      else []) ∧
    (((terminatedLines body.text).any isDoneLine = true ∨ body.readError = none) →
      (parseSSEStream decode body callback).1 =
        (some
          { id := (((eventsBeforeDone decode (terminatedLines body.text)).getLast?).getD
              StreamingResponse.zero).id,
            object := "chat.completion",
            created := (((eventsBeforeDone decode (terminatedLines body.text)).getLast?).getD
              StreamingResponse.zero).created,
            model := (((eventsBeforeDone decode (terminatedLines body.text)).getLast?).getD
              StreamingResponse.zero).model,
            choices := [{
              index := 0,
              message := {
                role := "assistant",
                content := String.join
                  ((eventsBeforeDone decode (terminatedLines body.text)).map contentDelta),
                toolCalls :=
                  ((eventsBeforeDone decode (terminatedLines body.text)).map
                    toolCallDeltas).flatten.foldl mergeToolCall [],
                toolCallID := "" },
              finishReason := "stop" }] },
         none)) ∧
    (∀ e, (terminatedLines body.text).any isDoneLine = false → body.readError = some e →
      (parseSSEStream decode body callback).1 = (none, some e)) := by
  have hloop := streamLoop_spec decode callback (completeLines [] body.text.data)
    StreamState.start
  obtain ⟨hev, hany⟩ := completeLines_events decode body.text
  rw [hev, hany] at hloop
  refine ⟨?_, ?_, ?_⟩
  · unfold parseSSEStream
    simp only [hloop]
    have hs : StreamState.start.callbacks = [] := rfl
    split
    · simp only [hs, List.nil_append]
    · split <;> simp only [hs, List.nil_append]
  · intro h
    unfold parseSSEStream
    simp only [hloop]
    have hs : StreamState.start.fullContent = "" := rfl
    rcases h with h | h
    · rw [if_pos h]
      simp only [finalResponse, hs, String.empty_append]
      rfl
    · split
      · simp only [finalResponse, hs, String.empty_append]
        rfl
      · rw [h]
        simp only [finalResponse, hs, String.empty_append]
        rfl
  · intro e h1 h2
    unfold parseSSEStream
    simp only [hloop, h1, h2]
    rfl

/-- C22 as stated fails.  The stream of the event "data: A", a newline and the event
"data: B" has two well-formed "data: " events, with the content deltas "Hel" and "lo",
and no "[DONE]"; the content returned is "Hel" and the callback receives "Hel" only:
the last event, which no newline follows, is not processed.  And a reading that ends
with an error other than the end of the stream returns that error and no message. -/
theorem parseSSEStream_drops_unterminated_last_event :
    (eventsBeforeDone scenarioDecode (streamLines "data: A\ndata: B")).map contentDelta =
      ["Hel", "lo"] ∧
    (streamLines "data: A\ndata: B").any isDoneLine = false ∧
    parseSSEStream scenarioDecode { text := "data: A\ndata: B", readError := none } true =
      ((some { id := "r1", object := "chat.completion", created := 7, model := "m",
               choices := [{ index := 0,
                             message := { role := "assistant", content := "Hel",
                                          toolCalls := [], toolCallID := "" },
                             finishReason := "stop" }] }, none),
        [("Hel", false)]) ∧
    parseSSEStream scenarioDecode
        { text := "data: A\n", readError := some "connection reset" } true =
      ((none, some "connection reset"), [("Hel", false)]) := by
  decide

end ClosedWheeler
